import Mathlib

/-!
# PengEngine: the draw call tree (`src/rendering/draw_call_tree.cpp`)

A shallow embedding of `rendering::DrawCallTree`: the constructor (global sort by
`order`, insertion of blended and of non-blended draw calls, re-sort of the shader
groups by `draw_order`, merge pass) and `execute`.

* `std::vector` is `List`; `push_back` is `++ [x]`, `v[i]` is `v[i]?` with an
  `out_of_bounds` failure where the index is not in range.
* `std::unordered_map` is an association list read with `map_find`; `m[k] = v`
  is `map_assign`.
* Handles (`shared_ref`, `shared_ptr`) are values compared with `=`; a nullable
  handle is an `Option`.
* `std::ranges::sort` is a parameter (`RangesSort`): the standard fixes its result
  only up to the order of equivalent elements, see `RangesSort.Contract`. The routine
  of GNU libstdc++ (`bits/stl_algo.h`, `bits/stl_heap.h`) is embedded function by
  function as `libstdcxx_sort` and shown to meet the contract
  (`libstdcxx_sort_contract`); up to 16 elements it is an insertion sort, beyond it
  reorders equivalent elements.
* `check(e)` depends on the build (`utils/check.h`), see `BuildConfig` and `check`.
-/

set_option linter.dupNamespace false

namespace rendering

/-! ## Resources and draw calls (declarations that are not part of `src/`) -/

/-- Modelled from the spec: `shader.h` is missing. A shader handle; `=` is identity of
the shader resource, `requires_blending` and `draw_order` are what the shader answers. -/
structure Shader where
  id : Nat
  requires_blending : Bool
  draw_order : Int
deriving DecidableEq, Repr

/-- Modelled from the spec: `mesh.h` is missing. A mesh handle; `=` is identity of the
mesh resource, `num_triangles` its triangle count. -/
structure Mesh where
  id : Nat
  num_triangles : Nat
deriving DecidableEq, Repr

/-- Modelled from the spec: `material.h` is missing. A material instance, which owns a
(non-null) reference to its shader. -/
structure Material where
  id : Nat
  shader : Shader
deriving DecidableEq, Repr

/-- Modelled from the spec: `draw_call.h` is missing. `mesh` and `material` are nullable
pointers, `order` is the numeric ordering key, `instance_count` a count. -/
structure DrawCall where
  mesh : Option Mesh
  material : Option Material
  order : Int
  instance_count : Nat
deriving DecidableEq, Repr

/-- Modelled from the spec: `draw_call_tree.h` is missing. The fields are the ones the
source file reads and writes; `index` is left out by the designated initialisers of
`add_blended_draw` and is then zero. -/
structure MeshDrawTree where
  index : Nat := 0
  mesh : Mesh
  draw_calls : List DrawCall := []
deriving DecidableEq, Repr

/-- Modelled from the spec: `draw_call_tree.h` is missing, see `MeshDrawTree`. -/
structure ShaderDrawTree where
  index : Nat := 0
  shader : Shader
  mesh_draws : List MeshDrawTree := []
deriving DecidableEq, Repr

/-- Modelled from the spec: `render_queue_stats.h` is missing. Four running counters. -/
structure RenderQueueStats where
  shader_switches : Nat
  mesh_switches : Nat
  draw_calls : Nat
  triangles : Nat
deriving DecidableEq, Repr

/-! ## Failures, build configuration, `check` -/

/-- The ways a run stops without a result: a failed `check` that breaks, the use of a
null pointer, an index outside its vector. -/
inductive Failure where
  | check_failed
  | null_dereference
  | out_of_bounds
deriving DecidableEq, Repr

/-- The two preprocessor switches of `utils/check.h`. -/
structure BuildConfig where
  NO_CHECKS : Bool
  _WIN32 : Bool
deriving DecidableEq, Repr

/-- The macro `check(expression)` of `utils/check.h`. With `NO_CHECKS` it is `((void)0)`.
Otherwise a false expression is logged and `_BREAK` runs: `__debugbreak()` under
`_WIN32`, which stops the run, and `((void)0)` elsewhere, which lets it go on. -/
def check (cfg : BuildConfig) (expression : Bool) : Except Failure Unit :=
  if cfg.NO_CHECKS then Except.ok ()
  else if expression then Except.ok ()
  else if cfg._WIN32 then Except.error Failure.check_failed
  else Except.ok ()

/-- The use `p->...` of a nullable pointer. -/
def deref {α : Type} (p : Option α) : Except Failure α :=
  match p with
  | some a => Except.ok a
  | none => Except.error Failure.null_dereference

/-- Modelled from the spec: the smart pointer header is missing. `shared_ref` is the
non-null handle type, so `to_shared_ref` has a result only on a non-null pointer. -/
def to_shared_ref {α : Type} (p : Option α) : Except Failure α :=
  deref p

/-! ## Vectors and maps -/

/-- The helper `vectools::try_back`: the last element, if any. -/
def try_back {α : Type} (v : List α) : Option α :=
  v.getLast?

/-- The lookup `m.find(k)` of a map kept as an association list, newest entry first. -/
def map_find {κ ν : Type} [DecidableEq κ] (m : List (κ × ν)) (k : κ) : Option ν :=
  match m with
  | [] => none
  | (k1, v) :: rest => if k1 = k then some v else map_find rest k

/-- The assignment `m[k] = v`. -/
def map_assign {κ ν : Type} (m : List (κ × ν)) (k : κ) (v : ν) : List (κ × ν) :=
  (k, v) :: m

/-- The write `v[i] = f(v[i])` through a reference to element `i`. -/
def vec_modify {α : Type} (v : List α) (i : Nat) (f : α → α) : List α :=
  match v, i with
  | [], _ => []
  | a :: rest, 0 => f a :: rest
  | a :: rest, n + 1 => a :: vec_modify rest n f

/-- The write through a reference to the last element. -/
def vec_modify_back {α : Type} (v : List α) (f : α → α) : List α :=
  match v with
  | [] => []
  | [a] => [f a]
  | a :: b :: rest => a :: vec_modify_back (b :: rest) f

/-! ## `std::ranges::sort` -/

/-- A sorting routine taking the comparison (`comp x y` is "x goes before y"). -/
abbrev RangesSort := (α : Type) → (α → α → Bool) → List α → List α

/-- A comparison that is a strict weak ordering induced by an integer key. Both
comparisons of the constructor are of this form. -/
def KeyedBy {α : Type} (comp : α → α → Bool) (key : α → Int) : Prop :=
  ∀ x y, comp x y = decide (key x < key y)

/-- What the standard promises of `std::ranges::sort`: the result is a rearrangement of
the input in which no element goes before an earlier one. Nothing is promised on the
relative order of equivalent elements. -/
def RangesSort.Contract (sort : RangesSort) : Prop :=
  ∀ (α : Type) (comp : α → α → Bool) (key : α → Int), KeyedBy comp key →
    ∀ l : List α, (sort α comp l).Perm l ∧ (sort α comp l).Pairwise (fun x y => comp y x = false)

/-- Insertion sort that keeps equivalent elements in their input order. -/
def stable_sort : RangesSort :=
  fun _ comp l => List.insertionSort (fun x y => comp y x = false) l

/-! ## `std::ranges::sort` as GNU libstdc++ implements it

`std::ranges::sort` (`bits/ranges_algo.h`) calls `std::sort`, which calls `std::__sort`
(`bits/stl_algo.h`, with the heap functions of `bits/stl_heap.h`; GCC 12). The functions
below follow that code one by one. A range `[first, last)` is a `List`, an iterator is a
position in it, and a read or write outside the range has no result (`none`). A loop is a
recursion with a bound on its turns that a loop staying inside the range does not reach. -/

section Libstdcxx

variable {α : Type} (comp : α → α → Bool)

/-- The constant `_S_threshold` of `bits/stl_algo.h`. -/
def _S_threshold : Nat := 16

/-- The write `*(first + i) = v`; no result when `i` is outside the array. -/
def store (a : List α) (i : Nat) (v : α) : Option (List α) :=
  if i < a.length then some (a.set i v) else none

/-- The call `__comp(first + i, first + j)`; no result when an index is outside the array. -/
def comp_at (a : List α) (i j : Nat) : Option Bool :=
  match a[i]?, a[j]? with
  | some x, some y => some (comp x y)
  | _, _ => none

/-- The call `std::iter_swap(first + i, first + j)`. -/
def iter_swap (a : List α) (i j : Nat) : Option (List α) :=
  match a[i]?, a[j]? with
  | some x, some y => some ((a.set i y).set j x)
  | _, _ => none

/-- The function `std::__lg`: the position of the highest set bit. -/
def __lg : Nat → Nat → Nat
  | 0, _ => 0
  | fuel + 1, n => if n ≤ 1 then 0 else __lg fuel (n / 2) + 1

/-- The loop of `__unguarded_linear_insert`: `next` is `last - 1`, and the loop has no
result when it would step before the array. -/
def __unguarded_linear_insert_loop (val : α) : List α → Nat → Option (List α)
  | _, 0 => none
  | a, next + 1 =>
    match a[next]? with
    | none => none
    | some x =>
      if comp val x then
        match store a (next + 1) x with
        | none => none
        | some a1 => __unguarded_linear_insert_loop val a1 next
      else store a (next + 1) val

/-- The function `__unguarded_linear_insert(first + last, comp)`. -/
def __unguarded_linear_insert (a : List α) (last : Nat) : Option (List α) :=
  match a[last]? with
  | none => none
  | some val => __unguarded_linear_insert_loop comp val a last

/-- One turn of the loop of `__insertion_sort`, at `i`. -/
def __insertion_sort_step (a : List α) (i : Nat) : Option (List α) :=
  match a[i]?, a[0]? with
  | some val, some front =>
    if comp val front then some (val :: (a.take i ++ a.drop (i + 1)))
    else __unguarded_linear_insert comp a i
  | _, _ => none

/-- The loop of `__insertion_sort(first, first + last, comp)`, with `k` turns left. -/
def __insertion_sort_loop (last : Nat) : Nat → List α → Option (List α)
  | 0, a => some a
  | k + 1, a =>
    match __insertion_sort_step comp a (last - (k + 1)) with
    | none => none
    | some a1 => __insertion_sort_loop last k a1

/-- The function `__insertion_sort(first, first + last, comp)`. -/
def __insertion_sort (a : List α) (last : Nat) : Option (List α) :=
  if last = 0 then some a else __insertion_sort_loop comp last (last - 1) a

/-- The loop of `__unguarded_insertion_sort(first + .., first + last, comp)`, with `k`
turns left. -/
def __unguarded_insertion_sort_loop (last : Nat) : Nat → List α → Option (List α)
  | 0, a => some a
  | k + 1, a =>
    match __unguarded_linear_insert comp a (last - (k + 1)) with
    | none => none
    | some a1 => __unguarded_insertion_sort_loop last k a1

/-- The function `__unguarded_insertion_sort(first + i, first + last, comp)`. -/
def __unguarded_insertion_sort (a : List α) (i last : Nat) : Option (List α) :=
  __unguarded_insertion_sort_loop comp last (last - i) a

/-- The function `__final_insertion_sort(first, last, comp)` on the whole array. -/
def __final_insertion_sort (a : List α) : Option (List α) :=
  if a.length > _S_threshold then
    match __insertion_sort comp a _S_threshold with
    | none => none
    | some a1 => __unguarded_insertion_sort comp a1 _S_threshold a1.length
  else __insertion_sort comp a a.length

/-- The function `__move_median_to_first(first + result, first + ia, first + ib, first + ic, comp)`. -/
def __move_median_to_first (a : List α) (result ia ib ic : Nat) : Option (List α) :=
  match comp_at comp a ia ib, comp_at comp a ib ic, comp_at comp a ia ic with
  | some ab, some bc, some ac =>
    if ab then
      if bc then iter_swap a result ib
      else if ac then iter_swap a result ic
      else iter_swap a result ia
    else if ac then iter_swap a result ia
    else if bc then iter_swap a result ic
    else iter_swap a result ib
  | _, _, _ => none

/-- The loop `while (__comp(__first, __pivot)) ++__first;` of `__unguarded_partition`. -/
def partition_scan_up (a : List α) (pivot : Nat) : Nat → Nat → Option Nat
  | 0, _ => none
  | fuel + 1, first =>
    match comp_at comp a first pivot with
    | none => none
    | some true => partition_scan_up a pivot fuel (first + 1)
    | some false => some first

/-- The loop `while (__comp(__pivot, __last)) --__last;` of `__unguarded_partition`. -/
def partition_scan_down (a : List α) (pivot : Nat) : Nat → Option Nat
  | 0 =>
    match comp_at comp a pivot 0 with
    | some false => some 0
    | _ => none
  | last + 1 =>
    match comp_at comp a pivot (last + 1) with
    | none => none
    | some true => partition_scan_down a pivot last
    | some false => some (last + 1)

/-- The function `__unguarded_partition(first + first, first + last, first + pivot, comp)`;
the result is the array and the cut. -/
def __unguarded_partition : Nat → List α → Nat → Nat → Nat → Option (List α × Nat)
  | 0, _, _, _, _ => none
  | fuel + 1, a, first, last, pivot =>
    match partition_scan_up comp a pivot (a.length + 1) first with
    | none => none
    | some first1 =>
      match last with
      | 0 => none
      | last0 + 1 =>
        match partition_scan_down comp a pivot last0 with
        | none => none
        | some last1 =>
          if first1 < last1 then
            match iter_swap a first1 last1 with
            | none => none
            | some a1 => __unguarded_partition fuel a1 (first1 + 1) last1 pivot
          else some (a, first1)

/-- The function `__unguarded_partition_pivot(first, last, comp)` on the whole range. -/
def __unguarded_partition_pivot (a : List α) : Option (List α × Nat) :=
  match __move_median_to_first comp a 0 1 (a.length / 2) (a.length - 1) with
  | none => none
  | some a1 => __unguarded_partition comp a1.length a1 1 a1.length 0

/-- The function `__push_heap(first, holeIndex, topIndex, value, comp)`. -/
def __push_heap (topIndex : Nat) (value : α) : Nat → List α → Nat → Option (List α)
  | 0, _, _ => none
  | fuel + 1, a, holeIndex =>
    if holeIndex > topIndex then
      match a[(holeIndex - 1) / 2]? with
      | none => none
      | some p =>
        if comp p value then
          match store a holeIndex p with
          | none => none
          | some a1 => __push_heap topIndex value fuel a1 ((holeIndex - 1) / 2)
        else store a holeIndex value
    else store a holeIndex value

/-- The first loop of `__adjust_heap`; the result is the array, `holeIndex` and
`secondChild`. -/
def __adjust_heap_loop (len : Nat) : Nat → List α → Nat → Nat → Option (List α × Nat × Nat)
  | 0, _, _, _ => none
  | fuel + 1, a, holeIndex, secondChild =>
    if secondChild < (len - 1) / 2 then
      let c := 2 * (secondChild + 1)
      match comp_at comp a c (c - 1) with
      | none => none
      | some lt =>
        let c1 := if lt then c - 1 else c
        match a[c1]? with
        | none => none
        | some x =>
          match store a holeIndex x with
          | none => none
          | some a1 => __adjust_heap_loop len fuel a1 c1 c1
    else some (a, holeIndex, secondChild)

/-- The function `__adjust_heap(first, holeIndex, len, value, comp)`. -/
def __adjust_heap (a : List α) (holeIndex len : Nat) (value : α) : Option (List α) :=
  match __adjust_heap_loop comp len (len + 1) a holeIndex holeIndex with
  | none => none
  | some (a1, hole1, secondChild) =>
    if len % 2 = 0 ∧ secondChild = (len - 2) / 2 then
      let c := 2 * (secondChild + 1)
      match a1[c - 1]? with
      | none => none
      | some x =>
        match store a1 hole1 x with
        | none => none
        | some a2 => __push_heap comp holeIndex value (c + 1) a2 (c - 1)
    else __push_heap comp holeIndex value (hole1 + 2) a1 hole1

/-- The function `__pop_heap(first, first + last, first + result, comp)`. -/
def __pop_heap (a : List α) (last result : Nat) : Option (List α) :=
  match a[result]?, a[0]? with
  | some value, some top =>
    match store a result top with
    | none => none
    | some a1 => __adjust_heap comp a1 0 last value
  | _, _ => none

/-- The loop of `__make_heap`, at `parent`. -/
def __make_heap_loop (len : Nat) : Nat → List α → Option (List α)
  | 0, a =>
    match a[0]? with
    | none => none
    | some value => __adjust_heap comp a 0 len value
  | parent + 1, a =>
    match a[parent + 1]? with
    | none => none
    | some value =>
      match __adjust_heap comp a (parent + 1) len value with
      | none => none
      | some a1 => __make_heap_loop len parent a1

/-- The function `__make_heap(first, first + last, comp)`. -/
def __make_heap (a : List α) (last : Nat) : Option (List α) :=
  if last < 2 then some a else __make_heap_loop comp last ((last - 2) / 2) a

/-- The function `__sort_heap(first, first + last, comp)`. -/
def __sort_heap : List α → Nat → Option (List α)
  | a, 0 => some a
  | a, last + 1 =>
    if last + 1 > 1 then
      match __pop_heap comp a last last with
      | none => none
      | some a1 => __sort_heap a1 last
    else some a

/-- The function `__heap_select(first, first + middle, first + last, comp)` for
`middle = last`, the only way `__introsort_loop` calls it: its loop has no turn. -/
def __heap_select (a : List α) : Option (List α) :=
  __make_heap comp a a.length

/-- The function `__partial_sort(first, last, last, comp)` on the whole range. -/
def __partial_sort (a : List α) : Option (List α) :=
  match __heap_select comp a with
  | none => none
  | some a1 => __sort_heap comp a1 a1.length

/-- The function `__introsort_loop(first, last, depth_limit, comp)` on the range `a`: the
`while` loop goes on with the part before the cut and the lowered depth limit, which is
the second call here. -/
def __introsort_loop : Nat → List α → Option (List α)
  | depth_limit, a =>
    if a.length > _S_threshold then
      match depth_limit with
      | 0 => __partial_sort comp a
      | depth_limit1 + 1 =>
        match __unguarded_partition_pivot comp a with
        | none => none
        | some (a1, cut) =>
          match __introsort_loop depth_limit1 (a1.drop cut) with
          | none => none
          | some right =>
            match __introsort_loop depth_limit1 (a1.take cut) with
            | none => none
            | some left => some (left ++ right)
    else some a

/-- The function `__sort(first, last, comp)`. -/
def __sort (a : List α) : Option (List α) :=
  if a.length = 0 then some a
  else
    match __introsort_loop comp (__lg a.length a.length * 2) a with
    | none => none
    | some a1 => __final_insertion_sort comp a1

end Libstdcxx

/-- The call `std::ranges::sort(v, comp)` as GNU libstdc++ runs it. A step outside the
array has no defined behaviour; the vector is then given back as it was. With the two
comparisons of the constructor this never happens (`sort_eq`). -/
def libstdcxx_sort : RangesSort :=
  fun _ comp l =>
    match __sort comp l with
    | some r => r
    | none => l

/-! ## Notions used to reason about the sort of GNU libstdc++ -/

/-- What `__unguarded_linear_insert` makes of a sorted range and the value behind it: the
value stands behind the last element that does not go after it. -/
def linear_insert {α : Type} (comp : α → α → Bool) (val : α) : List α → List α
  | [] => [val]
  | e :: rest => if comp val e then val :: e :: rest else e :: linear_insert comp val rest

/-- Every element of `R` has an element before it, in `P` or in `R`, that does not go after
it, so that `__unguarded_linear_insert` stops inside the array. -/
def Guarded {α : Type} (comp : α → α → Bool) (P R : List α) : Prop :=
  ∀ R1 v R2, R = R1 ++ v :: R2 → ∃ e, (e ∈ P ∨ e ∈ R1) ∧ comp v e = false

/-- Every element from position `_S_threshold` on has an element before it that does not
go after it: what `__introsort_loop` leaves for `__final_insertion_sort`. -/
def Blocked {α : Type} (comp : α → α → Bool) (r : List α) : Prop :=
  ∀ R1 v R2, r = R1 ++ v :: R2 → _S_threshold ≤ R1.length → ∃ e ∈ R1, comp v e = false

/-- The positions of the heap below `top`: `top` and the children `2 * h + 1`, `2 * h + 2`
of the positions below it. -/
inductive Below (top : Nat) : Nat → Prop where
  | self : Below top top
  | left (h : Nat) : Below top h → Below top (2 * h + 1)
  | right (h : Nat) : Below top h → Below top (2 * h + 2)

/-- In the first `len` elements, no element at `lo` or behind goes before one of its two
children: the heap the functions of `bits/stl_heap.h` keep. -/
def HeapFrom {α : Type} (comp : α → α → Bool) (a : List α) (len lo : Nat) : Prop :=
  ∀ c x y, 0 < c → c < len → lo ≤ (c - 1) / 2 → a[(c - 1) / 2]? = some x → a[c]? = some y →
    comp x y = false

/-- The heap from `top` on with a hole at `h`: the heap holds wherever the hole is not
involved, and the element above the hole does not go before the elements below it. -/
def HoleHeap {α : Type} (comp : α → α → Bool) (a : List α) (len top h : Nat) : Prop :=
  (∀ c x y, 0 < c → c < len → top ≤ (c - 1) / 2 → c ≠ h → (c - 1) / 2 ≠ h →
    a[(c - 1) / 2]? = some x → a[c]? = some y → comp x y = false) ∧
  (top < h → ∀ c x y, 0 < c → c < len → (c - 1) / 2 = h →
    a[(h - 1) / 2]? = some x → a[c]? = some y → comp x y = false)

/-- What `__adjust_heap` and `__push_heap` keep while the hole moves: the vector `a` with
`value` in the hole is a rearrangement of the vector `a0` with `value` at `top`, and
nothing outside the heap is written. -/
def HoleInv {α : Type} (comp : α → α → Bool) (a0 : List α) (len top : Nat) (value : α)
    (a : List α) (h : Nat) : Prop :=
  a.length = a0.length ∧ Below top h ∧ h < len ∧ HoleHeap comp a len top h ∧
    (a.set h value).Perm (a0.set top value) ∧ ∀ i, len ≤ i → a[i]? = a0[i]?

/-! ## The tree and its construction -/

/-- The class `DrawCallTree`: the shader groups and the two index maps. -/
structure DrawCallTree where
  _shader_draws : List ShaderDrawTree := []
  _shader_draw_indices : List (Shader × Nat) := []
  _mesh_draw_indices : List ((Shader × Mesh) × (Nat × Nat)) := []
deriving DecidableEq, Repr

/-- The method `find_add_shader_draw`; the reference it returns is given as the position
of the group in `_shader_draws`. -/
def DrawCallTree.find_add_shader_draw (self : DrawCallTree) (shader : Shader) :
    Except Failure (DrawCallTree × Nat) :=
  match map_find self._shader_draw_indices shader with
  | some i =>
    if i < self._shader_draws.length then Except.ok (self, i)
    else Except.error Failure.out_of_bounds
  | none =>
    let shader_draw : ShaderDrawTree :=
      { index := self._shader_draws.length, shader := shader }
    Except.ok
      ({ self with
          _shader_draw_indices := map_assign self._shader_draw_indices shader shader_draw.index
          _shader_draws := self._shader_draws ++ [shader_draw] },
        shader_draw.index)

/-- The method `find_add_mesh_draw`; the reference it returns is given as the position
of the shader group and the position of the mesh group inside it. -/
def DrawCallTree.find_add_mesh_draw (self : DrawCallTree) (shader : Shader) (mesh : Mesh) :
    Except Failure (DrawCallTree × Nat × Nat) :=
  match map_find self._mesh_draw_indices (shader, mesh) with
  | some (i, j) =>
    match self._shader_draws[i]? with
    | none => Except.error Failure.out_of_bounds
    | some sd =>
      if j < sd.mesh_draws.length then Except.ok (self, i, j)
      else Except.error Failure.out_of_bounds
  | none =>
    match self.find_add_shader_draw shader with
    | Except.error e => Except.error e
    | Except.ok (self1, p) =>
      match self1._shader_draws[p]? with
      | none => Except.error Failure.out_of_bounds
      | some shader_draw =>
        let mesh_draw : MeshDrawTree :=
          { index := shader_draw.mesh_draws.length, mesh := mesh }
        Except.ok
          ({ self1 with
              _mesh_draw_indices :=
                map_assign self1._mesh_draw_indices (shader, mesh)
                  (shader_draw.index, mesh_draw.index)
              _shader_draws :=
                vec_modify self1._shader_draws p
                  (fun sd => { sd with mesh_draws := sd.mesh_draws ++ [mesh_draw] }) },
            p, mesh_draw.index)

/-- The method `add_opaque_draw`. -/
def DrawCallTree.add_opaque_draw (self : DrawCallTree) (draw_call : DrawCall) :
    Except Failure DrawCallTree :=
  match deref draw_call.material with
  | Except.error e => Except.error e
  | Except.ok material =>
    match to_shared_ref draw_call.mesh with
    | Except.error e => Except.error e
    | Except.ok mesh =>
      match self.find_add_mesh_draw material.shader mesh with
      | Except.error e => Except.error e
      | Except.ok (self1, i, j) =>
        Except.ok
          { self1 with
            _shader_draws :=
              vec_modify self1._shader_draws i
                (fun sd => { sd with
                  mesh_draws := vec_modify sd.mesh_draws j
                    (fun md => { md with draw_calls := md.draw_calls ++ [draw_call] }) }) }

/-- The first half of `add_blended_draw`: the shader groups after a group for `shader`
was appended unless the last group already has that shader. -/
def blended_shader_draws (shader_draws : List ShaderDrawTree) (shader : Shader) :
    List ShaderDrawTree :=
  match try_back shader_draws with
  | none => shader_draws ++ [{ shader := shader }]
  | some shader_draw =>
    if shader_draw.shader ≠ shader then shader_draws ++ [{ shader := shader }]
    else shader_draws

/-- The second half of `add_blended_draw`, on the mesh groups of the last shader group:
a group for the mesh is appended unless the last group already has that mesh, and the
draw call is pushed onto the last group. -/
def blended_mesh_draws (mesh_draws : List MeshDrawTree) (draw_call : DrawCall) :
    Except Failure (List MeshDrawTree) :=
  let push := fun (md : MeshDrawTree) =>
    { md with draw_calls := md.draw_calls ++ [draw_call] }
  let fresh := fun (_ : Unit) =>
    match to_shared_ref draw_call.mesh with
    | Except.error e => Except.error e
    | Except.ok mesh => Except.ok (mesh_draws ++ [push { mesh := mesh }])
  match try_back mesh_draws with
  | none => fresh ()
  | some mesh_draw =>
    if some mesh_draw.mesh ≠ draw_call.mesh then fresh ()
    else Except.ok (vec_modify_back mesh_draws push)

/-- The method `add_blended_draw`: only the last group of each stage is tried. -/
def DrawCallTree.add_blended_draw (self : DrawCallTree) (draw_call : DrawCall) :
    Except Failure DrawCallTree :=
  match deref draw_call.material with
  | Except.error e => Except.error e
  | Except.ok material =>
    let shader_draws := blended_shader_draws self._shader_draws material.shader
    match try_back shader_draws with
    | none => Except.error Failure.out_of_bounds
    | some shader_draw =>
      match blended_mesh_draws shader_draw.mesh_draws draw_call with
      | Except.error e => Except.error e
      | Except.ok mesh_draws =>
        Except.ok
          { self with
            _shader_draws :=
              vec_modify_back shader_draws (fun sd => { sd with mesh_draws := mesh_draws }) }

/-- The method `merge_mesh_draws`, as the loop over `mesh_draws` that grows
`merged_draws`. -/
def merge_mesh_draws_loop (merged_draws : List MeshDrawTree) (mesh_draws : List MeshDrawTree) :
    List MeshDrawTree :=
  match mesh_draws with
  | [] => merged_draws
  | mesh_draw :: rest =>
    match try_back merged_draws with
    | none => merge_mesh_draws_loop (merged_draws ++ [mesh_draw]) rest
    | some current =>
      if current.mesh = mesh_draw.mesh then
        merge_mesh_draws_loop
          (vec_modify_back merged_draws
            (fun c => { c with draw_calls := c.draw_calls ++ mesh_draw.draw_calls })) rest
      else merge_mesh_draws_loop (merged_draws ++ [mesh_draw]) rest

/-- The method `merge_mesh_draws`. -/
def merge_mesh_draws (mesh_draws : List MeshDrawTree) : List MeshDrawTree :=
  merge_mesh_draws_loop [] mesh_draws

/-- The method `merge_shader_draws`, as the loop over `shader_draws` that grows
`merged_draws`. -/
def merge_shader_draws_loop (merged_draws : List ShaderDrawTree)
    (shader_draws : List ShaderDrawTree) : List ShaderDrawTree :=
  match shader_draws with
  | [] => merged_draws
  | shader_draw :: rest =>
    match try_back merged_draws with
    | none => merge_shader_draws_loop (merged_draws ++ [shader_draw]) rest
    | some current =>
      if current.shader = shader_draw.shader then
        merge_shader_draws_loop
          (vec_modify_back merged_draws
            (fun c => { c with mesh_draws := c.mesh_draws ++ shader_draw.mesh_draws })) rest
      else merge_shader_draws_loop (merged_draws ++ [shader_draw]) rest

/-- The method `merge_shader_draws`. -/
def merge_shader_draws (shader_draws : List ShaderDrawTree) : List ShaderDrawTree :=
  merge_shader_draws_loop [] shader_draws

/-- The method `merge_tree`, on the vector of shader groups. -/
def merge_tree (shader_draws : List ShaderDrawTree) : List ShaderDrawTree :=
  (merge_shader_draws shader_draws).map
    (fun sd => { sd with mesh_draws := merge_mesh_draws sd.mesh_draws })

/-! ## Execution -/

/-- A command issued to the GPU by `execute`. -/
inductive GpuCommand where
  | use (shader : Shader)
  | bind (mesh : Mesh)
  | apply_uniforms (material : Material)
  | bind_buffers (material : Material)
  | draw (mesh : Mesh)
  | draw_instanced (mesh : Mesh) (instance_count : Nat)
deriving DecidableEq, Repr

/-- What a run of `execute` has done so far: the statistics record, the commands issued,
and (a ghost field) the draw calls dispatched, in order. -/
structure Execution where
  stats : RenderQueueStats
  commands : List GpuCommand
  dispatched : List DrawCall
deriving DecidableEq, Repr

/-- The innermost loop of `execute`, over the draw calls of one mesh group. The second
check reads `draw_call.material->shader()`; a null material ends the run there or, with
`NO_CHECKS`, at `apply_uniforms` on the next line. -/
def execute_draw_calls (cfg : BuildConfig) (shader : Shader) (mesh : Mesh)
    (draw_calls : List DrawCall) (ex : Execution) : Except Failure Execution :=
  match draw_calls with
  | [] => Except.ok ex
  | draw_call :: rest =>
    match check cfg draw_call.material.isSome with
    | Except.error e => Except.error e
    | Except.ok _ =>
      match deref draw_call.material with
      | Except.error e => Except.error e
      | Except.ok material =>
        match check cfg (decide (material.shader = shader)) with
        | Except.error e => Except.error e
        | Except.ok _ =>
          execute_draw_calls cfg shader mesh rest
            { stats :=
                { ex.stats with
                  draw_calls := ex.stats.draw_calls + 1
                  triangles := ex.stats.triangles + draw_call.instance_count * mesh.num_triangles }
              commands :=
                ex.commands ++
                  [GpuCommand.apply_uniforms material, GpuCommand.bind_buffers material,
                    if draw_call.instance_count = 1 then GpuCommand.draw mesh
                    else GpuCommand.draw_instanced mesh draw_call.instance_count]
              dispatched := ex.dispatched ++ [draw_call] }

/-- The middle loop of `execute`, over the mesh groups of one shader group. -/
def execute_mesh_draws (cfg : BuildConfig) (shader : Shader) (mesh_draws : List MeshDrawTree)
    (ex : Execution) : Except Failure Execution :=
  match mesh_draws with
  | [] => Except.ok ex
  | mesh_draw :: rest =>
    match execute_draw_calls cfg shader mesh_draw.mesh mesh_draw.draw_calls
        { ex with
          stats := { ex.stats with mesh_switches := ex.stats.mesh_switches + 1 }
          commands := ex.commands ++ [GpuCommand.bind mesh_draw.mesh] } with
    | Except.error e => Except.error e
    | Except.ok ex1 => execute_mesh_draws cfg shader rest ex1

/-- The outer loop of `execute`, over the shader groups. -/
def execute_shader_draws (cfg : BuildConfig) (shader_draws : List ShaderDrawTree)
    (ex : Execution) : Except Failure Execution :=
  match shader_draws with
  | [] => Except.ok ex
  | shader_draw :: rest =>
    match execute_mesh_draws cfg shader_draw.shader shader_draw.mesh_draws
        { ex with
          stats := { ex.stats with shader_switches := ex.stats.shader_switches + 1 }
          commands := ex.commands ++ [GpuCommand.use shader_draw.shader] } with
    | Except.error e => Except.error e
    | Except.ok ex1 => execute_shader_draws cfg rest ex1

/-- The method `DrawCallTree::execute` on the statistics record `stats`. -/
def DrawCallTree.execute (cfg : BuildConfig) (self : DrawCallTree) (stats : RenderQueueStats) :
    Except Failure Execution :=
  execute_shader_draws cfg self._shader_draws { stats := stats, commands := [], dispatched := [] }

/-! ## The constructor -/

/-- The loop of the constructor over the ordered draw calls. -/
def DrawCallTree.insert_all (cfg : BuildConfig) (self : DrawCallTree)
    (draw_calls_ordered : List DrawCall) : Except Failure DrawCallTree :=
  match draw_calls_ordered with
  | [] => Except.ok self
  | draw_call :: rest =>
    match check cfg draw_call.material.isSome with
    | Except.error e => Except.error e
    | Except.ok _ =>
      match check cfg draw_call.mesh.isSome with
      | Except.error e => Except.error e
      | Except.ok _ =>
        match deref draw_call.material with
        | Except.error e => Except.error e
        | Except.ok material =>
          match (if material.shader.requires_blending then self.add_blended_draw draw_call
                 else self.add_opaque_draw draw_call) with
          | Except.error e => Except.error e
          | Except.ok self1 => DrawCallTree.insert_all cfg self1 rest

/-- The comparison of the first sort of the constructor. -/
def order_comp (x y : DrawCall) : Bool :=
  decide (x.order < y.order)

/-- The comparison of the second sort of the constructor. -/
def draw_order_comp (x y : ShaderDrawTree) : Bool :=
  decide (x.shader.draw_order < y.shader.draw_order)

/-- The constructor `DrawCallTree::DrawCallTree`. -/
def DrawCallTree.DrawCallTree (cfg : BuildConfig) (sort : RangesSort)
    (draw_calls : List DrawCall) : Except Failure DrawCallTree :=
  let draw_calls_ordered := sort DrawCall order_comp draw_calls
  match DrawCallTree.insert_all cfg {} draw_calls_ordered with
  | Except.error e => Except.error e
  | Except.ok self =>
    Except.ok
      { self with
        _shader_draws := merge_tree (sort ShaderDrawTree draw_order_comp self._shader_draws) }

/-! ## Derived notions used to state the properties -/

/-- The draw calls of a sequence of mesh groups, in the order `execute` walks them. -/
def mesh_draws_calls (mesh_draws : List MeshDrawTree) : List DrawCall :=
  mesh_draws.flatMap (fun md => md.draw_calls)

/-- The draw calls of a sequence of shader groups, in the order `execute` walks them. -/
def dispatch_order (shader_draws : List ShaderDrawTree) : List DrawCall :=
  shader_draws.flatMap (fun sd => mesh_draws_calls sd.mesh_draws)

/-- The total number of mesh groups over all shader groups. -/
def mesh_group_count (shader_draws : List ShaderDrawTree) : Nat :=
  (shader_draws.map (fun sd => sd.mesh_draws.length)).sum

/-- Every draw call stored in a mesh group has the mesh of that group and a material
whose shader is the shader of the enclosing shader group. -/
def WellGrouped (shader_draws : List ShaderDrawTree) : Prop :=
  ∀ sd ∈ shader_draws, ∀ md ∈ sd.mesh_draws, ∀ dc ∈ md.draw_calls,
    dc.mesh = some md.mesh ∧ ∃ material, dc.material = some material ∧ material.shader = sd.shader

/-- A draw call with a mesh and a material. -/
def DrawCall.valid (dc : DrawCall) : Prop :=
  dc.mesh.isSome = true ∧ dc.material.isSome = true

instance (dc : DrawCall) : Decidable dc.valid := by
  unfold DrawCall.valid
  infer_instance

/-- The triangle count `execute` adds for a valid draw call drawn with its own mesh. -/
def DrawCall.triangles (dc : DrawCall) : Nat :=
  match dc.mesh with
  | some mesh => dc.instance_count * mesh.num_triangles
  | none => 0

/-- The shader a draw call is drawn with, when it has a material. -/
def DrawCall.shader (dc : DrawCall) : Option Shader :=
  dc.material.map (fun material => material.shader)

/-- What the shader of the draw call answers to `requires_blending()`; `false` when the
draw call has no material. -/
def DrawCall.requires_blending (dc : DrawCall) : Bool :=
  match dc.material with
  | some material => material.shader.requires_blending
  | none => false

/-- The `draw_order()` of the shader of the draw call; zero when the draw call has no
material. -/
def DrawCall.draw_order (dc : DrawCall) : Int :=
  match dc.material with
  | some material => material.shader.draw_order
  | none => 0

/-- The adjacent-fold both merge loops perform, written from the current group onwards:
`c` is the last merged group, the list is what is still to be read. -/
def fuse {α κ : Type} [DecidableEq κ] (key : α → κ) (combine : α → α → α) (c : α) :
    List α → List α
  | [] => [c]
  | x :: rest =>
    if key c = key x then fuse key combine (combine c x) rest
    else c :: fuse key combine x rest

/-- The way `merge_mesh_draws` joins two mesh groups. -/
def join_mesh (c x : MeshDrawTree) : MeshDrawTree :=
  { c with draw_calls := c.draw_calls ++ x.draw_calls }

/-- The way `merge_shader_draws` joins two shader groups. -/
def join_shader (c x : ShaderDrawTree) : ShaderDrawTree :=
  { c with mesh_draws := c.mesh_draws ++ x.mesh_draws }

/-- The command binds a shader. -/
def GpuCommand.is_use : GpuCommand → Bool
  | GpuCommand.use _ => true
  | _ => false

/-- The command binds a mesh. -/
def GpuCommand.is_bind : GpuCommand → Bool
  | GpuCommand.bind _ => true
  | _ => false

/-- The command is a draw dispatch, single or instanced. -/
def GpuCommand.is_dispatch : GpuCommand → Bool
  | GpuCommand.draw _ => true
  | GpuCommand.draw_instanced _ _ => true
  | _ => false

/-- What a stretch of `execute` did between the states `ex` and `ex1`: it bound `shaders`
shaders and `meshes` meshes and dispatched the draw calls `calls`, and moved the four
counters accordingly. -/
def Ran (ex ex1 : Execution) (shaders meshes : Nat) (calls : List DrawCall) : Prop :=
  ex1.stats.shader_switches = ex.stats.shader_switches + shaders ∧
  ex1.stats.mesh_switches = ex.stats.mesh_switches + meshes ∧
  ex1.stats.draw_calls = ex.stats.draw_calls + calls.length ∧
  ex1.stats.triangles = ex.stats.triangles + (calls.map DrawCall.triangles).sum ∧
  ex1.dispatched = ex.dispatched ++ calls ∧
  ex1.commands.countP GpuCommand.is_use = ex.commands.countP GpuCommand.is_use + shaders ∧
  ex1.commands.countP GpuCommand.is_bind = ex.commands.countP GpuCommand.is_bind + meshes ∧
  ex1.commands.countP GpuCommand.is_dispatch
    = ex.commands.countP GpuCommand.is_dispatch + calls.length

/-! ## Invariants of the insertion phase -/

/-- Position by position, `b` has an element related to the one of `a`; `b` may be longer. -/
def Pointwise {α : Type} (R : α → α → Prop) (a b : List α) : Prop :=
  ∀ (i : Nat) (x : α), a[i]? = some x → ∃ y, b[i]? = some y ∧ R x y

/-- The mesh groups keep their positions and meshes. -/
def MeshExt (a b : List MeshDrawTree) : Prop :=
  Pointwise (fun md md1 => md1.mesh = md.mesh) a b

/-- The shader groups keep their positions, shaders and `index` fields, and their mesh
groups keep their positions and meshes: what every insertion does to `_shader_draws`. -/
def Ext (a b : List ShaderDrawTree) : Prop :=
  Pointwise (fun sd sd1 => sd1.shader = sd.shader ∧ sd1.index = sd.index ∧
    MeshExt sd.mesh_draws sd1.mesh_draws) a b

/-- Every entry of the two index maps is in range and points at the group of exactly
that shader (and mesh). -/
def IndexOK (t : DrawCallTree) : Prop :=
  (∀ (s : Shader) (i : Nat), map_find t._shader_draw_indices s = some i →
    ∃ sd, t._shader_draws[i]? = some sd ∧ sd.shader = s ∧ sd.index = i) ∧
  (∀ (s : Shader) (m : Mesh) (i j : Nat), map_find t._mesh_draw_indices (s, m) = some (i, j) →
    ∃ sd md, t._shader_draws[i]? = some sd ∧ sd.shader = s ∧
      sd.mesh_draws[j]? = some md ∧ md.mesh = m)

/-- The (shader, mesh) keys of the mesh groups of one shader group, none for a shader
that requires blending. -/
def unblended_keys_of (sd : ShaderDrawTree) : List (Shader × Mesh) :=
  if sd.shader.requires_blending then [] else sd.mesh_draws.map (fun md => (sd.shader, md.mesh))

/-- The (shader, mesh) keys of all mesh groups whose shader does not require blending,
in tree order. -/
def unblended_keys (shader_draws : List ShaderDrawTree) : List (Shader × Mesh) :=
  shader_draws.flatMap unblended_keys_of

/-- Every mesh group of a shader without blending is registered in the mesh index map. -/
def KeysRegistered (t : DrawCallTree) : Prop :=
  ∀ k, map_find t._mesh_draw_indices k = none → k ∉ unblended_keys t._shader_draws

/-- The draw call pushed onto a mesh group. -/
def push_call (dc : DrawCall) (md : MeshDrawTree) : MeshDrawTree :=
  { md with draw_calls := md.draw_calls ++ [dc] }

/-- The three things an insertion of a draw call `dc` of shader `s` and mesh `m` can do
to the vector of shader groups: push onto an existing mesh group, append a mesh group to
an existing shader group, append a shader group. -/
inductive Step (s : Shader) (m : Mesh) (dc : DrawCall) :
    List ShaderDrawTree → List ShaderDrawTree → Prop where
  | push (pre : List ShaderDrawTree) (sd : ShaderDrawTree) (post : List ShaderDrawTree)
      (mpre : List MeshDrawTree) (md : MeshDrawTree) (mpost : List MeshDrawTree)
      (hs : sd.shader = s) (hm : md.mesh = m) (hmd : sd.mesh_draws = mpre ++ md :: mpost) :
      Step s m dc (pre ++ sd :: post)
        (pre ++ { sd with mesh_draws := mpre ++ push_call dc md :: mpost } :: post)
  | new_mesh (pre : List ShaderDrawTree) (sd : ShaderDrawTree) (post : List ShaderDrawTree)
      (k : Nat) (hs : sd.shader = s) :
      Step s m dc (pre ++ sd :: post)
        (pre ++ { sd with
            mesh_draws := sd.mesh_draws ++ [{ index := k, mesh := m, draw_calls := [dc] }] }
          :: post)
  | new_shader (sds : List ShaderDrawTree) (k1 k2 : Nat) :
      Step s m dc sds
        (sds ++ [{ index := k1, shader := s,
                   mesh_draws := [{ index := k2, mesh := m, draw_calls := [dc] }] }])

/-- What `add_blended_draw` does to the vector of shader groups: the same three things,
at the back only. -/
def BackStep (s : Shader) (m : Mesh) (dc : DrawCall) (a b : List ShaderDrawTree) : Prop :=
  (∃ pre last mpre mlast, a = pre ++ [last] ∧ last.shader = s ∧
      last.mesh_draws = mpre ++ [mlast] ∧ mlast.mesh = m ∧
      b = pre ++ [{ last with mesh_draws := mpre ++ [push_call dc mlast] }]) ∨
  (∃ pre last, a = pre ++ [last] ∧ last.shader = s ∧
      (∀ mlast, try_back last.mesh_draws = some mlast → mlast.mesh ≠ m) ∧
      b = pre ++ [{ last with
        mesh_draws := last.mesh_draws ++ [{ index := 0, mesh := m, draw_calls := [dc] }] }]) ∨
  ((∀ last, try_back a = some last → last.shader ≠ s) ∧
      b = a ++ [{ index := 0, shader := s,
                  mesh_draws := [{ index := 0, mesh := m, draw_calls := [dc] }] }])

/-- What `add_opaque_draw` does to the tree, by what the index maps hold. -/
inductive OpaqueStep (s : Shader) (m : Mesh) (dc : DrawCall) (t : DrawCallTree) :
    DrawCallTree → Prop where
  | found (i j : Nat) (pre : List ShaderDrawTree) (sd : ShaderDrawTree)
      (post : List ShaderDrawTree) (mpre : List MeshDrawTree) (md : MeshDrawTree)
      (mpost : List MeshDrawTree)
      (hfind : map_find t._mesh_draw_indices (s, m) = some (i, j))
      (hsds : t._shader_draws = pre ++ sd :: post)
      (hs : sd.shader = s) (hm : md.mesh = m) (hmd : sd.mesh_draws = mpre ++ md :: mpost) :
      OpaqueStep s m dc t
        { t with
          _shader_draws :=
            pre ++ { sd with mesh_draws := mpre ++ push_call dc md :: mpost } :: post }
  | new_mesh (pre : List ShaderDrawTree) (sd : ShaderDrawTree) (post : List ShaderDrawTree)
      (hnone : map_find t._mesh_draw_indices (s, m) = none)
      (hsds : t._shader_draws = pre ++ sd :: post)
      (hs : sd.shader = s) (hidx : sd.index = pre.length) :
      OpaqueStep s m dc t
        { _shader_draws :=
            pre ++ { sd with
                mesh_draws := sd.mesh_draws ++
                  [{ index := sd.mesh_draws.length, mesh := m, draw_calls := [dc] }] } :: post
          _shader_draw_indices := t._shader_draw_indices
          _mesh_draw_indices :=
            map_assign t._mesh_draw_indices (s, m) (sd.index, sd.mesh_draws.length) }
  | new_shader
      (hnone : map_find t._mesh_draw_indices (s, m) = none)
      (hnone2 : map_find t._shader_draw_indices s = none) :
      OpaqueStep s m dc t
        { _shader_draws :=
            t._shader_draws ++
              [{ index := t._shader_draws.length, shader := s,
                 mesh_draws := [{ index := 0, mesh := m, draw_calls := [dc] }] }]
          _shader_draw_indices := map_assign t._shader_draw_indices s t._shader_draws.length
          _mesh_draw_indices :=
            map_assign t._mesh_draw_indices (s, m) (t._shader_draws.length, 0) }

/-- The invariant of the insertion loop. -/
def Inv (t : DrawCallTree) : Prop :=
  IndexOK t ∧ WellGrouped t._shader_draws ∧ (unblended_keys t._shader_draws).Nodup ∧
    KeysRegistered t

/-- The trace of the insertion loop over valid draw calls: each one takes the blended or
the other path by what its shader answers. -/
inductive Inserted : DrawCallTree → List DrawCall → DrawCallTree → Prop where
  | done (t : DrawCallTree) : Inserted t [] t
  | blended (t : DrawCallTree) (dc : DrawCall) (material : Material) (m : Mesh)
      (sds : List ShaderDrawTree) (rest : List DrawCall) (t2 : DrawCallTree)
      (hmat : dc.material = some material) (hmesh : dc.mesh = some m)
      (hb : material.shader.requires_blending = true)
      (hstep : BackStep material.shader m dc t._shader_draws sds)
      (hrest : Inserted { t with _shader_draws := sds } rest t2) :
      Inserted t (dc :: rest) t2
  | unblended (t : DrawCallTree) (dc : DrawCall) (material : Material) (m : Mesh)
      (t1 : DrawCallTree) (rest : List DrawCall) (t2 : DrawCallTree)
      (hmat : dc.material = some material) (hmesh : dc.mesh = some m)
      (hb : material.shader.requires_blending = false)
      (hstep : OpaqueStep material.shader m dc t t1)
      (hrest : Inserted t1 rest t2) :
      Inserted t (dc :: rest) t2

/-- The shader groups stand in non-decreasing `draw_order`. -/
def InDrawOrder (shader_draws : List ShaderDrawTree) : Prop :=
  shader_draws.Pairwise (fun a b => a.shader.draw_order ≤ b.shader.draw_order)

/-- Along the list, the `draw_order` of the draw calls' shaders never decreases. -/
def PriorityAscending (l : List DrawCall) : Prop :=
  l.Pairwise (fun a b => ∀ sa sb, a.shader = some sa → b.shader = some sb →
    sa.draw_order ≤ sb.draw_order)

/-! ## A sample frame, used to instantiate the theorems -/

/-- A build without `_WIN32`, checks enabled. -/
def sample_config : BuildConfig := { NO_CHECKS := false, _WIN32 := false }

/-- A blended shader. -/
def glass : Shader := { id := 1, requires_blending := true, draw_order := 0 }

/-- A second blended shader, of the same priority. -/
def water : Shader := { id := 2, requires_blending := true, draw_order := 0 }

/-- A shader without blending. -/
def stone : Shader := { id := 3, requires_blending := false, draw_order := 0 }

/-- A blended shader of a later priority. -/
def smoke : Shader := { id := 4, requires_blending := true, draw_order := 1 }

/-- A mesh of two triangles. -/
def quad : Mesh := { id := 1, num_triangles := 2 }

/-- A mesh of twelve triangles. -/
def cube : Mesh := { id := 2, num_triangles := 12 }

/-- A valid draw call. -/
def sample_call (order : Int) (shader : Shader) (mesh : Mesh) (instance_count : Nat) : DrawCall :=
  { mesh := some mesh, material := some { id := 0, shader := shader }, order := order,
    instance_count := instance_count }

/-- A frame mixing both kinds of draw calls. -/
def sample_calls : List DrawCall :=
  [sample_call 3 stone quad 1, sample_call 1 glass quad 1, sample_call 2 stone cube 4,
    sample_call 0 stone quad 2]

/-- The tree the constructor builds from `sample_calls` with a stable sort. -/
def sample_tree : DrawCallTree :=
  { _shader_draws :=
      [{ index := 0, shader := stone,
         mesh_draws :=
           [{ index := 0, mesh := quad,
              draw_calls := [sample_call 0 stone quad 2, sample_call 3 stone quad 1] },
            { index := 1, mesh := cube, draw_calls := [sample_call 2 stone cube 4] }] },
       { index := 0, shader := glass,
         mesh_draws := [{ index := 0, mesh := quad, draw_calls := [sample_call 1 glass quad 1] }] }]
    _shader_draw_indices := [(stone, 0)]
    _mesh_draw_indices := [((stone, cube), (0, 1)), ((stone, quad), (0, 0))] }

/-- The tree of one shader group holding one mesh group, with the index maps the
insertion without blending leaves behind. -/
def single_group_tree (shader : Shader) (mesh : Mesh) (calls : List DrawCall) : DrawCallTree :=
  { _shader_draws :=
      [{ index := 0, shader := shader,
         mesh_draws := [{ index := 0, mesh := mesh, draw_calls := calls }] }]
    _shader_draw_indices := [(shader, 0)]
    _mesh_draw_indices := [((shader, mesh), (0, 0))] }

/-- A draw call without a material. -/
def unmaterialed_call : DrawCall :=
  { mesh := some quad, material := none, order := 0, instance_count := 1 }

/-- A build with `_WIN32`, checks enabled: a failed `check` breaks. -/
def breaking_config : BuildConfig := { NO_CHECKS := false, _WIN32 := true }

/-- Two blended draw calls whose shader priorities go against their order keys. -/
def inverted_calls : List DrawCall :=
  [sample_call 1 smoke quad 1, sample_call 2 glass cube 1]

/-- Blended draw calls whose shaders all have the same priority. -/
def level_calls : List DrawCall :=
  [sample_call 3 glass quad 1, sample_call 1 glass quad 2, sample_call 2 water cube 1]

/-- Scenario B with two shaders of different priorities. -/
def scenario_B_calls : List DrawCall :=
  [sample_call 1 glass quad 1, sample_call 2 smoke cube 1, sample_call 3 glass quad 1]

/-- Scenario B with two shaders of the same priority, in another input order. -/
def scenario_B_level_calls : List DrawCall :=
  [sample_call 3 glass quad 1, sample_call 1 glass quad 1, sample_call 2 water cube 1]

/-- The draw calls of the given order key, in the order they stand in the list. -/
def calls_of_order (k : Int) (l : List DrawCall) : List DrawCall :=
  l.filter (fun dc => decide (dc.order = k))

/-- The blended draw calls of a list, in the order they stand in the list. -/
def blended_calls (l : List DrawCall) : List DrawCall :=
  l.filter (fun dc => dc.requires_blending)

/-- What the constructor does once the insertion loop has ended: the re-sort of the
shader groups and the merge pass. -/
def finish_tree (sort : RangesSort) (inserted : Except Failure DrawCallTree) :
    Except Failure DrawCallTree :=
  match inserted with
  | Except.error e => Except.error e
  | Except.ok self =>
    Except.ok
      { self with
        _shader_draws := merge_tree (sort ShaderDrawTree draw_order_comp self._shader_draws) }

/-- The number of shader groups when the insertion loop of the constructor has ended: the
size of `_shader_draws` that the second `std::ranges::sort` is called with. -/
def inserted_group_count (cfg : BuildConfig) (sort : RangesSort)
    (draw_calls : List DrawCall) : Nat :=
  match DrawCallTree.insert_all cfg {} (sort DrawCall order_comp draw_calls) with
  | Except.ok self => self._shader_draws.length
  | Except.error _ => 0

/-- The tree the constructor builds and the run of `execute` on it, taken together; no
result when one of the two stops. -/
def build_and_execute (cfg : BuildConfig) (sort : RangesSort) (draw_calls : List DrawCall)
    (stats : RenderQueueStats) : Option (DrawCallTree × Execution) :=
  match DrawCallTree.DrawCallTree cfg sort draw_calls with
  | Except.error _ => none
  | Except.ok tree =>
    match tree.execute cfg stats with
    | Except.error _ => none
    | Except.ok ex => some (tree, ex)

/-- Seventeen blended draw calls with the same order key, told apart by their instance
counts 1 to 17. -/
def seventeen_tied_calls : List DrawCall :=
  (List.range 17).map (fun i => sample_call 1 glass quad (i + 1))

/-- Seventeen blended draw calls with the order keys 1 to 17, of two shaders of the same
priority in turn. -/
def alternating_calls : List DrawCall :=
  (List.range 17).map
    (fun i => sample_call ((i : Int) + 1) (if i % 2 = 0 then glass else water) quad 1)

/-- The seventeen blended draw calls behind one draw call without blending. -/
def mixed_alternating_calls : List DrawCall :=
  sample_call 0 stone cube 1 :: alternating_calls

/-- Three blended draw calls among two others, all shaders of the same priority. -/
def mixed_calls : List DrawCall :=
  [sample_call 4 glass quad 1, sample_call 1 stone quad 1, sample_call 2 water cube 1,
    sample_call 3 stone cube 2, sample_call 5 glass quad 2]

/-- The tree the constructor builds from `mixed_calls`. -/
def mixed_tree : DrawCallTree :=
  { _shader_draws :=
      [{ index := 0, shader := stone,
         mesh_draws :=
           [{ index := 0, mesh := quad, draw_calls := [sample_call 1 stone quad 1] },
            { index := 1, mesh := cube, draw_calls := [sample_call 3 stone cube 2] }] },
       { index := 0, shader := water,
         mesh_draws := [{ index := 0, mesh := cube, draw_calls := [sample_call 2 water cube 1] }] },
       { index := 0, shader := glass,
         mesh_draws :=
           [{ index := 0, mesh := quad,
              draw_calls := [sample_call 4 glass quad 1, sample_call 5 glass quad 2] }] }]
    _shader_draw_indices := [(stone, 0)]
    _mesh_draw_indices := [((stone, cube), (0, 1)), ((stone, quad), (0, 0))] }

/-! ## Sorting -/

theorem keyed_total {α : Type} {comp : α → α → Bool} {key : α → Int} (h : KeyedBy comp key)
    (x y : α) : comp y x = false ∨ comp x y = false := by
  simp only [h x y, h y x, decide_eq_false_iff_not, not_lt]
  exact le_total _ _

theorem keyed_trans {α : Type} {comp : α → α → Bool} {key : α → Int} (h : KeyedBy comp key)
    (x y z : α) (hxy : comp y x = false) (hyz : comp z y = false) : comp z x = false := by
  simp only [h y x, h z y, h z x, decide_eq_false_iff_not, not_lt] at *
  exact le_trans hxy hyz

theorem stable_sort_contract : RangesSort.Contract stable_sort := by
  intro α comp key hk l
  haveI : IsTotal α (fun x y => comp y x = false) := ⟨keyed_total hk⟩
  haveI : IsTrans α (fun x y => comp y x = false) := ⟨keyed_trans hk⟩
  exact ⟨List.perm_insertionSort _ l, List.sorted_insertionSort _ l⟩

theorem order_comp_keyed : KeyedBy order_comp (fun dc => dc.order) :=
  fun _ _ => rfl

theorem draw_order_comp_keyed : KeyedBy draw_order_comp (fun sd => sd.shader.draw_order) :=
  fun _ _ => rfl

/-! ## Insertion sort -/

section InsertionSort

variable {α : Type} {comp : α → α → Bool} {key : α → Int}

theorem store_some {a : List α} {i : Nat} (v : α) (h : i < a.length) :
    store a i v = some (a.set i v) := by
  simp [store, h]

theorem getElem?_middle (pre : List α) (a : α) (post : List α) :
    (pre ++ a :: post)[pre.length]? = some a := by
  rw [List.getElem?_append_right (Nat.le_refl _)]
  simp

theorem set_middle (pre : List α) (a b : α) (post : List α) :
    (pre ++ a :: post).set pre.length b = pre ++ b :: post := by
  induction pre with
  | nil => rfl
  | cons c pre ih => simp [ih]

theorem linear_insert_snoc_lt (val x : α) (P : List α) (h : comp val x = true) :
    linear_insert comp val (P ++ [x]) = linear_insert comp val P ++ [x] := by
  induction P with
  | nil => simp [linear_insert, h]
  | cons e rest ih =>
    show linear_insert comp val (e :: (rest ++ [x])) = linear_insert comp val (e :: rest) ++ [x]
    by_cases hc : comp val e = true
    · simp [linear_insert, hc]
    · simp [linear_insert, hc, ih]

theorem linear_insert_all_le (val : α) (P : List α) (h : ∀ e ∈ P, comp val e = false) :
    linear_insert comp val P = P ++ [val] := by
  induction P with
  | nil => rfl
  | cons e rest ih =>
    have he := h e (List.mem_cons_self _ _)
    simp only [linear_insert, he, Bool.false_eq_true, if_false, List.cons_append]
    rw [ih (fun e1 h1 => h e1 (List.mem_cons_of_mem _ h1))]

theorem linear_insert_perm (val : α) (P : List α) :
    (linear_insert comp val P).Perm (val :: P) := by
  induction P with
  | nil => exact List.Perm.refl _
  | cons e rest ih =>
    simp only [linear_insert]
    split
    · exact List.Perm.refl _
    · exact (List.Perm.cons e ih).trans (List.Perm.swap val e rest)

theorem linear_insert_length (val : α) (P : List α) :
    (linear_insert comp val P).length = P.length + 1 :=
  (linear_insert_perm val P).length_eq

theorem linear_insert_sorted (hk : KeyedBy comp key) (val : α) (P : List α)
    (h : P.Pairwise (fun x y => comp y x = false)) :
    (linear_insert comp val P).Pairwise (fun x y => comp y x = false) := by
  induction P with
  | nil => simp [linear_insert]
  | cons e rest ih =>
    obtain ⟨h1, h2⟩ := List.pairwise_cons.mp h
    simp only [linear_insert]
    split
    · rename_i hlt
      refine List.pairwise_cons.mpr ⟨?_, h⟩
      have hve : comp e val = false := by
        simp only [hk val e, hk e val, decide_eq_true_eq, decide_eq_false_iff_not, not_lt] at *
        omega
      intro y hy
      rcases List.mem_cons.mp hy with rfl | hy
      · exact hve
      · exact keyed_trans hk val e y hve (h1 y hy)
    · rename_i hlt
      have hev : comp val e = false := by simpa using hlt
      refine List.pairwise_cons.mpr ⟨?_, ih h2⟩
      intro y hy
      rcases List.mem_cons.mp ((linear_insert_perm val rest).mem_iff.mp hy) with rfl | hy
      · exact hev
      · exact h1 y hy

theorem unguarded_linear_insert_loop_eq (hk : KeyedBy comp key) (val : α) (P : List α) :
    ∀ (x : α) (T : List α), P.Pairwise (fun x y => comp y x = false) →
      (∃ e ∈ P, comp val e = false) →
      __unguarded_linear_insert_loop comp val (P ++ x :: T) P.length
        = some (linear_insert comp val P ++ T) := by
  induction P using List.reverseRecOn with
  | nil =>
    intro x T _ h
    obtain ⟨e, he, _⟩ := h
    simp at he
  | append_singleton P e ih =>
    intro x T hsorted hsent
    have hlen : (P ++ [e]).length = P.length + 1 := by simp
    have harr : P ++ [e] ++ x :: T = P ++ e :: x :: T := by simp
    rw [hlen, harr]
    unfold __unguarded_linear_insert_loop
    rw [getElem?_middle]
    dsimp only
    have hset : ∀ v, store (P ++ e :: x :: T) (P.length + 1) v = some (P ++ e :: v :: T) := by
      intro v
      rw [store_some v (by simp)]
      have := set_middle (P ++ [e]) x v T
      rw [hlen, harr] at this
      rw [this]
      simp
    by_cases hc : comp val e = true
    · rw [if_pos hc, hset]
      dsimp only
      rw [ih e (e :: T) (List.pairwise_append.mp hsorted).1, linear_insert_snoc_lt val e P hc]
      · simp
      · obtain ⟨e1, he1, hle⟩ := hsent
        rcases List.mem_append.mp he1 with h1 | h1
        · exact ⟨e1, h1, hle⟩
        · rw [List.mem_singleton.mp h1, hc] at hle
          cases hle
    · rw [if_neg hc, hset]
      have hce : comp val e = false := by simpa using hc
      rw [linear_insert_all_le val (P ++ [e])]
      · simp
      · intro e1 he1
        rcases List.mem_append.mp he1 with h1 | h1
        · have := (List.pairwise_append.mp hsorted).2.2 e1 h1 e (List.mem_singleton_self e)
          exact keyed_trans hk e1 e val this hce
        · rw [List.mem_singleton.mp h1]
          exact hce

theorem unguarded_linear_insert_eq (hk : KeyedBy comp key) (val : α) (P T : List α)
    (hsorted : P.Pairwise (fun x y => comp y x = false))
    (hsent : ∃ e ∈ P, comp val e = false) :
    __unguarded_linear_insert comp (P ++ val :: T) P.length
      = some (linear_insert comp val P ++ T) := by
  unfold __unguarded_linear_insert
  rw [getElem?_middle]
  exact unguarded_linear_insert_loop_eq hk val P val T hsorted hsent

theorem insertion_sort_step_eq (hk : KeyedBy comp key) (val front : α) (P T : List α)
    (hsorted : (front :: P).Pairwise (fun x y => comp y x = false)) :
    __insertion_sort_step comp (front :: P ++ val :: T) (front :: P).length
      = some (linear_insert comp val (front :: P) ++ T) := by
  unfold __insertion_sort_step
  rw [getElem?_middle]
  have h0 : (front :: P ++ val :: T)[0]? = some front := by simp
  rw [h0]
  dsimp only
  by_cases hc : comp val front = true
  · rw [if_pos hc]
    have e1 : (front :: P ++ val :: T).take (front :: P).length = front :: P := by
      rw [List.take_left]
    have e2 : (front :: P ++ val :: T).drop ((front :: P).length + 1) = T := by
      have : front :: P ++ val :: T = (front :: P ++ [val]) ++ T := by simp
      rw [this]
      have hl : (front :: P).length + 1 = (front :: P ++ [val]).length := by simp
      rw [hl, List.drop_left]
    rw [e1, e2]
    simp [linear_insert, hc]
  · rw [if_neg hc]
    exact unguarded_linear_insert_eq hk val (front :: P) T hsorted
      ⟨front, List.mem_cons_self _ _, by simpa using hc⟩

theorem insertion_sort_loop_eq (hk : KeyedBy comp key) (R : List α) :
    ∀ (front : α) (P T : List α) (last : Nat), last = (front :: P).length + R.length →
      (front :: P).Pairwise (fun x y => comp y x = false) →
      __insertion_sort_loop comp last R.length (front :: P ++ R ++ T)
        = some (R.foldl (fun acc x => linear_insert comp x acc) (front :: P) ++ T) := by
  induction R with
  | nil =>
    intro front P T last _ _
    simp [__insertion_sort_loop]
  | cons val R ih =>
    intro front P T last hlast hsorted
    have hi : last - (R.length + 1) = (front :: P).length := by
      simp only [List.length_cons] at hlast ⊢
      omega
    have harr : front :: P ++ val :: R ++ T = front :: P ++ val :: (R ++ T) := by simp
    show __insertion_sort_loop comp last (R.length + 1) _ = _
    unfold __insertion_sort_loop
    rw [hi, harr, insertion_sort_step_eq hk val front P (R ++ T) hsorted]
    dsimp only
    have hs1 := linear_insert_sorted hk val (front :: P) hsorted
    have hl1 := @linear_insert_length α comp val (front :: P)
    cases hli : linear_insert comp val (front :: P) with
    | nil => rw [hli] at hl1; simp at hl1
    | cons f1 P1 =>
      rw [hli] at hs1 hl1
      have := ih f1 P1 T last (by
        simp only [List.length_cons] at hlast hl1 ⊢
        omega) hs1
      simp only [List.foldl_cons, hli]
      rw [← this]
      simp

theorem insertion_sort_eq (hk : KeyedBy comp key) (S T : List α) :
    __insertion_sort comp (S ++ T) S.length
      = some (S.foldl (fun acc x => linear_insert comp x acc) [] ++ T) := by
  unfold __insertion_sort
  cases S with
  | nil => simp
  | cons front R =>
    have h1 : ¬ (front :: R).length = 0 := by simp
    rw [if_neg h1]
    have h2 : (front :: R).length - 1 = R.length := by simp
    rw [h2]
    have := insertion_sort_loop_eq hk R front [] T (front :: R).length
      (by simp only [List.length_cons, List.length_nil]; omega) (List.pairwise_singleton _ _)
    simpa [linear_insert] using this

theorem unguarded_insertion_sort_loop_eq (hk : KeyedBy comp key) (R : List α) :
    ∀ (P : List α) (last : Nat), last = P.length + R.length →
      P.Pairwise (fun x y => comp y x = false) → Guarded comp P R →
      __unguarded_insertion_sort_loop comp last R.length (P ++ R)
        = some (R.foldl (fun acc x => linear_insert comp x acc) P) := by
  induction R with
  | nil =>
    intro P last _ _ _
    simp [__unguarded_insertion_sort_loop]
  | cons val R ih =>
    intro P last hlast hsorted hg
    have hi : last - (R.length + 1) = P.length := by
      simp only [List.length_cons] at hlast ⊢
      omega
    show __unguarded_insertion_sort_loop comp last (R.length + 1) _ = _
    unfold __unguarded_insertion_sort_loop
    obtain ⟨e, he, hle⟩ := hg [] val R rfl
    have he1 : e ∈ P := by simpa using he
    rw [hi, unguarded_linear_insert_eq hk val P R hsorted ⟨e, he1, hle⟩]
    dsimp only
    rw [ih (linear_insert comp val P) last (by
      rw [linear_insert_length]
      simp only [List.length_cons] at hlast
      omega) (linear_insert_sorted hk val P hsorted)]
    · rfl
    · intro R1 v R2 hR
      obtain ⟨e2, he2, hle2⟩ := hg (val :: R1) v R2 (by rw [hR]; rfl)
      refine ⟨e2, ?_, hle2⟩
      rcases he2 with h | h
      · exact Or.inl ((linear_insert_perm val P).mem_iff.mpr (List.mem_cons_of_mem _ h))
      · rcases List.mem_cons.mp h with rfl | h
        · exact Or.inl ((linear_insert_perm e2 P).mem_iff.mpr (List.mem_cons_self _ _))
        · exact Or.inr h

/-- Inserting behind the equivalent elements and inserting before them can be exchanged. -/
theorem orderedInsert_linear_insert (hk : KeyedBy comp key) (a x : α) (S : List α) :
    List.orderedInsert (fun x y => comp y x = false) a (linear_insert comp x S)
      = linear_insert comp x (List.orderedInsert (fun x y => comp y x = false) a S) := by
  induction S with
  | nil =>
    simp only [linear_insert, List.orderedInsert]
    by_cases h : comp x a = true
    · simp [h, linear_insert]
    · simp [h, linear_insert]
  | cons e rest ih =>
    have ha := hk a e
    have hx := hk x e
    have hax := hk a x
    have hxa := hk x a
    have hea := hk e a
    have hex := hk e x
    by_cases h1 : key e < key a <;> by_cases h2 : key x < key e <;>
      by_cases h3 : key x < key a <;>
      simp [linear_insert, List.orderedInsert, ha, hx, hax, hxa, hea, hex, h1, h2, h3, ih] <;>
      omega

theorem foldl_linear_insert_orderedInsert (hk : KeyedBy comp key) (a : α) (R : List α) :
    ∀ acc : List α,
      R.foldl (fun acc x => linear_insert comp x acc)
          (List.orderedInsert (fun x y => comp y x = false) a acc)
        = List.orderedInsert (fun x y => comp y x = false) a
            (R.foldl (fun acc x => linear_insert comp x acc) acc) := by
  induction R with
  | nil => intro acc; rfl
  | cons x R ih =>
    intro acc
    simp only [List.foldl_cons]
    rw [← orderedInsert_linear_insert hk, ih]

/-- Inserting the elements one after the other from the left gives the stable sort. -/
theorem foldl_linear_insert_eq (hk : KeyedBy comp key) (S : List α) :
    S.foldl (fun acc x => linear_insert comp x acc) [] = stable_sort α comp S := by
  induction S with
  | nil => rfl
  | cons a R ih =>
    show _ = List.orderedInsert _ a (stable_sort α comp R)
    rw [← ih, ← foldl_linear_insert_orderedInsert hk a R []]
    rfl

theorem final_insertion_sort_small (hk : KeyedBy comp key) (a : List α)
    (h : a.length ≤ _S_threshold) :
    __final_insertion_sort comp a = some (stable_sort α comp a) := by
  unfold __final_insertion_sort
  rw [if_neg (by omega)]
  have := insertion_sort_eq hk a []
  simp only [List.append_nil] at this
  rw [this, foldl_linear_insert_eq hk]

theorem final_insertion_sort_guarded (hk : KeyedBy comp key) (a : List α)
    (hg : Guarded comp (a.take _S_threshold) (a.drop _S_threshold)) :
    __final_insertion_sort comp a = some (stable_sort α comp a) := by
  by_cases h : a.length ≤ _S_threshold
  · exact final_insertion_sort_small hk a h
  · unfold __final_insertion_sort
    rw [if_pos (by omega)]
    have hlen : (a.take _S_threshold).length = _S_threshold := by
      rw [List.length_take]
      omega
    have h1 := insertion_sort_eq hk (a.take _S_threshold) (a.drop _S_threshold)
    rw [List.take_append_drop, hlen] at h1
    rw [h1]
    dsimp only
    unfold __unguarded_insertion_sort
    rw [foldl_linear_insert_eq hk]
    have hp := (stable_sort_contract α comp key hk (a.take _S_threshold)).1
    have hs := (stable_sort_contract α comp key hk (a.take _S_threshold)).2
    have hl : (stable_sort α comp (a.take _S_threshold)).length = _S_threshold := by
      rw [hp.length_eq, hlen]
    have h2 := unguarded_insertion_sort_loop_eq hk (a.drop _S_threshold)
      (stable_sort α comp (a.take _S_threshold))
      (stable_sort α comp (a.take _S_threshold) ++ a.drop _S_threshold).length
      (by simp) hs (by
        intro R1 v R2 hR
        obtain ⟨e, he, hle⟩ := hg R1 v R2 hR
        refine ⟨e, ?_, hle⟩
        rcases he with h | h
        · exact Or.inl (hp.mem_iff.mpr h)
        · exact Or.inr h)
    have hk1 : (stable_sort α comp (a.take _S_threshold) ++ a.drop _S_threshold).length
        - _S_threshold = (a.drop _S_threshold).length := by
      rw [List.length_append, hl]
      omega
    rw [hk1, h2, ← foldl_linear_insert_eq hk, ← List.foldl_append, List.take_append_drop,
      foldl_linear_insert_eq hk]

end InsertionSort

/-! ## The partition of the introsort -/

section Partition

variable {α : Type} {comp : α → α → Bool} {key : α → Int}

theorem keyed_irrefl (hk : KeyedBy comp key) (x : α) : comp x x = false := by
  simp [hk x x]

theorem keyed_asymm (hk : KeyedBy comp key) {x y : α} (h : comp x y = true) :
    comp y x = false := by
  simp only [hk x y, hk y x, decide_eq_true_eq, decide_eq_false_iff_not, not_lt] at *
  omega

theorem comp_at_some {a : List α} {i j : Nat} {x y : α} (hi : a[i]? = some x)
    (hj : a[j]? = some y) : comp_at comp a i j = some (comp x y) := by
  simp [comp_at, hi, hj]

theorem iter_swap_some {a : List α} {i j : Nat} {x y : α} (hi : a[i]? = some x)
    (hj : a[j]? = some y) : iter_swap a i j = some ((a.set i y).set j x) := by
  simp [iter_swap, hi, hj]

theorem set_perm_cons (x y : α) : ∀ (t : List α) (j : Nat), t[j]? = some y →
    (y :: t.set j x).Perm (x :: t) := by
  intro t
  induction t with
  | nil => intro j h; simp at h
  | cons c t ih =>
    intro j h
    cases j with
    | zero =>
      simp only [List.getElem?_cons_zero, Option.some.injEq] at h
      subst h
      exact List.Perm.swap _ _ _
    | succ j =>
      simp only [List.getElem?_cons_succ] at h
      simp only [List.set_cons_succ]
      exact (List.Perm.swap c y _).trans
        (((ih j h).cons c).trans (List.Perm.swap x c t))

/-- Exchanging two elements of a vector rearranges it. -/
theorem swap_perm : ∀ (l : List α) (i j : Nat) (x y : α), l[i]? = some x → l[j]? = some y →
    ((l.set i y).set j x).Perm l := by
  intro l
  induction l with
  | nil => intro i j x y h; simp at h
  | cons c t ih =>
    intro i j x y hi hj
    cases i with
    | zero =>
      simp only [List.getElem?_cons_zero, Option.some.injEq] at hi
      subst hi
      cases j with
      | zero =>
        simp only [List.getElem?_cons_zero, Option.some.injEq] at hj
        simp
      | succ j =>
        simp only [List.getElem?_cons_succ] at hj
        simp only [List.set_cons_zero, List.set_cons_succ]
        exact set_perm_cons c y t j hj
    | succ i =>
      simp only [List.getElem?_cons_succ] at hi
      cases j with
      | zero =>
        simp only [List.getElem?_cons_zero, Option.some.injEq] at hj
        subst hj
        simp only [List.set_cons_zero, List.set_cons_succ]
        exact set_perm_cons c x t i hi
      | succ j =>
        simp only [List.getElem?_cons_succ] at hj
        simp only [List.set_cons_succ]
        exact (ih i j x y hi hj).cons c

theorem partition_scan_up_spec (a : List α) (pivot : Nat) (p : α) (hp : a[pivot]? = some p) :
    ∀ (fuel first j : Nat) (x : α), first ≤ j → j - first < fuel → a[j]? = some x →
      comp x p = false →
      ∃ first1, partition_scan_up comp a pivot fuel first = some first1 ∧ first ≤ first1 ∧
        first1 ≤ j ∧ (∃ y, a[first1]? = some y ∧ comp y p = false) ∧
        ∀ i y, first ≤ i → i < first1 → a[i]? = some y → comp y p = true := by
  intro fuel
  induction fuel with
  | zero => intro first j x _ h; omega
  | succ fuel ih =>
    intro first j x hle hfuel hj hx
    have hjlen : j < a.length := (List.getElem?_eq_some.mp hj).1
    have hfirst : a[first]? = some a[first] := List.getElem?_eq_getElem (by omega)
    unfold partition_scan_up
    rw [comp_at_some hfirst hp]
    cases hc : comp a[first] p with
    | true =>
      dsimp only
      have hne : first ≠ j := by
        intro e
        subst e
        rw [hfirst] at hj
        injection hj with hj
        rw [hj, hx] at hc
        cases hc
      obtain ⟨first1, h1, h2, h3, h4, h5⟩ := ih (first + 1) j x (by omega) (by omega) hj hx
      refine ⟨first1, h1, by omega, h3, h4, ?_⟩
      intro i y hi1 hi2 hy
      by_cases e : i = first
      · subst e
        rw [hfirst] at hy
        injection hy with hy
        rw [← hy, hc]
      · exact h5 i y (by omega) hi2 hy
    | false =>
      dsimp only
      exact ⟨first, rfl, Nat.le_refl _, hle, ⟨_, hfirst, hc⟩, fun i y h1 h2 => by omega⟩

theorem partition_scan_down_spec (a : List α) (pivot : Nat) (p : α) (hp : a[pivot]? = some p)
    (h0 : ∃ y, a[0]? = some y ∧ comp p y = false) :
    ∀ last, last < a.length →
      ∃ last1, partition_scan_down comp a pivot last = some last1 ∧ last1 ≤ last ∧
        (∃ y, a[last1]? = some y ∧ comp p y = false) ∧
        ∀ i y, last1 < i → i ≤ last → a[i]? = some y → comp p y = true := by
  intro last
  induction last with
  | zero =>
    intro _
    obtain ⟨y, hy, hc⟩ := h0
    unfold partition_scan_down
    rw [comp_at_some hp hy, hc]
    exact ⟨0, rfl, Nat.le_refl _, ⟨y, hy, hc⟩, fun i y h1 h2 => by omega⟩
  | succ last ih =>
    intro hlen
    have hlast : a[last + 1]? = some a[last + 1] := List.getElem?_eq_getElem hlen
    unfold partition_scan_down
    rw [comp_at_some hp hlast]
    cases hc : comp p a[last + 1] with
    | true =>
      dsimp only
      obtain ⟨last1, h1, h2, h3, h4⟩ := ih (by omega)
      refine ⟨last1, h1, by omega, h3, ?_⟩
      intro i y hi1 hi2 hy
      by_cases e : i = last + 1
      · subst e
        rw [hlast] at hy
        injection hy with hy
        rw [← hy, hc]
      · exact h4 i y hi1 (by omega) hy
    | false =>
      dsimp only
      exact ⟨last + 1, rfl, Nat.le_refl _, ⟨_, hlast, hc⟩, fun i y h1 h2 => by omega⟩

theorem unguarded_partition_spec (hk : KeyedBy comp key) (p : α) :
    ∀ (fuel : Nat) (a : List α) (first last : Nat),
      a[0]? = some p → 1 ≤ first → first ≤ last → last ≤ a.length → last - first < fuel →
      (∀ i y, i < first → a[i]? = some y → comp p y = false) →
      (∀ j y, last ≤ j → a[j]? = some y → comp y p = false) →
      (∃ j y, first ≤ j ∧ a[j]? = some y ∧ comp y p = false) →
      ∃ a1 cut, __unguarded_partition comp fuel a first last 0 = some (a1, cut) ∧ a1.Perm a ∧
        1 ≤ cut ∧ cut ≤ a1.length ∧
        (∀ x ∈ a1.take cut, comp p x = false) ∧ (∀ y ∈ a1.drop cut, comp y p = false) := by
  intro fuel
  induction fuel with
  | zero => intro a first last _ _ _ _ h; omega
  | succ fuel ih =>
    intro a first last hp hfirst hfl hlast hfuel hlow hhigh hsent
    obtain ⟨j, x, hj1, hj2, hj3⟩ := hsent
    have hjlen : j < a.length := (List.getElem?_eq_some.mp hj2).1
    obtain ⟨first1, hu1, hu2, hu3, ⟨y1, hy1, hc1⟩, hu5⟩ :=
      partition_scan_up_spec a 0 p hp (a.length + 1) first j x hj1 (by omega) hj2 hj3
    unfold __unguarded_partition
    rw [hu1]
    dsimp only
    obtain ⟨last0, rfl⟩ : ∃ last0, last = last0 + 1 := ⟨last - 1, by omega⟩
    dsimp only
    obtain ⟨last1, hd1, hd2, ⟨y2, hy2, hc2⟩, hd4⟩ :=
      partition_scan_down_spec a 0 p hp ⟨p, hp, keyed_irrefl hk p⟩ last0 (by omega)
    rw [hd1]
    dsimp only
    have hlow1 : ∀ i y, i < first1 → a[i]? = some y → comp p y = false := by
      intro i y hi hy
      by_cases h : i < first
      · exact hlow i y h hy
      · exact keyed_asymm hk (hu5 i y (by omega) hi hy)
    have hhigh1 : ∀ i y, last1 < i → a[i]? = some y → comp y p = false := by
      intro i y hi hy
      by_cases h : last0 + 1 ≤ i
      · exact hhigh i y h hy
      · exact keyed_asymm hk (hd4 i y hi (by omega) hy)
    by_cases hlt : first1 < last1
    · rw [if_pos hlt, iter_swap_some hy1 hy2]
      dsimp only
      have hget : ∀ i, i ≠ first1 → i ≠ last1 →
          ((a.set first1 y2).set last1 y1)[i]? = a[i]? := by
        intro i h1 h2
        rw [List.getElem?_set_ne (Ne.symm h2), List.getElem?_set_ne (Ne.symm h1)]
      have hlen1 : first1 < a.length := (List.getElem?_eq_some.mp hy1).1
      have hlen2 : last1 < a.length := (List.getElem?_eq_some.mp hy2).1
      have hget1 : ((a.set first1 y2).set last1 y1)[first1]? = some y2 := by
        rw [List.getElem?_set_ne (by omega), List.getElem?_set_self hlen1]
      have hget2 : ((a.set first1 y2).set last1 y1)[last1]? = some y1 := by
        rw [List.getElem?_set_self (by simpa using hlen2)]
      obtain ⟨a1, cut, h1, h2, h3, h4, h5, h6⟩ := ih ((a.set first1 y2).set last1 y1)
        (first1 + 1) last1
        (by rw [hget 0 (by omega) (by omega)]; exact hp)
        (by omega) (by omega) (by simp; omega) (by omega)
        (by
          intro i y hi hy
          by_cases e : i = first1
          · subst e
            rw [hget1] at hy
            injection hy with hy
            rw [← hy]
            exact hc2
          · rw [hget i e (by omega)] at hy
            exact hlow1 i y (by omega) hy)
        (by
          intro i y hi hy
          by_cases e : i = last1
          · subst e
            rw [hget2] at hy
            injection hy with hy
            rw [← hy]
            exact hc1
          · rw [hget i (by omega) e] at hy
            exact hhigh1 i y (by omega) hy)
        ⟨last1, y1, by omega, hget2, hc1⟩
      exact ⟨a1, cut, h1, h2.trans (swap_perm a first1 last1 y1 y2 hy1 hy2), h3, h4, h5, h6⟩
    · rw [if_neg hlt]
      refine ⟨a, first1, rfl, List.Perm.refl _, by omega, by omega, ?_, ?_⟩
      · intro x hx
        obtain ⟨i, hi⟩ := List.mem_iff_getElem?.mp hx
        rw [List.getElem?_take] at hi
        split at hi
        · rename_i h
          exact hlow1 i x h hi
        · cases hi
      · intro y hy
        obtain ⟨i, hi⟩ := List.mem_iff_getElem?.mp hy
        rw [List.getElem?_drop] at hi
        by_cases h : last1 < first1 + i
        · exact hhigh1 _ y h hi
        · have e : first1 + i = first1 := by omega
          rw [e, hy1] at hi
          injection hi with hi
          rw [← hi]
          exact hc1

theorem swap_front_spec (a : List α) (m s : Nat) (hm : 0 < m) (hs : 0 < s) (hsm : s ≠ m)
    (z w x : α) (h0 : a[0]? = some z) (ham : a[m]? = some w) (has : a[s]? = some x)
    (hle : comp x w = false) :
    ∃ a1 p, iter_swap a 0 m = some a1 ∧ a1.Perm a ∧ a1[0]? = some p ∧
      ∃ j y, 1 ≤ j ∧ a1[j]? = some y ∧ comp y p = false := by
  have hlen : 0 < a.length := (List.getElem?_eq_some.mp h0).1
  refine ⟨_, w, iter_swap_some h0 ham, swap_perm a 0 m z w h0 ham, ?_, s, x, hs, ?_, hle⟩
  · rw [List.getElem?_set_ne (by omega), List.getElem?_set_self hlen]
  · rw [List.getElem?_set_ne (by omega), List.getElem?_set_ne (by omega)]
    exact has

theorem move_median_to_first_spec (hk : KeyedBy comp key) (a : List α) (mid : Nat)
    (h1 : 1 < mid) (h2 : mid < a.length - 1) :
    ∃ a1 p, __move_median_to_first comp a 0 1 mid (a.length - 1) = some a1 ∧ a1.Perm a ∧
      a1[0]? = some p ∧ ∃ j y, 1 ≤ j ∧ a1[j]? = some y ∧ comp y p = false := by
  have e0 : a[0]? = some a[0] := List.getElem?_eq_getElem (by omega)
  have e1 : a[1]? = some a[1] := List.getElem?_eq_getElem (by omega)
  have e2 : a[mid]? = some a[mid] := List.getElem?_eq_getElem (by omega)
  have e3 : a[a.length - 1]? = some a[a.length - 1] := List.getElem?_eq_getElem (by omega)
  unfold __move_median_to_first
  rw [comp_at_some e1 e2, comp_at_some e2 e3, comp_at_some e1 e3]
  dsimp only
  have kab := hk a[1] a[mid]
  have kba := hk a[mid] a[1]
  have kbc := hk a[mid] a[a.length - 1]
  have kcb := hk a[a.length - 1] a[mid]
  have kac := hk a[1] a[a.length - 1]
  have kca := hk a[a.length - 1] a[1]
  by_cases hab : comp a[1] a[mid] = true
  · rw [if_pos hab]
    by_cases hbc : comp a[mid] a[a.length - 1] = true
    · rw [if_pos hbc]
      exact swap_front_spec a mid (a.length - 1) (by omega) (by omega) (by omega) _ _ _ e0 e2 e3
        (keyed_asymm hk hbc)
    · rw [if_neg hbc]
      by_cases hac : comp a[1] a[a.length - 1] = true
      · rw [if_pos hac]
        exact swap_front_spec a (a.length - 1) mid (by omega) (by omega) (by omega) _ _ _
          e0 e3 e2 (by simpa using hbc)
      · rw [if_neg hac]
        exact swap_front_spec a 1 mid (by omega) (by omega) (by omega) _ _ _ e0 e1 e2
          (keyed_asymm hk hab)
  · rw [if_neg hab]
    by_cases hac : comp a[1] a[a.length - 1] = true
    · rw [if_pos hac]
      exact swap_front_spec a 1 (a.length - 1) (by omega) (by omega) (by omega) _ _ _ e0 e1 e3
        (keyed_asymm hk hac)
    · rw [if_neg hac]
      by_cases hbc : comp a[mid] a[a.length - 1] = true
      · rw [if_pos hbc]
        exact swap_front_spec a (a.length - 1) 1 (by omega) (by omega) (by omega) _ _ _
          e0 e3 e1 (by simpa using hac)
      · rw [if_neg hbc]
        exact swap_front_spec a mid 1 (by omega) (by omega) (by omega) _ _ _ e0 e2 e1
          (by simpa using hab)

theorem unguarded_partition_pivot_spec (hk : KeyedBy comp key) (a : List α)
    (hlen : _S_threshold < a.length) :
    ∃ a1 cut p, __unguarded_partition_pivot comp a = some (a1, cut) ∧ a1.Perm a ∧
      1 ≤ cut ∧ cut ≤ a1.length ∧
      (∀ x ∈ a1.take cut, comp p x = false) ∧ (∀ y ∈ a1.drop cut, comp y p = false) := by
  have hl : 16 < a.length := hlen
  obtain ⟨a1, p, h1, h2, h3, j, y, h4, h5, h6⟩ :=
    move_median_to_first_spec hk a (a.length / 2) (by omega) (by omega)
  unfold __unguarded_partition_pivot
  rw [h1]
  dsimp only
  have hl1 : a1.length = a.length := h2.length_eq
  obtain ⟨a2, cut, g1, g2, g3, g4, g5, g6⟩ := unguarded_partition_spec hk p a1.length a1 1
    a1.length h3 (Nat.le_refl _) (by omega) (Nat.le_refl _) (by omega)
    (by
      intro i y hi hy
      have e : i = 0 := by omega
      subst e
      rw [h3] at hy
      injection hy with hy
      rw [← hy]
      exact keyed_irrefl hk p)
    (by
      intro i y hi hy
      have := (List.getElem?_eq_some.mp hy).1
      omega)
    ⟨j, y, h4, h5, h6⟩
  exact ⟨a2, cut, p, g1, g2.trans h2, g3, g4, g5, g6⟩

end Partition

/-! ## The heap sort of the introsort -/

section Heap

variable {α : Type} {comp : α → α → Bool} {key : α → Int}

theorem below_le {top h : Nat} (hb : Below top h) : top ≤ h := by
  induction hb with
  | self => exact Nat.le_refl _
  | left h _ ih => omega
  | right h _ ih => omega

theorem below_parent {top h : Nat} (hb : Below top h) (hlt : top < h) :
    Below top ((h - 1) / 2) := by
  cases hb with
  | self => omega
  | left h1 hb1 =>
    have e : (2 * h1 + 1 - 1) / 2 = h1 := by omega
    rw [e]
    exact hb1
  | right h1 hb1 =>
    have e : (2 * h1 + 2 - 1) / 2 = h1 := by omega
    rw [e]
    exact hb1

theorem below_child {top h c : Nat} (hb : Below top h) (hc : 0 < c) (hp : (c - 1) / 2 = h) :
    Below top c := by
  have e : c = 2 * h + 1 ∨ c = 2 * h + 2 := by omega
  rcases e with e | e
  · rw [e]
    exact Below.left h hb
  · rw [e]
    exact Below.right h hb

/-- The element of a child of the hole moves into the hole. -/
theorem hole_down (a0 : List α) (len top : Nat) (value : α) (a : List α) (h c : Nat)
    (hinv : HoleInv comp a0 len top value a h) (hc0 : 0 < c) (hc : c < len)
    (hpar : (c - 1) / 2 = h) (x : α) (hx : a[c]? = some x)
    (hbig : ∀ s y, 0 < s → s < len → (s - 1) / 2 = h → a[s]? = some y → comp x y = false) :
    HoleInv comp a0 len top value (a.set h x) c := by
  obtain ⟨hl, hb, hh, ⟨hp1, hp2⟩, hperm, hout⟩ := hinv
  have htop := below_le hb
  have hhc : h < c := by omega
  have hclen : c < a.length := (List.getElem?_eq_some.mp hx).1
  refine ⟨by simp [hl], below_child hb hc0 hpar, hc, ⟨?_, ?_⟩, ?_, ?_⟩
  · intro c1 x1 y1 h1 h2 h3 h4 h5 h6 h7
    by_cases e1 : c1 = h
    · subst e1
      rw [List.getElem?_set_ne (by omega)] at h6
      rw [List.getElem?_set_self (by omega)] at h7
      injection h7 with h7
      subst h7
      exact hp2 (by omega) c x1 x hc0 hc hpar h6 hx
    · rw [List.getElem?_set_ne (Ne.symm e1)] at h7
      by_cases e2 : (c1 - 1) / 2 = h
      · rw [e2, List.getElem?_set_self (by omega)] at h6
        injection h6 with h6
        subst h6
        exact hbig c1 y1 h1 h2 e2 h7
      · rw [List.getElem?_set_ne (Ne.symm e2)] at h6
        exact hp1 c1 x1 y1 h1 h2 h3 e1 e2 h6 h7
  · intro _ c1 x1 y1 h1 h2 h3 h6 h7
    rw [hpar, List.getElem?_set_self (by omega)] at h6
    injection h6 with h6
    subst h6
    rw [List.getElem?_set_ne (by omega)] at h7
    exact hp1 c1 x y1 h1 h2 (by omega) (by omega) (by omega) (by rw [h3]; exact hx) h7
  · have hb1 : (a.set h value)[h]? = some value := List.getElem?_set_self (by omega)
    have hb2 : (a.set h value)[c]? = some x := by
      rw [List.getElem?_set_ne (by omega)]
      exact hx
    have := swap_perm (a.set h value) h c value x hb1 hb2
    rw [List.set_set] at this
    exact this.trans hperm
  · intro i hi
    rw [List.getElem?_set_ne (by omega)]
    exact hout i hi

theorem adjust_heap_loop_spec (hk : KeyedBy comp key) (a0 : List α) (len top : Nat)
    (value : α) (hlen : len ≤ a0.length) :
    ∀ (fuel : Nat) (a : List α) (h : Nat), len - h < fuel →
      HoleInv comp a0 len top value a h →
      ∃ a1 h1, __adjust_heap_loop comp len fuel a h h = some (a1, h1, h1) ∧
        ¬ h1 < (len - 1) / 2 ∧ HoleInv comp a0 len top value a1 h1 := by
  intro fuel
  induction fuel with
  | zero => intro a h hf; omega
  | succ fuel ih =>
    intro a h hf hinv
    unfold __adjust_heap_loop
    by_cases hlt : h < (len - 1) / 2
    · rw [if_pos hlt]
      dsimp only
      have hl := hinv.1
      have hr : a[2 * (h + 1)]? = some a[2 * (h + 1)] := List.getElem?_eq_getElem (by omega)
      have hle : a[2 * (h + 1) - 1]? = some a[2 * (h + 1) - 1] :=
        List.getElem?_eq_getElem (by omega)
      rw [comp_at_some hr hle]
      dsimp only
      have hstore : ∀ v, store a h v = some (a.set h v) := fun v => store_some v (by omega)
      by_cases hc : comp a[2 * (h + 1)] a[2 * (h + 1) - 1] = true
      · rw [if_pos hc, hle]
        dsimp only
        rw [hstore]
        dsimp only
        apply ih _ _ (by omega)
        apply hole_down a0 len top value a h _ hinv (by omega) (by omega) (by omega) _ hle
        intro s y h1 h2 h3 h4
        have e : s = 2 * (h + 1) - 1 ∨ s = 2 * (h + 1) := by omega
        rcases e with e | e
        · subst e
          rw [hle] at h4
          injection h4 with h4
          rw [← h4]
          exact keyed_irrefl hk _
        · subst e
          rw [hr] at h4
          injection h4 with h4
          rw [← h4]
          exact keyed_asymm hk hc
      · rw [if_neg hc, hr]
        dsimp only
        rw [hstore]
        dsimp only
        apply ih _ _ (by omega)
        apply hole_down a0 len top value a h _ hinv (by omega) (by omega) (by omega) _ hr
        intro s y h1 h2 h3 h4
        have e : s = 2 * (h + 1) - 1 ∨ s = 2 * (h + 1) := by omega
        rcases e with e | e
        · subst e
          rw [hle] at h4
          injection h4 with h4
          rw [← h4]
          simpa using hc
        · subst e
          rw [hr] at h4
          injection h4 with h4
          rw [← h4]
          exact keyed_irrefl hk _
    · rw [if_neg hlt]
      exact ⟨a, h, rfl, hlt, hinv⟩

/-- The element above the hole moves into the hole. -/
theorem hole_up (hk : KeyedBy comp key) (a0 : List α) (len top : Nat) (value : α)
    (hlen : len ≤ a0.length) (a : List α) (h : Nat) (hinv : HoleInv comp a0 len top value a h) (hlt : top < h)
    (yp : α) (hyp : a[(h - 1) / 2]? = some yp) (hc : comp yp value = true)
    (hval : ∀ c y, 0 < c → c < len → (c - 1) / 2 = h → a[c]? = some y → comp value y = false) :
    HoleInv comp a0 len top value (a.set h yp) ((h - 1) / 2) ∧
      ∀ c y, 0 < c → c < len → (c - 1) / 2 = (h - 1) / 2 → (a.set h yp)[c]? = some y →
        comp value y = false := by
  obtain ⟨hl, hb, hh, ⟨hp1, hp2⟩, hperm, hout⟩ := hinv
  have hbp := below_parent hb hlt
  have htop := below_le hbp
  have hph : (h - 1) / 2 < h := by omega
  have hvy : comp value yp = false := keyed_asymm hk hc
  refine ⟨⟨by simp [hl], hbp, by omega, ⟨?_, ?_⟩, ?_, ?_⟩, ?_⟩
  · intro c1 x1 y1 h1 h2 h3 h4 h5 h6 h7
    have e1 : c1 ≠ h := by
      intro e
      subst e
      exact h5 rfl
    rw [List.getElem?_set_ne (Ne.symm e1)] at h7
    by_cases e2 : (c1 - 1) / 2 = h
    · rw [e2, List.getElem?_set_self (by omega)] at h6
      injection h6 with h6
      rw [← h6]
      exact hp2 hlt c1 yp y1 h1 h2 e2 hyp h7
    · rw [List.getElem?_set_ne (Ne.symm e2)] at h6
      exact hp1 c1 x1 y1 h1 h2 h3 e1 e2 h6 h7
  · intro hlt1 c1 x1 y1 h1 h2 h3 h6 h7
    have hbpp := below_le (below_parent hbp hlt1)
    rw [List.getElem?_set_ne (by omega)] at h6
    have hzp : comp x1 yp = false :=
      hp1 ((h - 1) / 2) x1 yp (by omega) (by omega) hbpp (by omega) (by omega) h6 hyp
    by_cases e1 : c1 = h
    · subst e1
      rw [List.getElem?_set_self (by omega)] at h7
      injection h7 with h7
      rw [← h7]
      exact hzp
    · rw [List.getElem?_set_ne (Ne.symm e1)] at h7
      have hps : comp yp y1 = false :=
        hp1 c1 yp y1 h1 h2 (by omega) e1 (by omega) (by rw [h3]; exact hyp) h7
      exact keyed_trans hk y1 yp x1 hps hzp
  · have hb1 : (a.set h value)[(h - 1) / 2]? = some yp := by
      rw [List.getElem?_set_ne (by omega)]
      exact hyp
    have hb2 : (a.set h value)[h]? = some value := List.getElem?_set_self (by omega)
    have := swap_perm (a.set h value) ((h - 1) / 2) h yp value hb1 hb2
    rw [List.set_comm value value a (by omega : h ≠ (h - 1) / 2), List.set_set,
      List.set_comm value yp a (by omega : (h - 1) / 2 ≠ h)] at this
    exact this.trans hperm
  · intro i hi
    rw [List.getElem?_set_ne (by omega)]
    exact hout i hi
  · intro c1 y1 h1 h2 h3 h7
    by_cases e1 : c1 = h
    · subst e1
      rw [List.getElem?_set_self (by omega)] at h7
      injection h7 with h7
      rw [← h7]
      exact hvy
    · rw [List.getElem?_set_ne (Ne.symm e1)] at h7
      have hps : comp yp y1 = false :=
        hp1 c1 yp y1 h1 h2 (by omega) e1 (by omega) (by rw [h3]; exact hyp) h7
      exact keyed_trans hk y1 yp value hps hvy

theorem push_heap_spec (hk : KeyedBy comp key) (a0 : List α) (len top : Nat) (value : α)
    (hlen : len ≤ a0.length) :
    ∀ (fuel : Nat) (a : List α) (h : Nat), h < fuel → HoleInv comp a0 len top value a h →
      (∀ c y, 0 < c → c < len → (c - 1) / 2 = h → a[c]? = some y → comp value y = false) →
      ∃ r, __push_heap comp top value fuel a h = some r ∧ r.length = a0.length ∧
        HeapFrom comp r len top ∧ r.Perm (a0.set top value) ∧
        ∀ i, len ≤ i → r[i]? = a0[i]? := by
  intro fuel
  induction fuel with
  | zero => intro a h hf; omega
  | succ fuel ih =>
    intro a h hf hinv hval
    have hinv0 := hinv
    obtain ⟨hl, hb, hh, ⟨hp1, hp2⟩, hperm, hout⟩ := hinv
    have htop := below_le hb
    have hstore : ∀ v, store a h v = some (a.set h v) := fun v => store_some v (by omega)
    have hdone : ∀ (hpar : top < h → ∀ yp, a[(h - 1) / 2]? = some yp → comp yp value = false),
        (a.set h value).length = a0.length ∧ HeapFrom comp (a.set h value) len top ∧
          (a.set h value).Perm (a0.set top value) ∧
          ∀ i, len ≤ i → (a.set h value)[i]? = a0[i]? := by
      intro hpar
      refine ⟨by simp [hl], ?_, hperm, ?_⟩
      · intro c1 x1 y1 h1 h2 h3 h6 h7
        by_cases e1 : c1 = h
        · subst e1
          rw [List.getElem?_set_ne (by omega)] at h6
          rw [List.getElem?_set_self (by omega)] at h7
          injection h7 with h7
          subst h7
          exact hpar (by omega) x1 h6
        · rw [List.getElem?_set_ne (Ne.symm e1)] at h7
          by_cases e2 : (c1 - 1) / 2 = h
          · rw [e2, List.getElem?_set_self (by omega)] at h6
            injection h6 with h6
            subst h6
            exact hval c1 y1 h1 h2 e2 h7
          · rw [List.getElem?_set_ne (Ne.symm e2)] at h6
            exact hp1 c1 x1 y1 h1 h2 h3 e1 e2 h6 h7
      · intro i hi
        rw [List.getElem?_set_ne (by omega)]
        exact hout i hi
    unfold __push_heap
    by_cases hlt : h > top
    · rw [if_pos hlt]
      have hpe : a[(h - 1) / 2]? = some a[(h - 1) / 2] := List.getElem?_eq_getElem (by omega)
      rw [hpe]
      dsimp only
      by_cases hc : comp a[(h - 1) / 2] value = true
      · rw [if_pos hc, hstore]
        dsimp only
        obtain ⟨hinv1, hval1⟩ := hole_up hk a0 len top value hlen a h hinv0 hlt _ hpe hc hval
        exact ih _ _ (by omega) hinv1 hval1
      · rw [if_neg hc, hstore]
        refine ⟨_, rfl, hdone ?_⟩
        intro _ yp hyp
        rw [hpe] at hyp
        injection hyp with hyp
        rw [← hyp]
        simpa using hc
    · rw [if_neg hlt, hstore]
      exact ⟨_, rfl, hdone (fun h1 => absurd h1 hlt)⟩

theorem adjust_heap_spec (hk : KeyedBy comp key) (a0 : List α) (top len : Nat) (value : α)
    (hlen : len ≤ a0.length) (htop : top < len) (hheap : HeapFrom comp a0 len (top + 1)) :
    ∃ r, __adjust_heap comp a0 top len value = some r ∧ r.length = a0.length ∧
      HeapFrom comp r len top ∧ r.Perm (a0.set top value) ∧
      ∀ i, len ≤ i → r[i]? = a0[i]? := by
  have hinit : HoleInv comp a0 len top value a0 top := by
    refine ⟨rfl, Below.self, htop, ⟨?_, fun h => absurd h (Nat.lt_irrefl _)⟩, List.Perm.refl _,
      fun _ _ => rfl⟩
    intro c x y h1 h2 h3 h4 h5 h6 h7
    exact hheap c x y h1 h2 (by omega) h6 h7
  obtain ⟨a1, h1, hloop, hstop, hinv⟩ :=
    adjust_heap_loop_spec hk a0 len top value hlen (len + 1) a0 top (by omega) hinit
  unfold __adjust_heap
  rw [hloop]
  dsimp only
  have hh1 := hinv.2.2.1
  have hl1 := hinv.1
  by_cases heven : len % 2 = 0 ∧ h1 = (len - 2) / 2
  · rw [if_pos heven]
    have hle : a1[2 * (h1 + 1) - 1]? = some a1[2 * (h1 + 1) - 1] :=
      List.getElem?_eq_getElem (by omega)
    rw [hle]
    dsimp only
    rw [store_some _ (by omega)]
    dsimp only
    apply push_heap_spec hk a0 len top value hlen _ _ _ (by omega)
    · apply hole_down a0 len top value a1 h1 _ hinv (by omega) (by omega) (by omega) _ hle
      intro s y g1 g2 g3 g4
      have e : s = 2 * (h1 + 1) - 1 := by omega
      subst e
      rw [hle] at g4
      injection g4 with g4
      rw [← g4]
      exact keyed_irrefl hk _
    · intro c y g1 g2 g3 g4
      omega
  · rw [if_neg heven]
    apply push_heap_spec hk a0 len top value hlen _ _ _ (by omega) hinv
    intro c y g1 g2 g3 g4
    omega

theorem drop_set_self (a : List α) (i : Nat) (v : α) (h : i < a.length) :
    (a.set i v).drop i = v :: a.drop (i + 1) := by
  rw [List.set_eq_take_append_cons_drop, if_pos h]
  have hl : (a.take i).length = i := by
    rw [List.length_take]
    omega
  rw [List.drop_left' hl]

theorem set_getElem?_self {a : List α} {i : Nat} {x : α} (h : a[i]? = some x) :
    a.set i x = a := by
  apply List.ext_getElem?
  intro j
  by_cases e : i = j
  · subst e
    rw [List.getElem?_set_self (List.getElem?_eq_some.mp h).1, h]
  · rw [List.getElem?_set_ne e]

theorem make_heap_loop_spec (hk : KeyedBy comp key) (len : Nat) :
    ∀ (parent : Nat) (a : List α), len ≤ a.length → parent < len →
      HeapFrom comp a len (parent + 1) →
      ∃ r, __make_heap_loop comp len parent a = some r ∧ r.length = a.length ∧
        HeapFrom comp r len 0 ∧ r.Perm a ∧ ∀ i, len ≤ i → r[i]? = a[i]? := by
  intro parent
  induction parent with
  | zero =>
    intro a hlen hp hheap
    have h0 : a[0]? = some a[0] := List.getElem?_eq_getElem (by omega)
    unfold __make_heap_loop
    rw [h0]
    dsimp only
    obtain ⟨r, h1, h2, h3, h4, h5⟩ := adjust_heap_spec hk a 0 len a[0] hlen hp hheap
    rw [set_getElem?_self h0] at h4
    exact ⟨r, h1, h2, h3, h4, h5⟩
  | succ parent ih =>
    intro a hlen hp hheap
    have h0 : a[parent + 1]? = some a[parent + 1] := List.getElem?_eq_getElem (by omega)
    unfold __make_heap_loop
    rw [h0]
    dsimp only
    obtain ⟨r, h1, h2, h3, h4, h5⟩ :=
      adjust_heap_spec hk a (parent + 1) len a[parent + 1] hlen hp hheap
    rw [set_getElem?_self h0] at h4
    rw [h1]
    dsimp only
    obtain ⟨r1, g1, g2, g3, g4, g5⟩ := ih r (by omega) (by omega) h3
    refine ⟨r1, g1, by omega, g3, g4.trans h4, ?_⟩
    intro i hi
    rw [g5 i hi, h5 i hi]

theorem make_heap_spec (hk : KeyedBy comp key) (a : List α) :
    ∃ r, __make_heap comp a a.length = some r ∧ r.length = a.length ∧
      HeapFrom comp r a.length 0 ∧ r.Perm a := by
  unfold __make_heap
  by_cases h : a.length < 2
  · rw [if_pos h]
    refine ⟨a, rfl, rfl, ?_, List.Perm.refl _⟩
    intro c x y h1 h2
    omega
  · rw [if_neg h]
    obtain ⟨r, h1, h2, h3, h4, _⟩ := make_heap_loop_spec hk a.length ((a.length - 2) / 2) a
      (Nat.le_refl _) (by omega) (by
        intro c x y h1 h2 h3
        omega)
    exact ⟨r, h1, h2, h3, h4⟩

/-- The first element of a heap goes before none of the others. -/
theorem heap_root_max (hk : KeyedBy comp key) (a : List α) (len : Nat) (hlen : len ≤ a.length)
    (hheap : HeapFrom comp a len 0) (x : α) (hx : a[0]? = some x) :
    ∀ i y, i < len → a[i]? = some y → comp x y = false := by
  intro i
  induction i using Nat.strong_induction_on with
  | _ i ih =>
    intro y hi hy
    by_cases h0 : i = 0
    · subst h0
      rw [hx] at hy
      injection hy with hy
      rw [← hy]
      exact keyed_irrefl hk x
    · have hq : a[(i - 1) / 2]? = some a[(i - 1) / 2] := List.getElem?_eq_getElem (by omega)
      have h1 := ih ((i - 1) / 2) (by omega) _ (by omega) hq
      have h2 := hheap i _ y (by omega) hi (Nat.zero_le _) hq hy
      exact keyed_trans hk y _ x h2 h1

theorem sort_heap_spec (hk : KeyedBy comp key) :
    ∀ (last : Nat) (a : List α), last ≤ a.length → HeapFrom comp a last 0 →
      (a.drop last).Pairwise (fun x y => comp y x = false) →
      (∀ x ∈ a.take last, ∀ y ∈ a.drop last, comp y x = false) →
      ∃ r, __sort_heap comp a last = some r ∧ r.Perm a ∧
        r.Pairwise (fun x y => comp y x = false) := by
  intro last
  induction last with
  | zero =>
    intro a _ _ hs _
    exact ⟨a, by simp [__sort_heap], List.Perm.refl _, by simpa using hs⟩
  | succ last ih =>
    intro a hlen hheap hsorted hcross
    unfold __sort_heap
    by_cases h1 : last + 1 > 1
    · rw [if_pos h1]
      have hv : a[last]? = some a[last] := List.getElem?_eq_getElem (by omega)
      have ht : a[0]? = some a[0] := List.getElem?_eq_getElem (by omega)
      unfold __pop_heap
      rw [hv, ht]
      dsimp only
      rw [store_some _ (by omega)]
      dsimp only
      obtain ⟨r1, g1, g2, g3, g4, g5⟩ := adjust_heap_spec hk (a.set last a[0]) 0 last a[last]
        (by simp; omega) (by omega) (by
          intro c x y c1 c2 c3 c4 c5
          rw [List.getElem?_set_ne (by omega)] at c4 c5
          exact hheap c x y c1 (by omega) (Nat.zero_le _) c4 c5)
      rw [g1]
      dsimp only
      have hperm : r1.Perm a := g4.trans (swap_perm a last 0 a[last] a[0] hv ht)
      have hdrop : r1.drop last = a[0] :: a.drop (last + 1) := by
        rw [← drop_set_self a last a[0] (by omega)]
        apply List.ext_getElem?
        intro i
        rw [List.getElem?_drop, List.getElem?_drop, g5 _ (by omega)]
      have hmemtake : ∀ x ∈ r1.take last, x ∈ a.take (last + 1) := by
        intro x hx
        have hd2 : ((a.set last a[0]).set 0 a[last]).drop last = a[0] :: a.drop (last + 1) := by
          rw [List.drop_set_of_lt _ _ (by omega), drop_set_self a last a[0] (by omega)]
        have hp2 : (r1.take last ++ r1.drop last).Perm
            (((a.set last a[0]).set 0 a[last]).take last
              ++ ((a.set last a[0]).set 0 a[last]).drop last) := by
          rw [List.take_append_drop, List.take_append_drop]
          exact g4
        rw [hdrop, hd2] at hp2
        have hp3 := (List.perm_append_right_iff _).mp hp2
        obtain ⟨i, hi⟩ := List.mem_iff_getElem?.mp (hp3.mem_iff.mp hx)
        rw [List.getElem?_take] at hi
        split at hi
        · rename_i hil
          apply List.mem_iff_getElem?.mpr
          by_cases e : i = 0
          · subst e
            rw [List.getElem?_set_self (by simp; omega)] at hi
            refine ⟨last, ?_⟩
            rw [List.getElem?_take, if_pos (by omega), hv, hi]
          · rw [List.getElem?_set_ne (by omega), List.getElem?_set_ne (by omega)] at hi
            refine ⟨i, ?_⟩
            rw [List.getElem?_take, if_pos (by omega), hi]
        · cases hi
      have htop_mem : a[0] ∈ a.take (last + 1) := by
        apply List.mem_iff_getElem?.mpr
        refine ⟨0, ?_⟩
        rw [List.getElem?_take, if_pos (by omega), ht]
      obtain ⟨r, k1, k2, k3⟩ := ih r1 (by rw [g2, List.length_set]; omega) g3
        (by
          rw [hdrop]
          refine List.pairwise_cons.mpr ⟨?_, hsorted⟩
          intro y hy
          exact hcross a[0] htop_mem y hy)
        (by
          intro x hx y hy
          rw [hdrop] at hy
          have hxa := hmemtake x hx
          rcases List.mem_cons.mp hy with rfl | hy
          · obtain ⟨i, hi⟩ := List.mem_iff_getElem?.mp hxa
            rw [List.getElem?_take] at hi
            split at hi
            · rename_i hil
              exact heap_root_max hk a (last + 1) hlen hheap a[0] ht i x hil hi
            · cases hi
          · exact hcross x hxa y hy)
      exact ⟨r, k1, k2.trans hperm, k3⟩
    · rw [if_neg h1]
      have e : last = 0 := by omega
      subst e
      refine ⟨a, rfl, List.Perm.refl _, ?_⟩
      rw [← List.take_append_drop 1 a, List.pairwise_append]
      refine ⟨?_, hsorted, hcross⟩
      cases a with
      | nil => simp
      | cons x t => simp

theorem partial_sort_spec (hk : KeyedBy comp key) (a : List α) :
    ∃ r, __partial_sort comp a = some r ∧ r.Perm a ∧
      r.Pairwise (fun x y => comp y x = false) := by
  obtain ⟨r1, h1, h2, h3, h4⟩ := make_heap_spec hk a
  unfold __partial_sort __heap_select
  rw [h1]
  dsimp only
  obtain ⟨r, g1, g2, g3⟩ := sort_heap_spec hk r1.length r1 (Nat.le_refl _) (by rw [h2]; exact h3)
    (by simp) (by simp)
  exact ⟨r, g1, g2.trans h4, g3⟩

end Heap

/-! ## The introsort as a whole -/

section Introsort

variable {α : Type} {comp : α → α → Bool} {key : α → Int}

theorem introsort_loop_spec (hk : KeyedBy comp key) :
    ∀ (depth_limit : Nat) (a : List α),
      ∃ r, __introsort_loop comp depth_limit a = some r ∧ r.Perm a ∧ Blocked comp r := by
  intro depth_limit
  induction depth_limit with
  | zero =>
    intro a
    unfold __introsort_loop
    by_cases h : a.length > _S_threshold
    · rw [if_pos h]
      dsimp only
      obtain ⟨r, h1, h2, h3⟩ := partial_sort_spec hk a
      refine ⟨r, h1, h2, ?_⟩
      intro R1 v R2 hr hlen
      rw [hr, List.pairwise_append] at h3
      cases R1 with
      | nil => simp [_S_threshold] at hlen
      | cons e R1 =>
        exact ⟨e, List.mem_cons_self _ _, h3.2.2 e (List.mem_cons_self _ _) v
          (List.mem_cons_self _ _)⟩
    · rw [if_neg h]
      refine ⟨a, rfl, List.Perm.refl _, ?_⟩
      intro R1 v R2 hr hlen
      rw [hr] at h
      simp only [List.length_append, List.length_cons] at h
      omega
  | succ depth_limit ih =>
    intro a
    unfold __introsort_loop
    by_cases h : a.length > _S_threshold
    · rw [if_pos h]
      dsimp only
      obtain ⟨a1, cut, p, h1, h2, h3, h4, h5, h6⟩ := unguarded_partition_pivot_spec hk a h
      rw [h1]
      dsimp only
      obtain ⟨right, r1, r2, r3⟩ := ih (a1.drop cut)
      obtain ⟨left, l1, l2, l3⟩ := ih (a1.take cut)
      rw [r1, l1]
      dsimp only
      have hcross : ∀ e ∈ left, ∀ v ∈ right, comp v e = false := by
        intro e he v hv
        exact keyed_trans hk e p v (h5 e (l2.mem_iff.mp he)) (h6 v (r2.mem_iff.mp hv))
      have hleft : left ≠ [] := by
        intro e
        have := l2.length_eq
        rw [e, List.length_take] at this
        simp only [List.length_nil] at this
        omega
      refine ⟨left ++ right, rfl, ?_, ?_⟩
      · have := List.Perm.append l2 r2
        rw [List.take_append_drop] at this
        exact this.trans h2
      · intro R1 v R2 hr hlen
        rcases List.append_eq_append_iff.mp hr with ⟨a2, e1, e2⟩ | ⟨c2, e1, e2⟩
        · cases hl : left with
          | nil => exact absurd hl hleft
          | cons e rest =>
            refine ⟨e, ?_, hcross e (by rw [hl]; exact List.mem_cons_self _ _) v
              (by rw [e2]; simp)⟩
            rw [e1, hl]
            simp
        · cases c2 with
          | nil =>
            simp only [List.nil_append, List.append_nil] at e1 e2
            cases hl : left with
            | nil => exact absurd hl hleft
            | cons e rest =>
              refine ⟨e, ?_, hcross e (by rw [hl]; exact List.mem_cons_self _ _) v
                (by rw [← e2]; exact List.mem_cons_self _ _)⟩
              rw [← e1, hl]
              exact List.mem_cons_self _ _
          | cons w c2 =>
            simp only [List.cons_append, List.cons.injEq] at e2
            obtain ⟨rfl, _⟩ := e2
            exact l3 R1 v c2 e1 hlen
    · rw [if_neg h]
      refine ⟨a, rfl, List.Perm.refl _, ?_⟩
      intro R1 v R2 hr hlen
      rw [hr] at h
      simp only [List.length_append, List.length_cons] at h
      omega

theorem blocked_guarded {r : List α} (h : Blocked comp r) :
    Guarded comp (r.take _S_threshold) (r.drop _S_threshold) := by
  intro R1 v R2 hR
  have hlen : _S_threshold < r.length := by
    have := congrArg List.length hR
    simp only [List.length_drop, List.length_append, List.length_cons] at this
    omega
  have hr : r = (r.take _S_threshold ++ R1) ++ v :: R2 := by
    rw [List.append_assoc, ← hR, List.take_append_drop]
  obtain ⟨e, he, hle⟩ := h _ v R2 hr (by
    rw [List.length_append, List.length_take]
    omega)
  exact ⟨e, List.mem_append.mp he, hle⟩

/-- For the comparisons of the constructor, `__sort` ends inside the array, and its result
is the stable sort of a rearrangement of the input. -/
theorem sort_eq (hk : KeyedBy comp key) (a : List α) :
    ∃ r, r.Perm a ∧ __sort comp a = some (stable_sort α comp r) := by
  unfold __sort
  by_cases h : a.length = 0
  · rw [if_pos h]
    have e : a = [] := List.length_eq_zero.mp h
    subst e
    exact ⟨[], List.Perm.refl _, rfl⟩
  · rw [if_neg h]
    obtain ⟨r, h1, h2, h3⟩ := introsort_loop_spec hk (__lg a.length a.length * 2) a
    rw [h1]
    exact ⟨r, h2, final_insertion_sort_guarded hk r (blocked_guarded h3)⟩

theorem sort_small (hk : KeyedBy comp key) (a : List α) (h : a.length ≤ _S_threshold) :
    __sort comp a = some (stable_sort α comp a) := by
  unfold __sort
  by_cases h0 : a.length = 0
  · rw [if_pos h0]
    have e : a = [] := List.length_eq_zero.mp h0
    subst e
    rfl
  · rw [if_neg h0]
    have : __introsort_loop comp (__lg a.length a.length * 2) a = some a := by
      unfold __introsort_loop
      rw [if_neg (by omega)]
    rw [this]
    exact final_insertion_sort_small hk a h

/-- The sort of GNU libstdc++ meets the contract of `std::ranges::sort`. -/
theorem libstdcxx_sort_contract : RangesSort.Contract libstdcxx_sort := by
  intro α comp key hk l
  obtain ⟨r, h1, h2⟩ := sort_eq hk l
  obtain ⟨h3, h4⟩ := stable_sort_contract α comp key hk r
  unfold libstdcxx_sort
  rw [h2]
  exact ⟨h3.trans h1, h4⟩

/-- Up to `_S_threshold` elements the sort of GNU libstdc++ is an insertion sort, which
keeps equivalent elements in their input order. -/
theorem libstdcxx_sort_small {α : Type} {comp : α → α → Bool} {key : α → Int}
    (hk : KeyedBy comp key) (l : List α) (h : l.length ≤ _S_threshold) :
    libstdcxx_sort α comp l = stable_sort α comp l := by
  unfold libstdcxx_sort
  rw [sort_small hk l h]

/-- Up to `_S_threshold` elements that stand in order are left as they are. -/
theorem libstdcxx_sort_keeps_sorted {α : Type} {comp : α → α → Bool} {key : α → Int}
    (hk : KeyedBy comp key) (l : List α) (h : l.length ≤ _S_threshold)
    (hl : l.Pairwise (fun x y => comp y x = false)) : libstdcxx_sort α comp l = l := by
  rw [libstdcxx_sort_small hk l h]
  exact List.Sorted.insertionSort_eq hl

end Introsort

/-! ## Vectors -/

theorem snoc_cases {α : Type} (l : List α) : l = [] ∨ ∃ pre a, l = pre ++ [a] := by
  rcases List.eq_nil_or_concat l with h | ⟨pre, a, h⟩
  · exact Or.inl h
  · exact Or.inr ⟨pre, a, by simpa using h⟩

@[simp] theorem try_back_nil {α : Type} : try_back ([] : List α) = none := rfl

@[simp] theorem try_back_snoc {α : Type} (pre : List α) (a : α) :
    try_back (pre ++ [a]) = some a := by
  simp [try_back]

@[simp] theorem vec_modify_back_snoc {α : Type} (pre : List α) (a : α) (f : α → α) :
    vec_modify_back (pre ++ [a]) f = pre ++ [f a] := by
  induction pre with
  | nil => rfl
  | cons b pre ih =>
    cases pre with
    | nil => rfl
    | cons c pre => simpa [vec_modify_back] using ih

theorem vec_modify_split {α : Type} (pre : List α) (a : α) (post : List α) (f : α → α) :
    vec_modify (pre ++ a :: post) pre.length f = pre ++ f a :: post := by
  induction pre with
  | nil => rfl
  | cons b pre ih => simp [vec_modify, ih]

theorem getElem?_split {α : Type} {l : List α} {i : Nat} {a : α} (h : l[i]? = some a) :
    ∃ pre post, l = pre ++ a :: post ∧ pre.length = i := by
  induction l generalizing i with
  | nil => simp at h
  | cons b l ih =>
    cases i with
    | zero =>
      simp at h
      exact ⟨[], l, by simp [h], rfl⟩
    | succ n =>
      simp at h
      obtain ⟨pre, post, h1, h2⟩ := ih h
      exact ⟨b :: pre, post, by simp [h1], by simp [h2]⟩

/-! ## The merge pass -/

theorem merge_mesh_draws_loop_snoc (pre : List MeshDrawTree) (c : MeshDrawTree)
    (l : List MeshDrawTree) :
    merge_mesh_draws_loop (pre ++ [c]) l = pre ++ fuse (fun md => md.mesh) join_mesh c l := by
  induction l generalizing pre c with
  | nil => simp [merge_mesh_draws_loop, fuse]
  | cons x rest ih =>
    simp only [merge_mesh_draws_loop, try_back_snoc, fuse]
    by_cases h : c.mesh = x.mesh
    · rw [if_pos h, if_pos h, vec_modify_back_snoc]
      have := ih pre { c with draw_calls := c.draw_calls ++ x.draw_calls }
      simpa [join_mesh] using this
    · rw [if_neg h, if_neg h]
      have := ih (pre ++ [c]) x
      simpa using this

theorem merge_mesh_draws_nil : merge_mesh_draws [] = [] := rfl

theorem merge_mesh_draws_cons (x : MeshDrawTree) (rest : List MeshDrawTree) :
    merge_mesh_draws (x :: rest) = fuse (fun md => md.mesh) join_mesh x rest := by
  have := merge_mesh_draws_loop_snoc [] x rest
  simpa [merge_mesh_draws, merge_mesh_draws_loop] using this

theorem merge_shader_draws_loop_snoc (pre : List ShaderDrawTree) (c : ShaderDrawTree)
    (l : List ShaderDrawTree) :
    merge_shader_draws_loop (pre ++ [c]) l
      = pre ++ fuse (fun sd => sd.shader) join_shader c l := by
  induction l generalizing pre c with
  | nil => simp [merge_shader_draws_loop, fuse]
  | cons x rest ih =>
    simp only [merge_shader_draws_loop, try_back_snoc, fuse]
    by_cases h : c.shader = x.shader
    · rw [if_pos h, if_pos h, vec_modify_back_snoc]
      have := ih pre { c with mesh_draws := c.mesh_draws ++ x.mesh_draws }
      simpa [join_shader] using this
    · rw [if_neg h, if_neg h]
      have := ih (pre ++ [c]) x
      simpa using this

theorem merge_shader_draws_nil : merge_shader_draws [] = [] := rfl

theorem merge_shader_draws_cons (x : ShaderDrawTree) (rest : List ShaderDrawTree) :
    merge_shader_draws (x :: rest) = fuse (fun sd => sd.shader) join_shader x rest := by
  have := merge_shader_draws_loop_snoc [] x rest
  simpa [merge_shader_draws, merge_shader_draws_loop] using this

section Fuse

variable {α κ : Type} [DecidableEq κ] (key : α → κ) (combine : α → α → α)

/-- The flattening of a fused list is the flattening of the list it was fused from. -/
theorem fuse_flatMap {β : Type} (g : α → List β)
    (hg : ∀ c x, key c = key x → g (combine c x) = g c ++ g x) (c : α) (l : List α) :
    (fuse key combine c l).flatMap g = g c ++ l.flatMap g := by
  induction l generalizing c with
  | nil => simp [fuse]
  | cons x rest ih =>
    simp only [fuse]
    split
    · rename_i heq
      rw [ih, hg c x heq]; simp
    · simp [ih]

/-- The first fused group has the key of the group the fold started from. -/
theorem fuse_head (hk : ∀ c x, key (combine c x) = key c) (c : α) (l : List α) :
    ∃ c1 tail, fuse key combine c l = c1 :: tail ∧ key c1 = key c := by
  induction l generalizing c with
  | nil => exact ⟨c, [], rfl, rfl⟩
  | cons x rest ih =>
    simp only [fuse]
    split
    · obtain ⟨c1, tail, h1, h2⟩ := ih (combine c x)
      exact ⟨c1, tail, h1, by rw [h2, hk]⟩
    · exact ⟨c, _, rfl, rfl⟩

/-- No two neighbours of a fused list have the same key. -/
theorem fuse_chain (hk : ∀ c x, key (combine c x) = key c) (c : α) (l : List α) :
    List.Chain' (fun a b => key a ≠ key b) (fuse key combine c l) := by
  induction l generalizing c with
  | nil => simp [fuse]
  | cons x rest ih =>
    simp only [fuse]
    split
    · exact ih _
    · rename_i hne
      obtain ⟨c1, tail, h1, h2⟩ := fuse_head key combine hk x rest
      have := ih x
      rw [h1] at this ⊢
      exact List.Chain'.cons (by rw [h2]; exact hne) this

/-- A list without equal neighbours is left as it is. -/
theorem fuse_of_chain (c : α) (l : List α)
    (h : List.Chain (fun a b => key a ≠ key b) c l) : fuse key combine c l = c :: l := by
  induction l generalizing c with
  | nil => rfl
  | cons x rest ih =>
    rw [List.chain_cons] at h
    simp only [fuse, h.1, if_false]
    rw [ih x h.2]

/-- A property of groups that joining keeps holds of every fused group. -/
theorem fuse_forall (P : α → Prop)
    (hP : ∀ c x, P c → P x → key c = key x → P (combine c x)) (c : α) (l : List α)
    (hc : P c) (hl : ∀ x ∈ l, P x) : ∀ y ∈ fuse key combine c l, P y := by
  induction l generalizing c with
  | nil => simpa [fuse] using hc
  | cons x rest ih =>
    have hx : P x := hl x (List.mem_cons_self _ _)
    have hrest : ∀ y ∈ rest, P y := fun y hy => hl y (List.mem_cons_of_mem _ hy)
    simp only [fuse]
    split
    · rename_i heq
      exact ih _ (hP c x hc hx heq) hrest
    · intro y hy
      rcases List.mem_cons.mp hy with rfl | hy
      · exact hc
      · exact ih x hx hrest y hy

/-- The keys of a fused list form a sublist of the keys it was fused from. -/
theorem fuse_keys_sublist (hk : ∀ c x, key (combine c x) = key c) (c : α) (l : List α) :
    ((fuse key combine c l).map key).Sublist ((c :: l).map key) := by
  induction l generalizing c with
  | nil => simp [fuse]
  | cons x rest ih =>
    simp only [fuse]
    split
    · rename_i heq
      have := ih (combine c x)
      simp only [List.map_cons, hk] at this ⊢
      rw [← heq]
      exact List.Sublist.trans this (by
        apply List.Sublist.cons₂
        exact List.sublist_cons_self _ _)
    · have := ih x
      simp only [List.map_cons] at this ⊢
      exact List.Sublist.cons₂ _ this

end Fuse

theorem sample_tree_built :
    DrawCallTree.DrawCallTree sample_config stable_sort sample_calls = Except.ok sample_tree := by
  rfl

theorem merge_mesh_draws_chain (l : List MeshDrawTree) :
    List.Chain' (fun a b : MeshDrawTree => a.mesh ≠ b.mesh) (merge_mesh_draws l) := by
  cases l with
  | nil => simp [merge_mesh_draws_nil]
  | cons x rest =>
    rw [merge_mesh_draws_cons]
    exact fuse_chain (fun md : MeshDrawTree => md.mesh) join_mesh (fun _ _ => rfl) x rest

theorem merge_mesh_draws_of_chain (l : List MeshDrawTree)
    (h : List.Chain' (fun a b : MeshDrawTree => a.mesh ≠ b.mesh) l) : merge_mesh_draws l = l := by
  cases l with
  | nil => rfl
  | cons x rest =>
    rw [merge_mesh_draws_cons]
    exact fuse_of_chain _ _ x rest h

theorem merge_shader_draws_chain (l : List ShaderDrawTree) :
    List.Chain' (fun a b : ShaderDrawTree => a.shader ≠ b.shader) (merge_shader_draws l) := by
  cases l with
  | nil => simp [merge_shader_draws_nil]
  | cons x rest =>
    rw [merge_shader_draws_cons]
    exact fuse_chain (fun sd : ShaderDrawTree => sd.shader) join_shader (fun _ _ => rfl) x rest

theorem merge_shader_draws_of_chain (l : List ShaderDrawTree)
    (h : List.Chain' (fun a b : ShaderDrawTree => a.shader ≠ b.shader) l) :
    merge_shader_draws l = l := by
  cases l with
  | nil => rfl
  | cons x rest =>
    rw [merge_shader_draws_cons]
    exact fuse_of_chain _ _ x rest h

theorem merge_tree_of_chain (l : List ShaderDrawTree)
    (h : List.Chain' (fun a b : ShaderDrawTree => a.shader ≠ b.shader) l)
    (hm : ∀ sd ∈ l, List.Chain' (fun a b : MeshDrawTree => a.mesh ≠ b.mesh) sd.mesh_draws) :
    merge_tree l = l := by
  unfold merge_tree
  rw [merge_shader_draws_of_chain l h]
  conv_rhs => rw [← List.map_id l]
  apply List.map_congr_left
  intro sd hsd
  simp [merge_mesh_draws_of_chain sd.mesh_draws (hm sd hsd)]

theorem merge_tree_chain (t : List ShaderDrawTree) :
    List.Chain' (fun a b : ShaderDrawTree => a.shader ≠ b.shader) (merge_tree t) := by
  unfold merge_tree
  rw [List.chain'_map]
  exact merge_shader_draws_chain t

theorem merge_tree_mesh_chain (t : List ShaderDrawTree) :
    ∀ sd ∈ merge_tree t,
      List.Chain' (fun a b : MeshDrawTree => a.mesh ≠ b.mesh) sd.mesh_draws := by
  intro sd hsd
  unfold merge_tree at hsd
  obtain ⟨sd0, _, rfl⟩ := List.mem_map.mp hsd
  exact merge_mesh_draws_chain _

/-- C6: the merge pass is idempotent: on every sequence of shader groups, `merge_tree`
applied to the result of `merge_tree` gives that result again. -/
theorem merge_tree_idempotent (t : List ShaderDrawTree) :
    merge_tree (merge_tree t) = merge_tree t :=
  merge_tree_of_chain (merge_tree t) (merge_tree_chain t) (merge_tree_mesh_chain t)

theorem merge_shader_draws_pairwise (R : Shader → Shader → Prop) (l : List ShaderDrawTree)
    (h : l.Pairwise (fun a b => R a.shader b.shader)) :
    (merge_shader_draws l).Pairwise (fun a b => R a.shader b.shader) := by
  cases l with
  | nil => simp [merge_shader_draws_nil]
  | cons x rest =>
    rw [merge_shader_draws_cons]
    have hsub := fuse_keys_sublist (fun sd : ShaderDrawTree => sd.shader) join_shader
      (fun _ _ => rfl) x rest
    have h1 : ((x :: rest).map (fun sd : ShaderDrawTree => sd.shader)).Pairwise R :=
      List.pairwise_map.mpr h
    exact List.pairwise_map.mp (h1.sublist hsub)

theorem merge_tree_pairwise (R : Shader → Shader → Prop) (l : List ShaderDrawTree)
    (h : l.Pairwise (fun a b => R a.shader b.shader)) :
    (merge_tree l).Pairwise (fun a b => R a.shader b.shader) := by
  unfold merge_tree
  rw [List.pairwise_map]
  exact merge_shader_draws_pairwise R l h

/-- The shape of a successful run of the constructor. -/
theorem constructor_ok {cfg : BuildConfig} {sort : RangesSort} {draw_calls : List DrawCall}
    {tree : DrawCallTree} (h : DrawCallTree.DrawCallTree cfg sort draw_calls = Except.ok tree) :
    ∃ inserted, DrawCallTree.insert_all cfg {} (sort DrawCall order_comp draw_calls)
        = Except.ok inserted ∧
      tree._shader_draws
        = merge_tree (sort ShaderDrawTree draw_order_comp inserted._shader_draws) := by
  unfold DrawCallTree.DrawCallTree at h
  cases hins : DrawCallTree.insert_all cfg {} (sort DrawCall order_comp draw_calls) with
  | error e => simp [hins] at h
  | ok inserted =>
    simp only [hins] at h
    injection h with h
    exact ⟨inserted, rfl, by rw [← h]⟩

/-- C7: whatever the input, the shader groups of the finished tree stand in
non-decreasing order of their shader's `draw_order`. -/
theorem shader_groups_in_draw_order (cfg : BuildConfig) (sort : RangesSort)
    (draw_calls : List DrawCall) (tree : DrawCallTree) (hsort : sort.Contract)
    (h : DrawCallTree.DrawCallTree cfg sort draw_calls = Except.ok tree) :
    tree._shader_draws.Pairwise (fun a b => a.shader.draw_order ≤ b.shader.draw_order) := by
  obtain ⟨inserted, _, htree⟩ := constructor_ok h
  rw [htree]
  apply merge_tree_pairwise (fun s1 s2 => s1.draw_order ≤ s2.draw_order)
  have := (hsort ShaderDrawTree draw_order_comp _ draw_order_comp_keyed inserted._shader_draws).2
  refine this.imp ?_
  intro a b hab
  simpa [draw_order_comp] using hab

theorem shader_groups_in_draw_order_witness :
    stable_sort.Contract ∧
      DrawCallTree.DrawCallTree sample_config stable_sort sample_calls = Except.ok sample_tree ∧
      sample_tree._shader_draws.Pairwise
        (fun a b => a.shader.draw_order ≤ b.shader.draw_order) :=
  ⟨stable_sort_contract, sample_tree_built,
    shader_groups_in_draw_order sample_config stable_sort sample_calls sample_tree
      stable_sort_contract sample_tree_built⟩

/-! ## Execution of a well grouped tree -/

theorem ran_refl (ex : Execution) : Ran ex ex 0 0 [] := by
  simp [Ran]

theorem ran_trans {a b c : Execution} {s1 s2 m1 m2 : Nat} {c1 c2 : List DrawCall}
    (h1 : Ran a b s1 m1 c1) (h2 : Ran b c s2 m2 c2) :
    Ran a c (s1 + s2) (m1 + m2) (c1 ++ c2) := by
  obtain ⟨a1, a2, a3, a4, a5, a6, a7, a8⟩ := h1
  obtain ⟨b1, b2, b3, b4, b5, b6, b7, b8⟩ := h2
  refine ⟨?_, ?_, ?_, ?_, ?_, ?_, ?_, ?_⟩
  · omega
  · omega
  · simp only [List.length_append]; omega
  · simp only [List.map_append, List.sum_append]; omega
  · rw [b5, a5, List.append_assoc]
  · omega
  · omega
  · simp only [List.length_append]; omega

theorem execute_draw_calls_ran (cfg : BuildConfig) (shader : Shader) (mesh : Mesh)
    (l : List DrawCall) (ex : Execution)
    (h : ∀ dc ∈ l, dc.mesh = some mesh ∧
      ∃ material, dc.material = some material ∧ material.shader = shader) :
    ∃ ex1, execute_draw_calls cfg shader mesh l ex = Except.ok ex1 ∧ Ran ex ex1 0 0 l := by
  induction l generalizing ex with
  | nil => exact ⟨ex, rfl, ran_refl ex⟩
  | cons dc rest ih =>
    obtain ⟨hmesh, material, hmat, hsh⟩ := h dc (List.mem_cons_self _ _)
    have hrest := fun d hd => h d (List.mem_cons_of_mem _ hd)
    have hc1 : check cfg (some material).isSome = Except.ok () := by
      simp [check]
    have hc2 : check cfg (decide (material.shader = shader)) = Except.ok () := by
      simp [check, hsh]
    simp only [execute_draw_calls, hmat, hc1, deref, hc2]
    obtain ⟨ex1, hex1, hran⟩ := ih
      { stats :=
          { ex.stats with
            draw_calls := ex.stats.draw_calls + 1
            triangles := ex.stats.triangles + dc.instance_count * mesh.num_triangles }
        commands :=
          ex.commands ++
            [GpuCommand.apply_uniforms material, GpuCommand.bind_buffers material,
              if dc.instance_count = 1 then GpuCommand.draw mesh
              else GpuCommand.draw_instanced mesh dc.instance_count]
        dispatched := ex.dispatched ++ [dc] } hrest
    refine ⟨ex1, hex1, ?_⟩
    have hstep : Ran ex
        { stats :=
            { ex.stats with
              draw_calls := ex.stats.draw_calls + 1
              triangles := ex.stats.triangles + dc.instance_count * mesh.num_triangles }
          commands :=
            ex.commands ++
              [GpuCommand.apply_uniforms material, GpuCommand.bind_buffers material,
                if dc.instance_count = 1 then GpuCommand.draw mesh
                else GpuCommand.draw_instanced mesh dc.instance_count]
          dispatched := ex.dispatched ++ [dc] } 0 0 [dc] := by
      refine ⟨rfl, rfl, rfl, ?_, rfl, ?_, ?_, ?_⟩
      · simp [DrawCall.triangles, hmesh]
      · simp only [List.countP_append]
        by_cases hi : dc.instance_count = 1 <;>
          simp [List.countP_cons, GpuCommand.is_use, hi]
      · simp only [List.countP_append]
        by_cases hi : dc.instance_count = 1 <;>
          simp [List.countP_cons, GpuCommand.is_bind, hi]
      · simp only [List.countP_append]
        by_cases hi : dc.instance_count = 1 <;>
          simp [List.countP_cons, GpuCommand.is_dispatch, hi]
    simpa using ran_trans hstep hran

theorem execute_mesh_draws_ran (cfg : BuildConfig) (shader : Shader)
    (l : List MeshDrawTree) (ex : Execution)
    (h : ∀ md ∈ l, ∀ dc ∈ md.draw_calls, dc.mesh = some md.mesh ∧
      ∃ material, dc.material = some material ∧ material.shader = shader) :
    ∃ ex1, execute_mesh_draws cfg shader l ex = Except.ok ex1 ∧
      Ran ex ex1 0 l.length (mesh_draws_calls l) := by
  induction l generalizing ex with
  | nil => exact ⟨ex, rfl, ran_refl ex⟩
  | cons md rest ih =>
    obtain ⟨ex1, hex1, hran1⟩ := execute_draw_calls_ran cfg shader md.mesh md.draw_calls
      { ex with
        stats := { ex.stats with mesh_switches := ex.stats.mesh_switches + 1 }
        commands := ex.commands ++ [GpuCommand.bind md.mesh] } (h md (List.mem_cons_self _ _))
    obtain ⟨ex2, hex2, hran2⟩ := ih ex1 (fun m hm => h m (List.mem_cons_of_mem _ hm))
    simp only [execute_mesh_draws, hex1]
    refine ⟨ex2, hex2, ?_⟩
    have hstep : Ran ex
        { ex with
          stats := { ex.stats with mesh_switches := ex.stats.mesh_switches + 1 }
          commands := ex.commands ++ [GpuCommand.bind md.mesh] } 0 1 [] := by
      refine ⟨rfl, rfl, rfl, ?_, ?_, ?_, ?_, ?_⟩ <;>
        simp [List.countP_append, List.countP_cons, GpuCommand.is_use, GpuCommand.is_bind,
          GpuCommand.is_dispatch]
    have := ran_trans (ran_trans hstep hran1) hran2
    simpa [mesh_draws_calls, Nat.add_comm] using this

theorem execute_shader_draws_ran (cfg : BuildConfig) (l : List ShaderDrawTree) (ex : Execution)
    (h : WellGrouped l) :
    ∃ ex1, execute_shader_draws cfg l ex = Except.ok ex1 ∧
      Ran ex ex1 l.length (mesh_group_count l) (dispatch_order l) := by
  induction l generalizing ex with
  | nil => exact ⟨ex, rfl, ran_refl ex⟩
  | cons sd rest ih =>
    obtain ⟨ex1, hex1, hran1⟩ := execute_mesh_draws_ran cfg sd.shader sd.mesh_draws
      { ex with
        stats := { ex.stats with shader_switches := ex.stats.shader_switches + 1 }
        commands := ex.commands ++ [GpuCommand.use sd.shader] }
      (h sd (List.mem_cons_self _ _))
    obtain ⟨ex2, hex2, hran2⟩ := ih ex1 (fun s hs => h s (List.mem_cons_of_mem _ hs))
    simp only [execute_shader_draws, hex1]
    refine ⟨ex2, hex2, ?_⟩
    have hstep : Ran ex
        { ex with
          stats := { ex.stats with shader_switches := ex.stats.shader_switches + 1 }
          commands := ex.commands ++ [GpuCommand.use sd.shader] } 1 0 [] := by
      refine ⟨rfl, rfl, rfl, ?_, ?_, ?_, ?_, ?_⟩ <;>
        simp [List.countP_append, List.countP_cons, GpuCommand.is_use, GpuCommand.is_bind,
          GpuCommand.is_dispatch]
    have := ran_trans (ran_trans hstep hran1) hran2
    simpa [dispatch_order, mesh_group_count, Nat.add_comm] using this

/-! ## What one insertion does to the vector of shader groups -/

theorem pointwise_refl {α : Type} {R : α → α → Prop} (hR : ∀ x, R x x) (a : List α) :
    Pointwise R a a :=
  fun _ x hx => ⟨x, hx, hR x⟩

theorem pointwise_append {α : Type} {R : α → α → Prop} (hR : ∀ x, R x x) (a extra : List α) :
    Pointwise R a (a ++ extra) := by
  intro i x hx
  have hi : i < a.length := by
    rcases List.getElem?_eq_some.mp hx with ⟨h, _⟩
    exact h
  exact ⟨x, by rw [List.getElem?_append_left hi]; exact hx, hR x⟩

theorem pointwise_replace {α : Type} {R : α → α → Prop} (hR : ∀ x, R x x)
    (pre : List α) (x y : α) (post : List α) (hxy : R x y) :
    Pointwise R (pre ++ x :: post) (pre ++ y :: post) := by
  intro i z hz
  rw [List.getElem?_append] at hz ⊢
  split at hz
  · rename_i hlt
    rw [if_pos hlt]
    exact ⟨z, hz, hR z⟩
  · rename_i hge
    rw [if_neg hge]
    cases hk : i - pre.length with
    | zero =>
      rw [hk] at hz
      simp only [List.getElem?_cons_zero, Option.some.injEq] at hz
      subst hz
      exact ⟨y, by simp, hxy⟩
    | succ n =>
      rw [hk] at hz
      simp only [List.getElem?_cons_succ] at hz ⊢
      exact ⟨z, hz, hR z⟩

theorem meshExt_refl (a : List MeshDrawTree) : MeshExt a a :=
  pointwise_refl (R := fun md md1 : MeshDrawTree => md1.mesh = md.mesh) (fun _ => rfl) a

theorem ext_refl (a : List ShaderDrawTree) : Ext a a :=
  pointwise_refl (fun sd => ⟨rfl, rfl, meshExt_refl sd.mesh_draws⟩) a

theorem ext_append (a extra : List ShaderDrawTree) : Ext a (a ++ extra) :=
  pointwise_append (fun sd => ⟨rfl, rfl, meshExt_refl sd.mesh_draws⟩) a extra

theorem ext_replace (pre : List ShaderDrawTree) (sd : ShaderDrawTree)
    (post : List ShaderDrawTree) (mesh_draws : List MeshDrawTree)
    (h : MeshExt sd.mesh_draws mesh_draws) :
    Ext (pre ++ sd :: post) (pre ++ { sd with mesh_draws := mesh_draws } :: post) :=
  pointwise_replace (fun sd => ⟨rfl, rfl, meshExt_refl sd.mesh_draws⟩) pre sd _ post
    ⟨rfl, rfl, h⟩

theorem step_ext {s : Shader} {m : Mesh} {dc : DrawCall} {a b : List ShaderDrawTree}
    (h : Step s m dc a b) : Ext a b := by
  cases h with
  | push pre sd post mpre md mpost hs hm hmd =>
    apply ext_replace
    rw [hmd]
    exact pointwise_replace (R := fun md md1 : MeshDrawTree => md1.mesh = md.mesh)
      (fun _ => rfl) mpre md _ mpost rfl
  | new_mesh pre sd post k hs =>
    apply ext_replace
    exact pointwise_append (R := fun md md1 : MeshDrawTree => md1.mesh = md.mesh)
      (fun _ => rfl) _ _
  | new_shader k1 k2 => exact ext_append _ _

theorem wellGrouped_append (a b : List ShaderDrawTree) :
    WellGrouped (a ++ b) ↔ WellGrouped a ∧ WellGrouped b := by
  simp only [WellGrouped, List.mem_append]
  constructor
  · intro h
    exact ⟨fun sd hsd => h sd (Or.inl hsd), fun sd hsd => h sd (Or.inr hsd)⟩
  · rintro ⟨h1, h2⟩ sd (hsd | hsd)
    · exact h1 sd hsd
    · exact h2 sd hsd

theorem wellGrouped_cons (sd : ShaderDrawTree) (l : List ShaderDrawTree) :
    WellGrouped (sd :: l) ↔ WellGrouped [sd] ∧ WellGrouped l :=
  wellGrouped_append [sd] l

theorem wellGrouped_nil : WellGrouped [] := by
  simp [WellGrouped]

theorem wellGrouped_singleton (sd : ShaderDrawTree) :
    WellGrouped [sd] ↔ ∀ md ∈ sd.mesh_draws, ∀ dc ∈ md.draw_calls,
      dc.mesh = some md.mesh ∧
        ∃ material, dc.material = some material ∧ material.shader = sd.shader := by
  constructor
  · intro h
    exact h sd (List.mem_singleton.mpr rfl)
  · intro h sd1 hsd1
    rw [List.mem_singleton.mp hsd1]
    exact h

theorem step_wellGrouped {s : Shader} {m : Mesh} {dc : DrawCall} {a b : List ShaderDrawTree}
    (h : Step s m dc a b) (hmesh : dc.mesh = some m)
    (hmat : ∃ material, dc.material = some material ∧ material.shader = s)
    (ha : WellGrouped a) : WellGrouped b := by
  cases h with
  | push pre sd post mpre md mpost hs hm hmd =>
    rw [wellGrouped_append, wellGrouped_cons] at ha ⊢
    refine ⟨ha.1, ?_, ha.2.2⟩
    have h1 := ha.2.1
    rw [wellGrouped_singleton] at h1 ⊢
    simp only [hmd, List.mem_append, List.mem_cons] at h1 ⊢
    intro md1 hmd1 d hd
    rcases hmd1 with hmd1 | rfl | hmd1
    · exact h1 md1 (Or.inl hmd1) d hd
    · simp only [push_call, List.mem_append, List.mem_singleton] at hd
      rcases hd with hd | rfl
      · exact h1 md (Or.inr (Or.inl rfl)) d hd
      · exact ⟨by simp [hmesh, hm, push_call], by rw [hs]; exact hmat⟩
    · exact h1 md1 (Or.inr (Or.inr hmd1)) d hd
  | new_mesh pre sd post k hs =>
    rw [wellGrouped_append, wellGrouped_cons] at ha ⊢
    refine ⟨ha.1, ?_, ha.2.2⟩
    have h1 := ha.2.1
    rw [wellGrouped_singleton] at h1 ⊢
    simp only [List.mem_append, List.mem_singleton] at h1 ⊢
    intro md1 hmd1 d hd
    rcases hmd1 with hmd1 | rfl
    · exact h1 md1 hmd1 d hd
    · simp only [List.mem_singleton] at hd
      subst hd
      exact ⟨hmesh, by rw [hs]; exact hmat⟩
  | new_shader k1 k2 =>
    rw [wellGrouped_append]
    refine ⟨ha, ?_⟩
    rw [wellGrouped_singleton]
    intro md1 hmd1 d hd
    simp only [List.mem_singleton] at hmd1
    subst hmd1
    simp only [List.mem_singleton] at hd
    subst hd
    exact ⟨hmesh, hmat⟩

theorem step_dispatch_perm {s : Shader} {m : Mesh} {dc : DrawCall} {a b : List ShaderDrawTree}
    (h : Step s m dc a b) : (dispatch_order b).Perm (dc :: dispatch_order a) := by
  rw [List.perm_iff_count]
  intro d
  cases h with
  | push pre sd post mpre md mpost hs hm hmd =>
    simp only [dispatch_order, mesh_draws_calls, push_call, hmd, List.flatMap_append,
      List.flatMap_cons, List.count_append, List.count_cons, List.count_nil]
    omega
  | new_mesh pre sd post k hs =>
    simp only [dispatch_order, mesh_draws_calls, List.flatMap_append,
      List.flatMap_cons, List.flatMap_nil, List.count_append, List.count_cons, List.count_nil]
    omega
  | new_shader k1 k2 =>
    simp only [dispatch_order, mesh_draws_calls, List.flatMap_append,
      List.flatMap_cons, List.flatMap_nil, List.count_append, List.count_cons, List.count_nil]
    omega

/-! ## `add_blended_draw` -/

theorem blended_mesh_draws_fresh (mesh_draws : List MeshDrawTree) (dc : DrawCall) (m : Mesh)
    (hmesh : dc.mesh = some m)
    (h : ∀ mlast, try_back mesh_draws = some mlast → mlast.mesh ≠ m) :
    blended_mesh_draws mesh_draws dc
      = Except.ok (mesh_draws ++ [{ index := 0, mesh := m, draw_calls := [dc] }]) := by
  unfold blended_mesh_draws
  cases hb : try_back mesh_draws with
  | none => simp [hmesh, to_shared_ref, deref]
  | some mlast =>
    have hne : mlast.mesh ≠ m := h mlast hb
    simp [hmesh, to_shared_ref, deref, hne]

theorem blended_mesh_draws_push (mpre : List MeshDrawTree) (mlast : MeshDrawTree)
    (dc : DrawCall) (hmesh : dc.mesh = some mlast.mesh) :
    blended_mesh_draws (mpre ++ [mlast]) dc = Except.ok (mpre ++ [push_call dc mlast]) := by
  unfold blended_mesh_draws
  simp [hmesh, push_call]

theorem add_blended_draw_eq (t : DrawCallTree) (dc : DrawCall) (material : Material)
    (hmat : dc.material = some material) (pre : List ShaderDrawTree) (sd : ShaderDrawTree)
    (mesh_draws : List MeshDrawTree)
    (hsd : blended_shader_draws t._shader_draws material.shader = pre ++ [sd])
    (hbm : blended_mesh_draws sd.mesh_draws dc = Except.ok mesh_draws) :
    t.add_blended_draw dc
      = Except.ok { t with _shader_draws := pre ++ [{ sd with mesh_draws := mesh_draws }] } := by
  unfold DrawCallTree.add_blended_draw
  simp only [hmat, deref, hsd, try_back_snoc, hbm, vec_modify_back_snoc]

theorem try_back_ne_of_not_exists {α : Type} {l : List α} {P : α → Prop}
    (h : ¬ ∃ pre last, l = pre ++ [last] ∧ P last) :
    ∀ last, try_back l = some last → ¬ P last := by
  intro last hlast hP
  rcases snoc_cases l with hn | ⟨pre, a, ha⟩
  · simp [hn] at hlast
  · rw [ha, try_back_snoc] at hlast
    injection hlast with hlast
    exact h ⟨pre, a, ha, by rw [hlast]; exact hP⟩

theorem add_blended_draw_step (t : DrawCallTree) (dc : DrawCall) (material : Material)
    (m : Mesh) (hmat : dc.material = some material) (hmesh : dc.mesh = some m) :
    ∃ sds, t.add_blended_draw dc = Except.ok { t with _shader_draws := sds } ∧
      BackStep material.shader m dc t._shader_draws sds := by
  by_cases hex : ∃ pre last, t._shader_draws = pre ++ [last] ∧ last.shader = material.shader
  · obtain ⟨pre, last, hsnoc, hs⟩ := hex
    have hsd : blended_shader_draws t._shader_draws material.shader = pre ++ [last] := by
      simp [blended_shader_draws, hsnoc, hs]
    by_cases hm : ∃ mpre mlast, last.mesh_draws = mpre ++ [mlast] ∧ mlast.mesh = m
    · obtain ⟨mpre, mlast, hmd, hmm⟩ := hm
      refine ⟨_, add_blended_draw_eq t dc material hmat pre last _ hsd ?_,
        Or.inl ⟨pre, last, mpre, mlast, hsnoc, hs, hmd, hmm, rfl⟩⟩
      rw [hmd]
      exact blended_mesh_draws_push mpre mlast dc (by rw [hmesh, hmm])
    · have hne := try_back_ne_of_not_exists hm
      exact ⟨_, add_blended_draw_eq t dc material hmat pre last _ hsd
          (blended_mesh_draws_fresh last.mesh_draws dc m hmesh hne),
        Or.inr (Or.inl ⟨pre, last, hsnoc, hs, hne, rfl⟩)⟩
  · have hne := try_back_ne_of_not_exists hex
    have hsd : blended_shader_draws t._shader_draws material.shader
        = t._shader_draws ++ [{ shader := material.shader }] := by
      unfold blended_shader_draws
      cases hb : try_back t._shader_draws with
      | none => rfl
      | some last => simp [hne last hb]
    exact ⟨_, add_blended_draw_eq t dc material hmat _ _ _ hsd
        (blended_mesh_draws_fresh [] dc m hmesh (by simp)),
      Or.inr (Or.inr ⟨hne, rfl⟩)⟩

theorem backStep_step {s : Shader} {m : Mesh} {dc : DrawCall} {a b : List ShaderDrawTree}
    (h : BackStep s m dc a b) : Step s m dc a b := by
  rcases h with ⟨pre, last, mpre, mlast, ha, hs, hmd, hmm, hb⟩ | ⟨pre, last, ha, hs, _, hb⟩ |
    ⟨_, hb⟩
  · rw [ha, hb]
    exact Step.push pre last [] mpre mlast [] hs hmm hmd
  · rw [ha, hb]
    exact Step.new_mesh pre last [] 0 hs
  · rw [hb]
    exact Step.new_shader a 0 0

theorem backStep_dispatch {s : Shader} {m : Mesh} {dc : DrawCall} {a b : List ShaderDrawTree}
    (h : BackStep s m dc a b) : dispatch_order b = dispatch_order a ++ [dc] := by
  rcases h with ⟨pre, last, mpre, mlast, ha, hs, hmd, hmm, hb⟩ | ⟨pre, last, ha, hs, _, hb⟩ |
    ⟨_, hb⟩
  · rw [ha, hb]
    simp [dispatch_order, mesh_draws_calls, hmd, push_call]
  · rw [ha, hb]
    simp [dispatch_order, mesh_draws_calls]
  · rw [hb]
    simp [dispatch_order, mesh_draws_calls]

theorem backStep_keys {s : Shader} {m : Mesh} {dc : DrawCall} {a b : List ShaderDrawTree}
    (h : BackStep s m dc a b) (hblend : s.requires_blending = true) :
    unblended_keys b = unblended_keys a := by
  rcases h with ⟨pre, last, mpre, mlast, ha, hs, hmd, hmm, hb⟩ | ⟨pre, last, ha, hs, _, hb⟩ |
    ⟨_, hb⟩
  · rw [ha, hb]
    simp [unblended_keys, unblended_keys_of, hs, hblend]
  · rw [ha, hb]
    simp [unblended_keys, unblended_keys_of, hs, hblend]
  · rw [hb]
    simp [unblended_keys, unblended_keys_of, hblend]

theorem indexOK_of_ext {t : DrawCallTree} (h : IndexOK t) {sds : List ShaderDrawTree}
    (hext : Ext t._shader_draws sds) : IndexOK { t with _shader_draws := sds } := by
  refine ⟨?_, ?_⟩
  · intro s i hfind
    obtain ⟨sd, hsd, hs, hi⟩ := h.1 s i hfind
    obtain ⟨sd1, hsd1, hs1, hi1, _⟩ := hext i sd hsd
    exact ⟨sd1, hsd1, by rw [hs1, hs], by rw [hi1, hi]⟩
  · intro s m i j hfind
    obtain ⟨sd, md, hsd, hs, hmd, hm⟩ := h.2 s m i j hfind
    obtain ⟨sd1, hsd1, hs1, _, hmext⟩ := hext i sd hsd
    obtain ⟨md1, hmd1, hm1⟩ := hmext j md hmd
    exact ⟨sd1, md1, hsd1, by rw [hs1, hs], hmd1, by rw [hm1, hm]⟩

/-! ## `add_opaque_draw` -/

theorem vec_modify_at {α : Type} {l : List α} {i : Nat} {a : α} (h : l[i]? = some a)
    (f : α → α) :
    ∃ pre post, l = pre ++ a :: post ∧ pre.length = i ∧ vec_modify l i f = pre ++ f a :: post := by
  obtain ⟨pre, post, hl, hlen⟩ := getElem?_split h
  refine ⟨pre, post, hl, hlen, ?_⟩
  rw [hl, ← hlen]
  exact vec_modify_split pre a post f

theorem vec_modify_end {α : Type} (l : List α) (a : α) (f : α → α) :
    vec_modify (l ++ [a]) l.length f = l ++ [f a] :=
  vec_modify_split l a [] f

theorem add_opaque_draw_step (t : DrawCallTree) (hidx : IndexOK t) (dc : DrawCall)
    (material : Material) (m : Mesh) (hmat : dc.material = some material)
    (hmesh : dc.mesh = some m) :
    ∃ t1, t.add_opaque_draw dc = Except.ok t1 ∧ OpaqueStep material.shader m dc t t1 := by
  unfold DrawCallTree.add_opaque_draw
  simp only [hmat, hmesh, deref, to_shared_ref]
  unfold DrawCallTree.find_add_mesh_draw
  cases hfind : map_find t._mesh_draw_indices (material.shader, m) with
  | some ij =>
    obtain ⟨i, j⟩ := ij
    obtain ⟨sd, md, hsd, hs, hmd, hm⟩ := hidx.2 material.shader m i j hfind
    have hj : j < sd.mesh_draws.length := (List.getElem?_eq_some.mp hmd).1
    simp only [hsd, hj, if_true]
    obtain ⟨pre, post, hl, _, hv⟩ := vec_modify_at hsd
      (fun sd => { sd with
        mesh_draws := vec_modify sd.mesh_draws j
          (fun md => { md with draw_calls := md.draw_calls ++ [dc] }) })
    obtain ⟨mpre, mpost, hml, _, hmv⟩ := vec_modify_at hmd
      (fun md => { md with draw_calls := md.draw_calls ++ [dc] })
    refine ⟨_, rfl, ?_⟩
    rw [hv, hmv]
    exact OpaqueStep.found i j pre sd post mpre md mpost hfind hl hs hm hml
  | none =>
    unfold DrawCallTree.find_add_shader_draw
    cases hfs : map_find t._shader_draw_indices material.shader with
    | some p =>
      obtain ⟨sd, hsd, hs, hi⟩ := hidx.1 material.shader p hfs
      have hp : p < t._shader_draws.length := (List.getElem?_eq_some.mp hsd).1
      simp only [hp, if_true, hsd]
      obtain ⟨pre, post, hl, hlen, hv⟩ := vec_modify_at hsd
        (fun sd1 => { sd1 with
          mesh_draws := sd1.mesh_draws ++
            [{ index := sd.mesh_draws.length, mesh := m, draw_calls := [] }] })
      refine ⟨_, rfl, ?_⟩
      rw [hv, ← hlen, vec_modify_split]
      simp only [vec_modify_end]
      have := @OpaqueStep.new_mesh material.shader m dc t pre sd post hfind hl hs
        (by rw [hi, hlen])
      simpa [hlen] using this
    | none =>
      simp only [List.getElem?_concat_length, vec_modify_end]
      refine ⟨_, rfl, ?_⟩
      have := @OpaqueStep.new_shader material.shader m dc t hfind hfs
      simpa [vec_modify, map_assign] using this

theorem map_find_assign {κ ν : Type} [DecidableEq κ] (mp : List (κ × ν)) (k : κ) (v : ν)
    (k1 : κ) : map_find (map_assign mp k v) k1 = if k = k1 then some v else map_find mp k1 :=
  rfl

theorem getElem?_mid {α : Type} (pre : List α) (a : α) (post : List α) :
    (pre ++ a :: post)[pre.length]? = some a := by
  rw [List.getElem?_append_right (Nat.le_refl _)]
  simp

theorem opaqueStep_step {s : Shader} {m : Mesh} {dc : DrawCall} {t t1 : DrawCallTree}
    (h : OpaqueStep s m dc t t1) : Step s m dc t._shader_draws t1._shader_draws := by
  cases h with
  | found i j pre sd post mpre md mpost hfind hsds hs hm hmd =>
    rw [hsds]
    exact Step.push pre sd post mpre md mpost hs hm hmd
  | new_mesh pre sd post hnone hsds hs hidx =>
    rw [hsds]
    exact Step.new_mesh pre sd post _ hs
  | new_shader hnone hnone2 => exact Step.new_shader _ _ _

theorem opaqueStep_indexOK {s : Shader} {m : Mesh} {dc : DrawCall} {t t1 : DrawCallTree}
    (h : OpaqueStep s m dc t t1) (hidx : IndexOK t) : IndexOK t1 := by
  have hext : Ext t._shader_draws t1._shader_draws := step_ext (opaqueStep_step h)
  have hold := indexOK_of_ext hidx hext
  cases h with
  | found i j pre sd post mpre md mpost hfind hsds hs hm hmd => exact hold
  | new_mesh pre sd post hnone hsds hs hi =>
    refine ⟨hold.1, ?_⟩
    intro s1 m1 i j hfind
    simp only [map_find_assign] at hfind
    split at hfind
    · rename_i heq
      injection heq with hs1 hm1
      injection hfind with hfind
      injection hfind with h1 h2
      subst hs1 hm1 h1 h2
      refine ⟨({ sd with
          mesh_draws := sd.mesh_draws ++
            [{ index := sd.mesh_draws.length, mesh := m, draw_calls := [dc] }] } :
          ShaderDrawTree),
        ({ index := sd.mesh_draws.length, mesh := m, draw_calls := [dc] } : MeshDrawTree),
        ?_, hs, ?_, rfl⟩
      · rw [hi]
        exact getElem?_mid pre _ post
      · exact getElem?_mid sd.mesh_draws _ []
    · exact hold.2 s1 m1 i j hfind
  | new_shader hnone hnone2 =>
    refine ⟨?_, ?_⟩
    · intro s1 i hfind
      simp only [map_find_assign] at hfind
      split at hfind
      · rename_i heq
        injection hfind with hfind
        subst heq hfind
        exact ⟨_, getElem?_mid t._shader_draws _ [], rfl, rfl⟩
      · exact hold.1 s1 i hfind
    · intro s1 m1 i j hfind
      simp only [map_find_assign] at hfind
      split at hfind
      · rename_i heq
        injection heq with hs1 hm1
        injection hfind with hfind
        injection hfind with h1 h2
        subst hs1 hm1 h1 h2
        exact ⟨_, ({ index := 0, mesh := m, draw_calls := [dc] } : MeshDrawTree),
          getElem?_mid t._shader_draws _ [], rfl, rfl, rfl⟩
      · exact hold.2 s1 m1 i j hfind

theorem unblended_keys_append (a b : List ShaderDrawTree) :
    unblended_keys (a ++ b) = unblended_keys a ++ unblended_keys b := by
  simp [unblended_keys]

theorem unblended_keys_cons (sd : ShaderDrawTree) (l : List ShaderDrawTree) :
    unblended_keys (sd :: l) = unblended_keys_of sd ++ unblended_keys l := by
  simp [unblended_keys]

/-- What an insertion without blending does to the keys: none added when the mesh group
was found, the key of the draw call added otherwise. -/
theorem opaqueStep_keys {s : Shader} {m : Mesh} {dc : DrawCall} {t t1 : DrawCallTree}
    (h : OpaqueStep s m dc t t1) (hblend : s.requires_blending = false) :
    (t1._mesh_draw_indices = t._mesh_draw_indices ∧
        unblended_keys t1._shader_draws = unblended_keys t._shader_draws) ∨
      (map_find t._mesh_draw_indices (s, m) = none ∧
        (∃ v, t1._mesh_draw_indices = map_assign t._mesh_draw_indices (s, m) v) ∧
        (unblended_keys t1._shader_draws).Perm ((s, m) :: unblended_keys t._shader_draws)) := by
  cases h with
  | found i j pre sd post mpre md mpost hfind hsds hs hm hmd =>
    refine Or.inl ⟨rfl, ?_⟩
    rw [hsds]
    simp [unblended_keys_append, unblended_keys_cons, unblended_keys_of, hmd, push_call]
  | new_mesh pre sd post hnone hsds hs hi =>
    refine Or.inr ⟨hnone, ⟨_, rfl⟩, ?_⟩
    · rw [hsds]
      simp only [unblended_keys_append, unblended_keys_cons, unblended_keys_of, hs, hblend,
        Bool.false_eq_true, if_false, List.map_append, List.map_cons, List.map_nil]
      rw [List.perm_iff_count]
      intro k
      simp only [List.count_append, List.count_cons, List.count_nil]
      omega
  | new_shader hnone hnone2 =>
    refine Or.inr ⟨hnone, ⟨_, rfl⟩, ?_⟩
    · have hnil : unblended_keys [] = [] := rfl
      simp only [unblended_keys_append, unblended_keys_cons, unblended_keys_of, hblend,
        Bool.false_eq_true, if_false, List.map_cons, List.map_nil, hnil, List.append_nil]
      rw [List.perm_iff_count]
      intro k
      simp only [List.count_append, List.count_cons, List.count_nil]
      omega

/-! ## The insertion loop -/

theorem inv_empty : Inv {} := by
  refine ⟨⟨?_, ?_⟩, wellGrouped_nil, ?_, ?_⟩
  · intro s i h
    simp [map_find] at h
  · intro s m i j h
    simp [map_find] at h
  · simp [unblended_keys]
  · intro k _
    simp [unblended_keys]

theorem inv_opaque_step {s : Shader} {m : Mesh} {dc : DrawCall} {t t1 : DrawCallTree}
    (hinv : Inv t) (h : OpaqueStep s m dc t t1) (hblend : s.requires_blending = false)
    (hmesh : dc.mesh = some m)
    (hmat : ∃ material, dc.material = some material ∧ material.shader = s) : Inv t1 := by
  obtain ⟨hidx, hwg, hnd, hreg⟩ := hinv
  refine ⟨opaqueStep_indexOK h hidx, step_wellGrouped (opaqueStep_step h) hmesh hmat hwg, ?_, ?_⟩
  · rcases opaqueStep_keys h hblend with ⟨_, hk⟩ | ⟨hnone, _, hperm⟩
    · rw [hk]
      exact hnd
    · rw [hperm.nodup_iff]
      exact List.nodup_cons.mpr ⟨hreg _ hnone, hnd⟩
  · intro k hk
    rcases opaqueStep_keys h hblend with ⟨hmap, hkeys⟩ | ⟨hnone, ⟨v, hmap⟩, hperm⟩
    · rw [hkeys]
      rw [hmap] at hk
      exact hreg k hk
    · rw [hmap, map_find_assign] at hk
      split at hk
      · simp at hk
      · rename_i hne
        intro hmem
        rcases List.mem_cons.mp (hperm.mem_iff.mp hmem) with heq | hmem
        · exact hne heq.symm
        · exact hreg k hk hmem

theorem inv_back_step {s : Shader} {m : Mesh} {dc : DrawCall} {t : DrawCallTree}
    {sds : List ShaderDrawTree} (hinv : Inv t) (h : BackStep s m dc t._shader_draws sds)
    (hblend : s.requires_blending = true) (hmesh : dc.mesh = some m)
    (hmat : ∃ material, dc.material = some material ∧ material.shader = s) :
    Inv { t with _shader_draws := sds } := by
  obtain ⟨hidx, hwg, hnd, hreg⟩ := hinv
  refine ⟨indexOK_of_ext hidx (step_ext (backStep_step h)),
    step_wellGrouped (backStep_step h) hmesh hmat hwg, ?_, ?_⟩
  · show (unblended_keys sds).Nodup
    rw [backStep_keys h hblend]
    exact hnd
  · intro k hk
    show k ∉ unblended_keys sds
    rw [backStep_keys h hblend]
    exact hreg k hk

theorem insert_all_cons (cfg : BuildConfig) (t : DrawCallTree) (dc : DrawCall)
    (rest : List DrawCall) (material : Material) (m : Mesh)
    (hmat : dc.material = some material) (hmesh : dc.mesh = some m) :
    DrawCallTree.insert_all cfg t (dc :: rest)
      = match (if material.shader.requires_blending then t.add_blended_draw dc
               else t.add_opaque_draw dc) with
        | Except.error e => Except.error e
        | Except.ok t1 => DrawCallTree.insert_all cfg t1 rest := by
  have hc1 : check cfg (some material).isSome = Except.ok () := by simp [check]
  have hc2 : check cfg (some m).isSome = Except.ok () := by simp [check]
  simp only [DrawCallTree.insert_all, hmat, hmesh, hc1, hc2, deref]

theorem valid_iff (dc : DrawCall) :
    dc.valid ↔ ∃ material m, dc.material = some material ∧ dc.mesh = some m := by
  unfold DrawCall.valid
  cases dc.mesh <;> cases dc.material <;> simp

/-- One turn of the insertion loop on a valid draw call. -/
theorem insert_one (t : DrawCallTree) (hinv : Inv t) (dc : DrawCall) (material : Material)
    (m : Mesh) (hmat : dc.material = some material) (hmesh : dc.mesh = some m) :
    ∃ t1, (if material.shader.requires_blending then t.add_blended_draw dc
           else t.add_opaque_draw dc) = Except.ok t1 ∧ Inv t1 ∧
      Step material.shader m dc t._shader_draws t1._shader_draws := by
  by_cases hb : material.shader.requires_blending = true
  · obtain ⟨sds, hok, hstep⟩ := add_blended_draw_step t dc material m hmat hmesh
    rw [if_pos hb]
    exact ⟨_, hok, inv_back_step hinv hstep hb hmesh ⟨material, hmat, rfl⟩, backStep_step hstep⟩
  · obtain ⟨t1, hok, hstep⟩ := add_opaque_draw_step t hinv.1 dc material m hmat hmesh
    rw [if_neg hb]
    exact ⟨t1, hok, inv_opaque_step hinv hstep (by simpa using hb) hmesh ⟨material, hmat, rfl⟩,
      opaqueStep_step hstep⟩

/-- On valid draw calls the insertion loop runs to its end, keeps the invariant, and
stores every draw call once. -/
theorem insert_all_valid (cfg : BuildConfig) (l : List DrawCall) (t : DrawCallTree)
    (hinv : Inv t) (hvalid : ∀ dc ∈ l, dc.valid) :
    ∃ t1, DrawCallTree.insert_all cfg t l = Except.ok t1 ∧ Inv t1 ∧
      (dispatch_order t1._shader_draws).Perm (dispatch_order t._shader_draws ++ l) := by
  induction l generalizing t with
  | nil => exact ⟨t, rfl, hinv, by simp⟩
  | cons dc rest ih =>
    obtain ⟨material, m, hmat, hmesh⟩ := (valid_iff dc).mp (hvalid dc (List.mem_cons_self _ _))
    obtain ⟨t1, hok, hinv1, hstep⟩ := insert_one t hinv dc material m hmat hmesh
    obtain ⟨t2, hok2, hinv2, hperm⟩ := ih t1 hinv1 (fun d hd => hvalid d (List.mem_cons_of_mem _ hd))
    refine ⟨t2, ?_, hinv2, ?_⟩
    · rw [insert_all_cons cfg t dc rest material m hmat hmesh, hok]
      exact hok2
    · refine hperm.trans ?_
      have h1 := step_dispatch_perm hstep
      have h2 : (dispatch_order t1._shader_draws ++ rest).Perm
          ((dc :: dispatch_order t._shader_draws) ++ rest) := h1.append_right rest
      refine h2.trans ?_
      simp only [List.cons_append]
      exact List.perm_middle.symm

theorem add_blended_draw_null_mesh (t : DrawCallTree) (dc : DrawCall) (hmesh : dc.mesh = none) :
    ∃ e, t.add_blended_draw dc = Except.error e := by
  unfold DrawCallTree.add_blended_draw
  cases hmat : dc.material with
  | none => exact ⟨_, rfl⟩
  | some material =>
    simp only [deref]
    cases try_back (blended_shader_draws t._shader_draws material.shader) with
    | none => exact ⟨_, rfl⟩
    | some sdl =>
      have : blended_mesh_draws sdl.mesh_draws dc = Except.error Failure.null_dereference := by
        unfold blended_mesh_draws
        cases try_back sdl.mesh_draws <;> simp [hmesh, to_shared_ref, deref]
      simp only [this]
      exact ⟨_, rfl⟩

theorem add_opaque_draw_null_mesh (t : DrawCallTree) (dc : DrawCall) (hmesh : dc.mesh = none) :
    ∃ e, t.add_opaque_draw dc = Except.error e := by
  unfold DrawCallTree.add_opaque_draw
  cases hmat : dc.material with
  | none => exact ⟨_, rfl⟩
  | some material =>
    simp only [deref, hmesh, to_shared_ref]
    exact ⟨_, rfl⟩

theorem insert_all_cons_ok (cfg : BuildConfig) (t t1 : DrawCallTree) (dc : DrawCall)
    (rest : List DrawCall) (h : DrawCallTree.insert_all cfg t (dc :: rest) = Except.ok t1) :
    dc.valid ∧ ∃ t2, DrawCallTree.insert_all cfg t2 rest = Except.ok t1 := by
  rw [DrawCallTree.insert_all] at h
  split at h
  · simp at h
  · split at h
    · simp at h
    · cases hmat : dc.material with
      | none => simp [hmat, deref] at h
      | some material =>
        simp only [hmat, deref] at h
        cases hmesh : dc.mesh with
        | none =>
          obtain ⟨e1, he1⟩ := add_blended_draw_null_mesh t dc hmesh
          obtain ⟨e2, he2⟩ := add_opaque_draw_null_mesh t dc hmesh
          rw [he1, he2] at h
          split at h
          · simp at h
          · rename_i heq
            split at heq <;> simp at heq
        | some m =>
          refine ⟨(valid_iff dc).mpr ⟨material, m, hmat, hmesh⟩, ?_⟩
          split at h
          · simp at h
          · exact ⟨_, h⟩

/-- The insertion loop runs to its end only on valid draw calls. -/
theorem insert_all_ok_valid (cfg : BuildConfig) (l : List DrawCall) (t t1 : DrawCallTree)
    (h : DrawCallTree.insert_all cfg t l = Except.ok t1) : ∀ dc ∈ l, dc.valid := by
  induction l generalizing t with
  | nil => simp
  | cons dc rest ih =>
    intro d hd
    obtain ⟨hv, t2, h2⟩ := insert_all_cons_ok cfg t t1 dc rest h
    rcases List.mem_cons.mp hd with rfl | hd
    · exact hv
    · exact ih t2 h2 d hd

/-! ## The re-sort and the merge pass keep what the insertion established -/

theorem wellGrouped_perm {a b : List ShaderDrawTree} (h : a.Perm b) (ha : WellGrouped a) :
    WellGrouped b :=
  fun sd hsd => ha sd (h.mem_iff.mpr hsd)

theorem merge_mesh_draws_forall (P : MeshDrawTree → Prop)
    (hP : ∀ c x, P c → P x → c.mesh = x.mesh → P (join_mesh c x)) (l : List MeshDrawTree)
    (hl : ∀ md ∈ l, P md) : ∀ md ∈ merge_mesh_draws l, P md := by
  cases l with
  | nil => simp [merge_mesh_draws_nil]
  | cons x rest =>
    rw [merge_mesh_draws_cons]
    exact fuse_forall (fun md : MeshDrawTree => md.mesh) join_mesh P hP x rest
      (hl x (List.mem_cons_self _ _)) (fun y hy => hl y (List.mem_cons_of_mem _ hy))

theorem merge_shader_draws_forall (P : ShaderDrawTree → Prop)
    (hP : ∀ c x, P c → P x → c.shader = x.shader → P (join_shader c x))
    (l : List ShaderDrawTree) (hl : ∀ sd ∈ l, P sd) : ∀ sd ∈ merge_shader_draws l, P sd := by
  cases l with
  | nil => simp [merge_shader_draws_nil]
  | cons x rest =>
    rw [merge_shader_draws_cons]
    exact fuse_forall (fun sd : ShaderDrawTree => sd.shader) join_shader P hP x rest
      (hl x (List.mem_cons_self _ _)) (fun y hy => hl y (List.mem_cons_of_mem _ hy))

theorem wellGrouped_merge_tree (l : List ShaderDrawTree) (h : WellGrouped l) :
    WellGrouped (merge_tree l) := by
  have h1 : ∀ sd ∈ merge_shader_draws l, WellGrouped [sd] := by
    apply merge_shader_draws_forall (fun sd => WellGrouped [sd])
    · intro c x hc hx heq
      rw [wellGrouped_singleton] at hc hx ⊢
      intro md hmd d hd
      simp only [join_shader, List.mem_append] at hmd
      rcases hmd with hmd | hmd
      · exact hc md hmd d hd
      · have := hx md hmd d hd
        rw [← heq] at this
        exact this
    · intro sd hsd
      rw [wellGrouped_singleton]
      exact h sd hsd
  intro sd hsd
  unfold merge_tree at hsd
  obtain ⟨sd0, hsd0, rfl⟩ := List.mem_map.mp hsd
  have h0 := (wellGrouped_singleton sd0).mp (h1 sd0 hsd0)
  apply merge_mesh_draws_forall
    (fun md => ∀ dc ∈ md.draw_calls, dc.mesh = some md.mesh ∧
      ∃ material, dc.material = some material ∧ material.shader = sd0.shader)
  · intro c x hc hx heq d hd
    simp only [join_mesh, List.mem_append] at hd
    rcases hd with hd | hd
    · exact hc d hd
    · have := hx d hd
      rw [← heq] at this
      exact this
  · exact h0

theorem mesh_draws_calls_merge (l : List MeshDrawTree) :
    mesh_draws_calls (merge_mesh_draws l) = mesh_draws_calls l := by
  cases l with
  | nil => rfl
  | cons x rest =>
    rw [merge_mesh_draws_cons]
    unfold mesh_draws_calls
    rw [fuse_flatMap (fun md : MeshDrawTree => md.mesh) join_mesh
      (fun md : MeshDrawTree => md.draw_calls) (fun _ _ _ => rfl)]
    simp

theorem dispatch_order_merge_shader_draws (l : List ShaderDrawTree) :
    dispatch_order (merge_shader_draws l) = dispatch_order l := by
  cases l with
  | nil => rfl
  | cons x rest =>
    rw [merge_shader_draws_cons]
    unfold dispatch_order
    rw [fuse_flatMap (fun sd : ShaderDrawTree => sd.shader) join_shader
      (fun sd : ShaderDrawTree => mesh_draws_calls sd.mesh_draws)
      (fun c x _ => by simp [join_shader, mesh_draws_calls])]
    simp

theorem dispatch_order_merge_tree (l : List ShaderDrawTree) :
    dispatch_order (merge_tree l) = dispatch_order l := by
  rw [← dispatch_order_merge_shader_draws l]
  unfold merge_tree dispatch_order
  rw [List.flatMap_map]
  congr 1
  funext sd
  exact mesh_draws_calls_merge sd.mesh_draws

theorem dispatch_order_perm {a b : List ShaderDrawTree} (h : a.Perm b) :
    (dispatch_order a).Perm (dispatch_order b) :=
  h.flatMap_right _

theorem sublist_flatMap {α β : Type} (f g : α → List β) (l : List α)
    (h : ∀ x, (f x).Sublist (g x)) : (l.flatMap f).Sublist (l.flatMap g) := by
  induction l with
  | nil => simp
  | cons x rest ih =>
    simp only [List.flatMap_cons]
    exact (h x).append ih

theorem unblended_keys_merge_tree (l : List ShaderDrawTree) :
    (unblended_keys (merge_tree l)).Sublist (unblended_keys l) := by
  have h1 : unblended_keys (merge_shader_draws l) = unblended_keys l := by
    cases l with
    | nil => rfl
    | cons x rest =>
      rw [merge_shader_draws_cons]
      unfold unblended_keys
      rw [fuse_flatMap (fun sd : ShaderDrawTree => sd.shader) join_shader unblended_keys_of]
      · simp
      · intro c x heq
        simp only [unblended_keys_of, join_shader, ← heq]
        split <;> simp
  rw [← h1]
  unfold merge_tree unblended_keys
  rw [List.flatMap_map]
  apply sublist_flatMap
  intro sd
  simp only [unblended_keys_of]
  split
  · exact List.Sublist.refl _
  · cases hmd : sd.mesh_draws with
    | nil => simp [merge_mesh_draws_nil]
    | cons x rest =>
      rw [merge_mesh_draws_cons]
      have := fuse_keys_sublist (fun md : MeshDrawTree => md.mesh) join_mesh
        (fun _ _ => rfl) x rest
      have := this.map (fun m : Mesh => (sd.shader, m))
      simpa [List.map_map] using this

/-! ## The constructor as a whole -/

theorem nodup_getElem?_inj {β : Type} {l : List β} (h : l.Nodup) {j1 j2 : Nat} {k : β}
    (h1 : l[j1]? = some k) (h2 : l[j2]? = some k) : j1 = j2 := by
  obtain ⟨hj1, e1⟩ := List.getElem?_eq_some.mp h1
  obtain ⟨hj2, e2⟩ := List.getElem?_eq_some.mp h2
  exact (@List.Nodup.getElem_inj_iff _ l h j1 hj1 j2 hj2).mp (by rw [e1, e2])

/-- In a flattening without duplicates an entry determines the outer and the inner
position it stands at. -/
theorem nodup_flatMap_index {α β : Type} (f : α → List β) (l : List α)
    (h : (l.flatMap f).Nodup) {i1 i2 j1 j2 : Nat} {a1 a2 : α} {k : β}
    (h1 : l[i1]? = some a1) (h2 : l[i2]? = some a2)
    (hk1 : (f a1)[j1]? = some k) (hk2 : (f a2)[j2]? = some k) : i1 = i2 ∧ j1 = j2 := by
  induction l generalizing i1 i2 with
  | nil => simp at h1
  | cons a rest ih =>
    simp only [List.flatMap_cons] at h
    obtain ⟨hna, hnrest, hdisj⟩ := List.nodup_append.mp h
    cases i1 with
    | zero =>
      simp only [List.getElem?_cons_zero, Option.some.injEq] at h1
      subst h1
      cases i2 with
      | zero =>
        simp only [List.getElem?_cons_zero, Option.some.injEq] at h2
        subst h2
        exact ⟨rfl, nodup_getElem?_inj hna hk1 hk2⟩
      | succ n2 =>
        simp only [List.getElem?_cons_succ] at h2
        exact absurd (List.mem_flatMap.mpr ⟨a2, List.getElem?_mem h2, List.getElem?_mem hk2⟩)
          (List.disjoint_left.mp hdisj (List.getElem?_mem hk1))
    | succ n1 =>
      simp only [List.getElem?_cons_succ] at h1
      cases i2 with
      | zero =>
        simp only [List.getElem?_cons_zero, Option.some.injEq] at h2
        subst h2
        exact absurd (List.mem_flatMap.mpr ⟨a1, List.getElem?_mem h1, List.getElem?_mem hk1⟩)
          (List.disjoint_left.mp hdisj (List.getElem?_mem hk2))
      | succ n2 =>
        simp only [List.getElem?_cons_succ] at h2
        obtain ⟨e1, e2⟩ := ih hnrest h1 h2
        exact ⟨by rw [e1], e2⟩

/-- What every tree that the constructor returns satisfies. -/
theorem constructor_built {cfg : BuildConfig} {sort : RangesSort} {draw_calls : List DrawCall}
    {tree : DrawCallTree} (hsort : sort.Contract)
    (h : DrawCallTree.DrawCallTree cfg sort draw_calls = Except.ok tree) :
    (∀ dc ∈ draw_calls, dc.valid) ∧ WellGrouped tree._shader_draws ∧
      (dispatch_order tree._shader_draws).Perm draw_calls ∧
      (unblended_keys tree._shader_draws).Nodup := by
  obtain ⟨inserted, hins, htree⟩ := constructor_ok h
  have hp1 := (hsort DrawCall order_comp _ order_comp_keyed draw_calls).1
  have hp2 := (hsort ShaderDrawTree draw_order_comp _ draw_order_comp_keyed
    inserted._shader_draws).1
  have hvalid := insert_all_ok_valid cfg _ _ _ hins
  obtain ⟨t1, hins1, hinv, hperm⟩ := insert_all_valid cfg _ {} inv_empty hvalid
  rw [hins] at hins1
  injection hins1 with hins1
  subst hins1
  obtain ⟨_, hwg, hnd, _⟩ := hinv
  refine ⟨fun dc hdc => hvalid dc (hp1.mem_iff.mpr hdc), ?_, ?_, ?_⟩
  · rw [htree]
    exact wellGrouped_merge_tree _ (wellGrouped_perm hp2.symm hwg)
  · rw [htree, dispatch_order_merge_tree]
    refine (dispatch_order_perm hp2).trans (hperm.trans ?_)
    simpa [dispatch_order] using hp1
  · rw [htree]
    refine List.Nodup.sublist (unblended_keys_merge_tree _) ?_
    exact ((hp2.flatMap_right unblended_keys_of).nodup_iff).mpr hnd

/-- On valid draw calls the constructor returns a tree. -/
theorem constructor_total (cfg : BuildConfig) (sort : RangesSort) (draw_calls : List DrawCall)
    (hsort : sort.Contract) (hvalid : ∀ dc ∈ draw_calls, dc.valid) :
    ∃ tree, DrawCallTree.DrawCallTree cfg sort draw_calls = Except.ok tree := by
  have hp1 := (hsort DrawCall order_comp _ order_comp_keyed draw_calls).1
  obtain ⟨t1, hins1, _, _⟩ := insert_all_valid cfg (sort DrawCall order_comp draw_calls) {}
    inv_empty (fun dc hdc => hvalid dc (hp1.mem_iff.mp hdc))
  unfold DrawCallTree.DrawCallTree
  simp only [hins1]
  exact ⟨_, rfl⟩

theorem sample_calls_valid : ∀ dc ∈ sample_calls, dc.valid := by
  decide

/-- C1: in the tree the constructor builds from any list of draw calls, two draw calls
whose shader does not require blending and that have the same shader and the same mesh
stand in the same mesh group: the positions of their shader groups and of their mesh
groups coincide. -/
theorem same_shader_and_mesh_same_group (cfg : BuildConfig) (sort : RangesSort)
    (draw_calls : List DrawCall) (tree : DrawCallTree) (hsort : sort.Contract)
    (h : DrawCallTree.DrawCallTree cfg sort draw_calls = Except.ok tree)
    (i1 j1 i2 j2 : Nat) (sd1 sd2 : ShaderDrawTree) (md1 md2 : MeshDrawTree) (d1 d2 : DrawCall)
    (hsd1 : tree._shader_draws[i1]? = some sd1) (hmd1 : sd1.mesh_draws[j1]? = some md1)
    (hd1 : d1 ∈ md1.draw_calls)
    (hsd2 : tree._shader_draws[i2]? = some sd2) (hmd2 : sd2.mesh_draws[j2]? = some md2)
    (hd2 : d2 ∈ md2.draw_calls)
    (s : Shader) (m : Mesh) (hblend : s.requires_blending = false)
    (hs1 : d1.shader = some s) (hs2 : d2.shader = some s)
    (hm1 : d1.mesh = some m) (hm2 : d2.mesh = some m) :
    i1 = i2 ∧ j1 = j2 := by
  obtain ⟨_, hwg, _, hnd⟩ := constructor_built hsort h
  have key : ∀ (sd : ShaderDrawTree) (md : MeshDrawTree) (d : DrawCall) (i j : Nat),
      tree._shader_draws[i]? = some sd → sd.mesh_draws[j]? = some md → d ∈ md.draw_calls →
      d.shader = some s → d.mesh = some m → (unblended_keys_of sd)[j]? = some (s, m) := by
    intro sd md d i j hsd hmd hd hs hm
    obtain ⟨hmesh, material, hmat, hshader⟩ :=
      hwg sd (List.getElem?_mem hsd) md (List.getElem?_mem hmd) d hd
    have e1 : sd.shader = s := by
      simp only [DrawCall.shader, hmat, Option.map_some', Option.some.injEq] at hs
      rw [← hshader, hs]
    have e2 : md.mesh = m := by
      rw [hm] at hmesh
      injection hmesh with hmesh
      exact hmesh.symm
    simp [unblended_keys_of, e1, hblend, hmd, e2]
  exact nodup_flatMap_index unblended_keys_of tree._shader_draws hnd hsd1 hsd2
    (key sd1 md1 d1 i1 j1 hsd1 hmd1 hd1 hs1 hm1) (key sd2 md2 d2 i2 j2 hsd2 hmd2 hd2 hs2 hm2)

theorem same_shader_and_mesh_same_group_witness :
    stable_sort.Contract ∧
      DrawCallTree.DrawCallTree sample_config stable_sort sample_calls = Except.ok sample_tree ∧
      (sample_call 0 stone quad 2).shader = some stone ∧
      (sample_call 3 stone quad 1).shader = some stone ∧
      ((0 : Nat) = 0 ∧ (0 : Nat) = 0) :=
  ⟨stable_sort_contract, sample_tree_built, rfl, rfl,
    same_shader_and_mesh_same_group sample_config stable_sort sample_calls sample_tree
      stable_sort_contract sample_tree_built 0 0 0 0
      { index := 0, shader := stone,
        mesh_draws :=
          [{ index := 0, mesh := quad,
             draw_calls := [sample_call 0 stone quad 2, sample_call 3 stone quad 1] },
           { index := 1, mesh := cube, draw_calls := [sample_call 2 stone cube 4] }] }
      { index := 0, shader := stone,
        mesh_draws :=
          [{ index := 0, mesh := quad,
             draw_calls := [sample_call 0 stone quad 2, sample_call 3 stone quad 1] },
           { index := 1, mesh := cube, draw_calls := [sample_call 2 stone cube 4] }] }
      { index := 0, mesh := quad,
        draw_calls := [sample_call 0 stone quad 2, sample_call 3 stone quad 1] }
      { index := 0, mesh := quad,
        draw_calls := [sample_call 0 stone quad 2, sample_call 3 stone quad 1] }
      (sample_call 0 stone quad 2) (sample_call 3 stone quad 1)
      rfl rfl (by decide) rfl rfl (by decide) stone quad rfl rfl rfl rfl rfl⟩

/-- C3: from a list of draw calls that all have a mesh and a material the constructor
builds a tree in which every stored draw call has the shader of its shader group and the
mesh of its mesh group; on that tree `execute` runs to its end in every build, so the
check `draw_call.material->shader() == shader_draw.shader` never fails. -/
theorem built_tree_well_grouped (cfg : BuildConfig) (sort : RangesSort)
    (draw_calls : List DrawCall) (hsort : sort.Contract)
    (hvalid : ∀ dc ∈ draw_calls, dc.valid) :
    ∃ tree, DrawCallTree.DrawCallTree cfg sort draw_calls = Except.ok tree ∧
      (∀ sd ∈ tree._shader_draws, ∀ md ∈ sd.mesh_draws, ∀ dc ∈ md.draw_calls,
        dc.shader = some sd.shader ∧ dc.mesh = some md.mesh) ∧
      ∀ (cfg1 : BuildConfig) (stats : RenderQueueStats),
        ∃ ex, tree.execute cfg1 stats = Except.ok ex := by
  obtain ⟨tree, htree⟩ := constructor_total cfg sort draw_calls hsort hvalid
  obtain ⟨_, hwg, _, _⟩ := constructor_built hsort htree
  refine ⟨tree, htree, ?_, ?_⟩
  · intro sd hsd md hmd dc hdc
    obtain ⟨hmesh, material, hmat, hshader⟩ := hwg sd hsd md hmd dc hdc
    exact ⟨by simp [DrawCall.shader, hmat, hshader], hmesh⟩
  · intro cfg1 stats
    obtain ⟨ex, hex, _⟩ := execute_shader_draws_ran cfg1 tree._shader_draws
      { stats := stats, commands := [], dispatched := [] } hwg
    exact ⟨ex, hex⟩

theorem built_tree_well_grouped_witness :
    stable_sort.Contract ∧ (∀ dc ∈ sample_calls, dc.valid) ∧
      ∃ tree, DrawCallTree.DrawCallTree sample_config stable_sort sample_calls = Except.ok tree ∧
        (∀ sd ∈ tree._shader_draws, ∀ md ∈ sd.mesh_draws, ∀ dc ∈ md.draw_calls,
          dc.shader = some sd.shader ∧ dc.mesh = some md.mesh) ∧
        ∀ (cfg1 : BuildConfig) (stats : RenderQueueStats),
          ∃ ex, tree.execute cfg1 stats = Except.ok ex :=
  ⟨stable_sort_contract, sample_calls_valid,
    built_tree_well_grouped sample_config stable_sort sample_calls stable_sort_contract
      sample_calls_valid⟩

/-- C4: executing the tree built from `N` valid draw calls raises `draw_calls` by `N` and
`triangles` by the sum, over the draw calls, of the instance count times the triangle
count of the draw call's own mesh. -/
theorem execute_stats_accurate (cfg : BuildConfig) (sort : RangesSort)
    (draw_calls : List DrawCall) (stats : RenderQueueStats) (hsort : sort.Contract)
    (hvalid : ∀ dc ∈ draw_calls, dc.valid) :
    ∃ tree ex, DrawCallTree.DrawCallTree cfg sort draw_calls = Except.ok tree ∧
      tree.execute cfg stats = Except.ok ex ∧
      ex.stats.draw_calls = stats.draw_calls + draw_calls.length ∧
      ex.stats.triangles = stats.triangles + (draw_calls.map DrawCall.triangles).sum := by
  obtain ⟨tree, htree⟩ := constructor_total cfg sort draw_calls hsort hvalid
  obtain ⟨_, hwg, hperm, _⟩ := constructor_built hsort htree
  obtain ⟨ex, hex, hran⟩ := execute_shader_draws_ran cfg tree._shader_draws
    { stats := stats, commands := [], dispatched := [] } hwg
  refine ⟨tree, ex, htree, hex, ?_, ?_⟩
  · rw [hran.2.2.1, hperm.length_eq]
  · rw [hran.2.2.2.1, (hperm.map DrawCall.triangles).sum_eq]

theorem execute_stats_accurate_witness :
    stable_sort.Contract ∧ (∀ dc ∈ sample_calls, dc.valid) ∧
      ∃ tree ex,
        DrawCallTree.DrawCallTree sample_config stable_sort sample_calls = Except.ok tree ∧
        tree.execute sample_config ⟨0, 0, 0, 0⟩ = Except.ok ex ∧
        ex.stats.draw_calls = 0 + sample_calls.length ∧
        ex.stats.triangles = 0 + (sample_calls.map DrawCall.triangles).sum :=
  ⟨stable_sort_contract, sample_calls_valid,
    execute_stats_accurate sample_config stable_sort sample_calls ⟨0, 0, 0, 0⟩
      stable_sort_contract sample_calls_valid⟩

/-- C5: on every tree the constructor builds and from every statistics record, `execute`
issues one shader bind per shader group and one mesh bind per mesh group, and raises
`shader_switches` by the number of shader groups and `mesh_switches` by the number of
mesh groups over all shader groups. -/
theorem execute_binds_once_per_group (cfg cfg1 : BuildConfig) (sort : RangesSort)
    (draw_calls : List DrawCall) (tree : DrawCallTree) (stats : RenderQueueStats)
    (hsort : sort.Contract)
    (h : DrawCallTree.DrawCallTree cfg sort draw_calls = Except.ok tree) :
    ∃ ex, tree.execute cfg1 stats = Except.ok ex ∧
      ex.commands.countP GpuCommand.is_use = tree._shader_draws.length ∧
      ex.commands.countP GpuCommand.is_bind = mesh_group_count tree._shader_draws ∧
      ex.stats.shader_switches = stats.shader_switches + tree._shader_draws.length ∧
      ex.stats.mesh_switches = stats.mesh_switches + mesh_group_count tree._shader_draws := by
  obtain ⟨_, hwg, _, _⟩ := constructor_built hsort h
  obtain ⟨ex, hex, hran⟩ := execute_shader_draws_ran cfg1 tree._shader_draws
    { stats := stats, commands := [], dispatched := [] } hwg
  obtain ⟨r1, r2, _, _, _, r6, r7, _⟩ := hran
  exact ⟨ex, hex, by simpa using r6, by simpa using r7, r1, r2⟩

theorem execute_binds_once_per_group_witness :
    stable_sort.Contract ∧
      DrawCallTree.DrawCallTree sample_config stable_sort sample_calls = Except.ok sample_tree ∧
      ∃ ex, sample_tree.execute sample_config ⟨0, 0, 0, 0⟩ = Except.ok ex ∧
        ex.commands.countP GpuCommand.is_use = sample_tree._shader_draws.length ∧
        ex.commands.countP GpuCommand.is_bind = mesh_group_count sample_tree._shader_draws ∧
        ex.stats.shader_switches = 0 + sample_tree._shader_draws.length ∧
        ex.stats.mesh_switches = 0 + mesh_group_count sample_tree._shader_draws :=
  ⟨stable_sort_contract, sample_tree_built,
    execute_binds_once_per_group sample_config sample_config stable_sort sample_calls
      sample_tree ⟨0, 0, 0, 0⟩ stable_sort_contract sample_tree_built⟩

/-! ## Scenario A: one shader, one mesh, no blending -/

theorem single_group_add (shader : Shader) (mesh : Mesh) (calls : List DrawCall)
    (dc : DrawCall) (material : Material) (hmat : dc.material = some material)
    (hs : material.shader = shader) (hmesh : dc.mesh = some mesh) :
    (single_group_tree shader mesh calls).add_opaque_draw dc
      = Except.ok (single_group_tree shader mesh (calls ++ [dc])) := by
  subst hs
  simp [DrawCallTree.add_opaque_draw, DrawCallTree.find_add_mesh_draw, single_group_tree,
    map_find, vec_modify, hmat, hmesh, deref, to_shared_ref]

theorem single_group_first (dc : DrawCall) (material : Material) (mesh : Mesh)
    (hmat : dc.material = some material) (hmesh : dc.mesh = some mesh) :
    DrawCallTree.add_opaque_draw {} dc
      = Except.ok (single_group_tree material.shader mesh [dc]) := by
  simp [DrawCallTree.add_opaque_draw, DrawCallTree.find_add_mesh_draw,
    DrawCallTree.find_add_shader_draw, single_group_tree, map_find, map_assign, vec_modify,
    hmat, hmesh, deref, to_shared_ref]

theorem single_group_insert_all (cfg : BuildConfig) (shader : Shader) (mesh : Mesh)
    (hblend : shader.requires_blending = false) (l : List DrawCall) (calls : List DrawCall)
    (h : ∀ dc ∈ l, dc.shader = some shader ∧ dc.mesh = some mesh) :
    DrawCallTree.insert_all cfg (single_group_tree shader mesh calls) l
      = Except.ok (single_group_tree shader mesh (calls ++ l)) := by
  induction l generalizing calls with
  | nil => simp [DrawCallTree.insert_all]
  | cons dc rest ih =>
    obtain ⟨hs, hmesh⟩ := h dc (List.mem_cons_self _ _)
    cases hmat : dc.material with
    | none => simp [DrawCall.shader, hmat] at hs
    | some material =>
      have hsh : material.shader = shader := by
        simpa [DrawCall.shader, hmat] using hs
      rw [insert_all_cons cfg _ dc rest material mesh hmat hmesh, hsh, hblend]
      simp only [Bool.false_eq_true, if_false,
        single_group_add shader mesh calls dc material hmat hsh hmesh]
      rw [ih (calls ++ [dc]) (fun d hd => h d (List.mem_cons_of_mem _ hd))]
      simp

theorem merge_tree_single (shader : Shader) (mesh : Mesh) (calls : List DrawCall) :
    merge_tree [{ index := 0, shader := shader,
                  mesh_draws := [{ index := 0, mesh := mesh, draw_calls := calls }] }]
      = [{ index := 0, shader := shader,
           mesh_draws := [{ index := 0, mesh := mesh, draw_calls := calls }] }] := by
  apply merge_tree_of_chain
  · simp
  · intro sd hsd
    simp only [List.mem_singleton] at hsd
    subst hsd
    simp

/-- C10 (Scenario A): from `n ≥ 1` draw calls that share one shader without blending and
one mesh, in any input order and with any order keys, the constructor builds exactly one
shader group holding exactly one mesh group holding all the draw calls, and executing it
from zeroed statistics gives one shader switch, one mesh switch and `n` draw calls. -/
theorem scenario_A_single_group (cfg : BuildConfig) (sort : RangesSort) (shader : Shader)
    (mesh : Mesh) (draw_calls : List DrawCall) (hsort : sort.Contract)
    (hne : draw_calls ≠ []) (hblend : shader.requires_blending = false)
    (hcalls : ∀ dc ∈ draw_calls, dc.shader = some shader ∧ dc.mesh = some mesh) :
    ∃ tree calls ex,
      DrawCallTree.DrawCallTree cfg sort draw_calls = Except.ok tree ∧
      tree._shader_draws
        = [{ index := 0, shader := shader,
             mesh_draws := [{ index := 0, mesh := mesh, draw_calls := calls }] }] ∧
      calls.Perm draw_calls ∧
      tree.execute cfg ⟨0, 0, 0, 0⟩ = Except.ok ex ∧
      ex.stats.shader_switches = 1 ∧ ex.stats.mesh_switches = 1 ∧
      ex.stats.draw_calls = draw_calls.length := by
  have hp := (hsort DrawCall order_comp _ order_comp_keyed draw_calls).1
  have hall : ∀ dc ∈ sort DrawCall order_comp draw_calls,
      dc.shader = some shader ∧ dc.mesh = some mesh :=
    fun dc hdc => hcalls dc (hp.mem_iff.mp hdc)
  have hins : DrawCallTree.insert_all cfg {} (sort DrawCall order_comp draw_calls)
      = Except.ok (single_group_tree shader mesh (sort DrawCall order_comp draw_calls)) := by
    cases hl : sort DrawCall order_comp draw_calls with
    | nil =>
      rw [hl] at hp
      exact absurd (List.perm_nil.mp hp.symm) hne
    | cons dc rest =>
      rw [hl] at hall
      obtain ⟨hs, hmesh⟩ := hall dc (List.mem_cons_self _ _)
      cases hmat : dc.material with
      | none => simp [DrawCall.shader, hmat] at hs
      | some material =>
        have hsh : material.shader = shader := by
          simpa [DrawCall.shader, hmat] using hs
        rw [insert_all_cons cfg _ dc rest material mesh hmat hmesh, hsh, hblend]
        simp only [Bool.false_eq_true, if_false]
        rw [← hsh, single_group_first dc material mesh hmat hmesh, hsh]
        simp only []
        rw [single_group_insert_all cfg shader mesh hblend rest [dc]
          (fun d hd => hall d (List.mem_cons_of_mem _ hd))]
        simp
  have htree : DrawCallTree.DrawCallTree cfg sort draw_calls
      = Except.ok
        { single_group_tree shader mesh (sort DrawCall order_comp draw_calls) with
          _shader_draws :=
            [{ index := 0, shader := shader,
               mesh_draws :=
                 [{ index := 0, mesh := mesh,
                    draw_calls := sort DrawCall order_comp draw_calls }] }] } := by
    unfold DrawCallTree.DrawCallTree
    simp only [hins]
    have hp2 := (hsort ShaderDrawTree draw_order_comp _ draw_order_comp_keyed
      (single_group_tree shader mesh (sort DrawCall order_comp draw_calls))._shader_draws).1
    simp only [single_group_tree, List.perm_singleton] at hp2
    simp only [single_group_tree, hp2, merge_tree_single]
  obtain ⟨_, hwg, _, _⟩ := constructor_built hsort htree
  obtain ⟨ex, hex, hran⟩ := execute_shader_draws_ran cfg _
    { stats := ⟨0, 0, 0, 0⟩, commands := [], dispatched := [] } hwg
  refine ⟨_, sort DrawCall order_comp draw_calls, ex, htree, rfl, hp, hex, ?_, ?_, ?_⟩
  · simpa using hran.1
  · simpa [mesh_group_count] using hran.2.1
  · have := hran.2.2.1
    simp only [dispatch_order, mesh_draws_calls, List.flatMap_cons, List.flatMap_nil,
      List.append_nil, Nat.zero_add] at this
    rw [this, hp.length_eq]

theorem scenario_A_single_group_witness :
    stable_sort.Contract ∧
      [sample_call 5 stone quad 1, sample_call 2 stone quad 3, sample_call 9 stone quad 1] ≠ [] ∧
      stone.requires_blending = false ∧
      ∃ tree calls ex,
        DrawCallTree.DrawCallTree sample_config stable_sort
          [sample_call 5 stone quad 1, sample_call 2 stone quad 3, sample_call 9 stone quad 1]
            = Except.ok tree ∧
        tree._shader_draws
          = [{ index := 0, shader := stone,
               mesh_draws := [{ index := 0, mesh := quad, draw_calls := calls }] }] ∧
        calls.Perm
          [sample_call 5 stone quad 1, sample_call 2 stone quad 3, sample_call 9 stone quad 1] ∧
        tree.execute sample_config ⟨0, 0, 0, 0⟩ = Except.ok ex ∧
        ex.stats.shader_switches = 1 ∧ ex.stats.mesh_switches = 1 ∧
        ex.stats.draw_calls
          = [sample_call 5 stone quad 1, sample_call 2 stone quad 3,
              sample_call 9 stone quad 1].length :=
  ⟨stable_sort_contract, by decide, rfl,
    scenario_A_single_group sample_config stable_sort stone quad
      [sample_call 5 stone quad 1, sample_call 2 stone quad 3, sample_call 9 stone quad 1]
      stable_sort_contract (by decide) rfl (by decide)⟩

/-! ## Draw calls without a mesh or a material -/

theorem insert_all_stops (cfg : BuildConfig) (hchecks : cfg.NO_CHECKS = false)
    (hwin : cfg._WIN32 = true) (l : List DrawCall) (t : DrawCallTree) (hinv : Inv t)
    (hbad : ∃ dc ∈ l, ¬ dc.valid) :
    DrawCallTree.insert_all cfg t l = Except.error Failure.check_failed := by
  induction l generalizing t with
  | nil =>
    obtain ⟨dc, hdc, _⟩ := hbad
    simp at hdc
  | cons dc rest ih =>
    by_cases hv : dc.valid
    · obtain ⟨material, m, hmat, hmesh⟩ := (valid_iff dc).mp hv
      obtain ⟨t1, hok, hinv1, _⟩ := insert_one t hinv dc material m hmat hmesh
      rw [insert_all_cons cfg t dc rest material m hmat hmesh, hok]
      apply ih t1 hinv1
      obtain ⟨d, hd, hdv⟩ := hbad
      rcases List.mem_cons.mp hd with rfl | hd
      · exact absurd hv hdv
      · exact ⟨d, hd, hdv⟩
    · rw [DrawCallTree.insert_all]
      cases hmat : dc.material with
      | none => simp [check, hchecks, hwin]
      | some material =>
        cases hmesh : dc.mesh with
        | none => simp [check, hchecks, hwin]
        | some m => exact absurd ((valid_iff dc).mpr ⟨material, m, hmat, hmesh⟩) hv

/-- C8, amended: in a build in which a failed `check` breaks (checks enabled, `_WIN32`),
the constructor, given a list that contains a draw call without a mesh or without a
material, stops at the failed check and returns no tree. -/
theorem constructor_stops_at_failed_check (cfg : BuildConfig) (sort : RangesSort)
    (draw_calls : List DrawCall) (hsort : sort.Contract) (hchecks : cfg.NO_CHECKS = false)
    (hwin : cfg._WIN32 = true) (hbad : ∃ dc ∈ draw_calls, ¬ dc.valid) :
    DrawCallTree.DrawCallTree cfg sort draw_calls = Except.error Failure.check_failed := by
  have hp := (hsort DrawCall order_comp _ order_comp_keyed draw_calls).1
  obtain ⟨dc, hdc, hdv⟩ := hbad
  unfold DrawCallTree.DrawCallTree
  simp only [insert_all_stops cfg hchecks hwin _ {} inv_empty ⟨dc, hp.mem_iff.mpr hdc, hdv⟩]

theorem constructor_stops_at_failed_check_witness :
    stable_sort.Contract ∧ breaking_config.NO_CHECKS = false ∧ breaking_config._WIN32 = true ∧
      (∃ dc ∈ [sample_call 1 stone quad 1, unmaterialed_call], ¬ dc.valid) ∧
      DrawCallTree.DrawCallTree breaking_config stable_sort
          [sample_call 1 stone quad 1, unmaterialed_call]
        = Except.error Failure.check_failed :=
  ⟨stable_sort_contract, rfl, rfl, by decide,
    constructor_stops_at_failed_check breaking_config stable_sort
      [sample_call 1 stone quad 1, unmaterialed_call] stable_sort_contract rfl rfl (by decide)⟩

/-- C8 as stated fails: in a build without `_WIN32` the failed check of a draw call
without a material does not stop the constructor, which goes on to dereference the null
material pointer. -/
theorem constructor_runs_past_failed_check :
    check sample_config unmaterialed_call.material.isSome = Except.ok () ∧
      DrawCallTree.DrawCallTree sample_config stable_sort [unmaterialed_call]
        = Except.error Failure.null_dereference ∧
      DrawCallTree.DrawCallTree sample_config stable_sort [unmaterialed_call]
        ≠ Except.error Failure.check_failed := by
  refine ⟨rfl, rfl, ?_⟩
  intro h
  have h2 : DrawCallTree.DrawCallTree sample_config stable_sort [unmaterialed_call]
      = Except.error Failure.null_dereference := rfl
  rw [h2] at h
  injection h with h
  cases h

/-! ## The trace of the insertion loop -/

theorem insert_all_inserted (cfg : BuildConfig) (l : List DrawCall) (t : DrawCallTree)
    (hinv : Inv t) (hvalid : ∀ dc ∈ l, dc.valid) :
    ∃ t1, DrawCallTree.insert_all cfg t l = Except.ok t1 ∧ Inserted t l t1 := by
  induction l generalizing t with
  | nil => exact ⟨t, rfl, Inserted.done t⟩
  | cons dc rest ih =>
    obtain ⟨material, m, hmat, hmesh⟩ := (valid_iff dc).mp (hvalid dc (List.mem_cons_self _ _))
    have hrest := fun d hd => hvalid d (List.mem_cons_of_mem _ hd)
    rw [insert_all_cons cfg t dc rest material m hmat hmesh]
    by_cases hb : material.shader.requires_blending = true
    · obtain ⟨sds, hok, hstep⟩ := add_blended_draw_step t dc material m hmat hmesh
      obtain ⟨t2, hok2, hins⟩ := ih { t with _shader_draws := sds }
        (inv_back_step hinv hstep hb hmesh ⟨material, hmat, rfl⟩) hrest
      rw [if_pos hb, hok]
      exact ⟨t2, hok2, Inserted.blended t dc material m sds rest t2 hmat hmesh hb hstep hins⟩
    · have hb1 : material.shader.requires_blending = false := by simpa using hb
      obtain ⟨t1, hok, hstep⟩ := add_opaque_draw_step t hinv.1 dc material m hmat hmesh
      obtain ⟨t2, hok2, hins⟩ := ih t1
        (inv_opaque_step hinv hstep hb1 hmesh ⟨material, hmat, rfl⟩) hrest
      rw [if_neg hb, hok]
      exact ⟨t2, hok2, Inserted.unblended t dc material m t1 rest t2 hmat hmesh hb1 hstep hins⟩

/-- The shaders of the groups after one insertion: the same, or one more at the back. -/
theorem step_shaders {s : Shader} {m : Mesh} {dc : DrawCall} {a b : List ShaderDrawTree}
    (h : Step s m dc a b) :
    b.map (fun sd => sd.shader) = a.map (fun sd => sd.shader) ∨
      b.map (fun sd => sd.shader) = a.map (fun sd => sd.shader) ++ [s] := by
  cases h with
  | push pre sd post mpre md mpost hs hm hmd => exact Or.inl (by simp)
  | new_mesh pre sd post k hs => exact Or.inl (by simp)
  | new_shader k1 k2 => exact Or.inr (by simp)

theorem step_inDrawOrder {s : Shader} {m : Mesh} {dc : DrawCall} {a b : List ShaderDrawTree}
    (h : Step s m dc a b) (ha : InDrawOrder a)
    (hle : ∀ sd ∈ a, sd.shader.draw_order ≤ s.draw_order) : InDrawOrder b := by
  have ha1 : (a.map (fun sd => sd.shader)).Pairwise (fun x y => x.draw_order ≤ y.draw_order) :=
    List.pairwise_map.mpr ha
  have goal : (b.map (fun sd => sd.shader)).Pairwise
      (fun x y => x.draw_order ≤ y.draw_order) → InDrawOrder b := List.pairwise_map.mp
  apply goal
  rcases step_shaders h with e | e
  · rw [e]
    exact ha1
  · rw [e, List.pairwise_append]
    refine ⟨ha1, List.pairwise_singleton _ _, ?_⟩
    intro x hx y hy
    obtain ⟨sd, hsd, rfl⟩ := List.mem_map.mp hx
    rw [List.mem_singleton.mp hy]
    exact hle sd hsd

theorem step_shader_mem {s : Shader} {m : Mesh} {dc : DrawCall} {a b : List ShaderDrawTree}
    (h : Step s m dc a b) (sd : ShaderDrawTree) (hsd : sd ∈ b) :
    sd.shader = s ∨ ∃ sd0 ∈ a, sd0.shader = sd.shader := by
  have hmem : sd.shader ∈ b.map (fun sd => sd.shader) := List.mem_map.mpr ⟨sd, hsd, rfl⟩
  rcases step_shaders h with e | e
  · rw [e] at hmem
    obtain ⟨sd0, h0, h1⟩ := List.mem_map.mp hmem
    exact Or.inr ⟨sd0, h0, h1⟩
  · rw [e, List.mem_append] at hmem
    rcases hmem with hmem | hmem
    · obtain ⟨sd0, h0, h1⟩ := List.mem_map.mp hmem
      exact Or.inr ⟨sd0, h0, h1⟩
    · exact Or.inl (List.mem_singleton.mp hmem)

/-- Inserting draw calls whose shader priorities never decrease leaves the shader groups
in non-decreasing `draw_order`. -/
theorem inserted_inDrawOrder {t t1 : DrawCallTree} {l : List DrawCall} (h : Inserted t l t1)
    (h1 : InDrawOrder t._shader_draws)
    (h2 : ∀ sd ∈ t._shader_draws, ∀ d ∈ l, ∀ s, d.shader = some s →
      sd.shader.draw_order ≤ s.draw_order)
    (h3 : PriorityAscending l) : InDrawOrder t1._shader_draws := by
  induction h with
  | done t => exact h1
  | blended t dc material m sds rest t2 hmat hmesh hb hstep hrest ih =>
    have hdc : dc.shader = some material.shader := by simp [DrawCall.shader, hmat]
    obtain ⟨h3a, h3b⟩ := List.pairwise_cons.mp h3
    apply ih
    · exact step_inDrawOrder (backStep_step hstep) h1
        (fun sd hsd => h2 sd hsd dc (List.mem_cons_self _ _) _ hdc)
    · intro sd hsd d hd s hs
      rcases step_shader_mem (backStep_step hstep) sd hsd with e | ⟨sd0, h0, e⟩
      · rw [e]
        exact h3a d hd _ _ hdc hs
      · rw [← e]
        exact h2 sd0 h0 d (List.mem_cons_of_mem _ hd) s hs
    · exact h3b
  | unblended t dc material m t1 rest t2 hmat hmesh hb hstep hrest ih =>
    have hdc : dc.shader = some material.shader := by simp [DrawCall.shader, hmat]
    obtain ⟨h3a, h3b⟩ := List.pairwise_cons.mp h3
    apply ih
    · exact step_inDrawOrder (opaqueStep_step hstep) h1
        (fun sd hsd => h2 sd hsd dc (List.mem_cons_self _ _) _ hdc)
    · intro sd hsd d hd s hs
      rcases step_shader_mem (opaqueStep_step hstep) sd hsd with e | ⟨sd0, h0, e⟩
      · rw [e]
        exact h3a d hd _ _ hdc hs
      · rw [← e]
        exact h2 sd0 h0 d (List.mem_cons_of_mem _ hd) s hs
    · exact h3b

/-- Blended draw calls are stored in the order they are inserted in. -/
theorem inserted_blended_dispatch {t t1 : DrawCallTree} {l : List DrawCall}
    (h : Inserted t l t1)
    (hblend : ∀ dc ∈ l, ∀ s, dc.shader = some s → s.requires_blending = true) :
    dispatch_order t1._shader_draws = dispatch_order t._shader_draws ++ l := by
  induction h with
  | done t => simp
  | blended t dc material m sds rest t2 hmat hmesh hb hstep hrest ih =>
    rw [ih (fun d hd => hblend d (List.mem_cons_of_mem _ hd))]
    show dispatch_order sds ++ rest = _
    rw [backStep_dispatch hstep]
    simp
  | unblended t dc material m t1 rest t2 hmat hmesh hb hstep hrest ih =>
    have := hblend dc (List.mem_cons_self _ _) material.shader
      (by simp [DrawCall.shader, hmat])
    rw [hb] at this
    cases this

/-! ## Blended draw calls only -/

/-- With pairwise distinct order keys the first sort leaves the draw calls in strictly
ascending order. -/
theorem sort_strict {sort : RangesSort} (hsort : sort.Contract) (draw_calls : List DrawCall)
    (hdistinct : draw_calls.Pairwise (fun a b => a.order ≠ b.order)) :
    (sort DrawCall order_comp draw_calls).Pairwise (fun a b => a.order < b.order) := by
  obtain ⟨hp, hs⟩ := hsort DrawCall order_comp _ order_comp_keyed draw_calls
  have hd : (sort DrawCall order_comp draw_calls).Pairwise (fun a b => a.order ≠ b.order) :=
    (hp.pairwise_iff (fun h => Ne.symm h)).mpr hdistinct
  refine List.Pairwise.imp₂ ?_ hs hd
  intro a b h1 h2
  simp only [order_comp, decide_eq_false_iff_not, not_lt] at h1
  exact lt_of_le_of_ne h1 h2

theorem blended_material {dc : DrawCall} (h : dc.requires_blending = true) :
    ∃ material, dc.material = some material ∧ material.shader.requires_blending = true := by
  unfold DrawCall.requires_blending at h
  cases hmat : dc.material with
  | none => simp [hmat] at h
  | some material => exact ⟨material, rfl, by simpa [hmat] using h⟩

theorem draw_order_of_shader {dc : DrawCall} {s : Shader} (h : dc.shader = some s) :
    dc.draw_order = s.draw_order := by
  unfold DrawCall.shader at h
  unfold DrawCall.draw_order
  cases hmat : dc.material with
  | none => simp [hmat] at h
  | some material =>
    simp only [hmat, Option.map_some', Option.some.injEq] at h
    simp [h]

theorem build_and_execute_some {cfg : BuildConfig} {sort : RangesSort}
    {draw_calls : List DrawCall} {stats : RenderQueueStats} {β : Type}
    (f : DrawCallTree × Execution → β) {b : β}
    (h : (build_and_execute cfg sort draw_calls stats).map f = some b) :
    ∃ tree ex, DrawCallTree.DrawCallTree cfg sort draw_calls = Except.ok tree ∧
      tree.execute cfg stats = Except.ok ex ∧ f (tree, ex) = b := by
  unfold build_and_execute at h
  cases htree : DrawCallTree.DrawCallTree cfg sort draw_calls with
  | error e => simp [htree] at h
  | ok tree =>
    cases hex : tree.execute cfg stats with
    | error e => simp [htree, hex] at h
    | ok ex =>
      simp only [htree, hex, Option.map_some', Option.some.injEq] at h
      exact ⟨tree, ex, rfl, hex, h⟩

theorem inserted_group_count_eq {cfg : BuildConfig} {sort : RangesSort}
    {draw_calls : List DrawCall} {t : DrawCallTree}
    (h : DrawCallTree.insert_all cfg {} (sort DrawCall order_comp draw_calls) = Except.ok t) :
    inserted_group_count cfg sort draw_calls = t._shader_draws.length := by
  unfold inserted_group_count
  rw [h]

theorem inserted_length {t t1 : DrawCallTree} {l : List DrawCall} (h : Inserted t l t1) :
    t1._shader_draws.length ≤ t._shader_draws.length + l.length := by
  induction h with
  | done t => simp
  | blended t dc material m sds rest t2 hmat hmesh hb hstep hrest ih =>
    have h1 : sds.length ≤ t._shader_draws.length + 1 := by
      rcases step_shaders (backStep_step hstep) with e | e
      · have := congrArg List.length e
        simp only [List.length_map] at this
        omega
      · have := congrArg List.length e
        simp only [List.length_map, List.length_append, List.length_singleton] at this
        omega
    have h2 : t2._shader_draws.length ≤ sds.length + rest.length := ih
    simp only [List.length_cons]
    omega
  | unblended t dc material m t1 rest t2 hmat hmesh hb hstep hrest ih =>
    have h1 : t1._shader_draws.length ≤ t._shader_draws.length + 1 := by
      rcases step_shaders (opaqueStep_step hstep) with e | e
      · have := congrArg List.length e
        simp only [List.length_map] at this
        omega
      · have := congrArg List.length e
        simp only [List.length_map, List.length_append, List.length_singleton] at this
        omega
    simp only [List.length_cons]
    omega

/-- The insertion loop leaves at most as many shader groups as there are draw calls. -/
theorem inserted_group_count_le (cfg : BuildConfig) (draw_calls : List DrawCall) :
    inserted_group_count cfg libstdcxx_sort draw_calls ≤ draw_calls.length := by
  have hp := (libstdcxx_sort_contract DrawCall order_comp _ order_comp_keyed draw_calls).1
  cases hins : DrawCallTree.insert_all cfg {} (libstdcxx_sort DrawCall order_comp draw_calls) with
  | error e =>
    unfold inserted_group_count
    rw [hins]
    exact Nat.zero_le _
  | ok t =>
    rw [inserted_group_count_eq hins]
    obtain ⟨t1, hok, htrace⟩ := insert_all_inserted cfg _ {} inv_empty
      (insert_all_ok_valid cfg _ _ _ hins)
    rw [hins] at hok
    injection hok with hok
    subst hok
    have := inserted_length htrace
    rw [hp.length_eq] at this
    simpa using this

theorem pairwise_replace_last {pre : List ShaderDrawTree} {last last1 : ShaderDrawTree}
    (hs : last1.shader = last.shader)
    (h : (pre ++ [last]).Pairwise (fun a b => a.shader.draw_order < b.shader.draw_order)) :
    (pre ++ [last1]).Pairwise (fun a b => a.shader.draw_order < b.shader.draw_order) := by
  rw [List.pairwise_append] at h ⊢
  refine ⟨h.1, List.pairwise_singleton _ _, ?_⟩
  intro g hg x hx
  rw [List.mem_singleton.mp hx, hs]
  exact h.2.2 g hg last (List.mem_singleton_self _)

/-- Blended draw calls whose shaders, where they differ, have strictly increasing
priorities leave the shader groups in strictly increasing `draw_order`. -/
theorem inserted_strictDrawOrder {t t1 : DrawCallTree} {l : List DrawCall}
    (h : Inserted t l t1)
    (hblend : ∀ dc ∈ l, ∀ s, dc.shader = some s → s.requires_blending = true)
    (h1 : t._shader_draws.Pairwise (fun a b => a.shader.draw_order < b.shader.draw_order))
    (h2 : ∀ sd ∈ t._shader_draws, ∀ d ∈ l, ∀ s, d.shader = some s → sd.shader ≠ s →
      sd.shader.draw_order < s.draw_order)
    (h3 : l.Pairwise (fun a b => ∀ sa sb, a.shader = some sa → b.shader = some sb →
      sa ≠ sb → sa.draw_order < sb.draw_order)) :
    t1._shader_draws.Pairwise (fun a b => a.shader.draw_order < b.shader.draw_order) := by
  induction h with
  | done t => exact h1
  | blended t dc material m sds rest t2 hmat hmesh hb hstep hrest ih =>
    have hdc : dc.shader = some material.shader := by simp [DrawCall.shader, hmat]
    obtain ⟨h3a, h3b⟩ := List.pairwise_cons.mp h3
    have hmap : ∀ sd ∈ sds, sd.shader = material.shader ∨
        ∃ sd0 ∈ t._shader_draws, sd0.shader = sd.shader :=
      fun sd hsd => step_shader_mem (backStep_step hstep) sd hsd
    apply ih (fun d hd => hblend d (List.mem_cons_of_mem _ hd))
    · rcases hstep with ⟨pre, last, mpre, mlast, ha, hs, hmd, hmm, hb1⟩ |
        ⟨pre, last, ha, hs, _, hb1⟩ | ⟨hne, hb1⟩
      · show sds.Pairwise _
        rw [hb1]
        rw [ha] at h1
        exact @pairwise_replace_last pre last _ rfl h1
      · show sds.Pairwise _
        rw [hb1]
        rw [ha] at h1
        exact @pairwise_replace_last pre last _ rfl h1
      · show sds.Pairwise _
        rw [hb1, List.pairwise_append]
        refine ⟨h1, List.pairwise_singleton _ _, ?_⟩
        intro g hg x hx
        rw [List.mem_singleton.mp hx]
        show g.shader.draw_order < material.shader.draw_order
        by_cases hgs : g.shader = material.shader
        · exfalso
          rcases snoc_cases t._shader_draws with e | ⟨pre, last, e⟩
          · rw [e] at hg
            simp at hg
          · have hlast : last.shader ≠ material.shader := hne last (by rw [e]; simp)
            have hlt : last.shader.draw_order < material.shader.draw_order :=
              h2 last (by rw [e]; simp) dc (List.mem_cons_self _ _) _ hdc hlast
            rw [e] at hg h1
            rcases List.mem_append.mp hg with hg1 | hg1
            · have := (List.pairwise_append.mp h1).2.2 g hg1 last (List.mem_singleton_self _)
              rw [hgs] at this
              omega
            · rw [List.mem_singleton.mp hg1] at hgs
              exact hlast hgs
        · exact h2 g hg dc (List.mem_cons_self _ _) _ hdc hgs
    · intro sd hsd d hd s hs hne
      rcases hmap sd hsd with e | ⟨sd0, h0, e⟩
      · rw [e] at hne ⊢
        exact h3a d hd _ _ hdc hs hne
      · rw [← e] at hne ⊢
        exact h2 sd0 h0 d (List.mem_cons_of_mem _ hd) s hs hne
    · exact h3b
  | unblended t dc material m t1 rest t2 hmat hmesh hb hstep hrest ih =>
    have := hblend dc (List.mem_cons_self _ _) material.shader
      (by simp [DrawCall.shader, hmat])
    rw [hb] at this
    cases this

/-- A sort that meets the contract leaves a list in strictly increasing order as it is. -/
theorem contract_keeps_strict {sort : RangesSort} (hsort : sort.Contract)
    (l : List ShaderDrawTree)
    (hl : l.Pairwise (fun a b => a.shader.draw_order < b.shader.draw_order)) :
    sort ShaderDrawTree draw_order_comp l = l := by
  obtain ⟨hp, hs⟩ := hsort ShaderDrawTree draw_order_comp _ draw_order_comp_keyed l
  have hne : (sort ShaderDrawTree draw_order_comp l).Pairwise
      (fun a b => a.shader.draw_order ≠ b.shader.draw_order) :=
    (hp.pairwise_iff (fun h => Ne.symm h)).mpr (hl.imp (fun h => ne_of_lt h))
  have hlt : (sort ShaderDrawTree draw_order_comp l).Pairwise
      (fun a b => a.shader.draw_order < b.shader.draw_order) := by
    refine List.Pairwise.imp₂ ?_ hs hne
    intro a b g1 g2
    simp only [draw_order_comp, decide_eq_false_iff_not, not_lt] at g1
    exact lt_of_le_of_ne g1 g2
  haveI : IsAntisymm ShaderDrawTree
      (fun a b => a.shader.draw_order < b.shader.draw_order) :=
    ⟨fun a b hab hba => absurd hab (not_lt_of_lt hba)⟩
  exact List.eq_of_perm_of_sorted hp hlt hl

/-- C2, amended: for blended draw calls with pairwise distinct order keys whose shader
priorities never decrease along ascending order keys, `execute` dispatches the draw calls
of the built tree in exactly the order of ascending order keys, provided the insertion loop
leaves at most 16 shader groups (so in particular when there are at most 16 draw calls) or
no two draw calls of different shaders have the same priority. The sort is the one of GNU
libstdc++. -/
theorem blended_dispatch_ascending (cfg : BuildConfig) (draw_calls : List DrawCall)
    (stats : RenderQueueStats)
    (hmesh : ∀ dc ∈ draw_calls, dc.mesh.isSome = true)
    (hblend : ∀ dc ∈ draw_calls, dc.requires_blending = true)
    (hdistinct : draw_calls.Pairwise (fun a b => a.order ≠ b.order))
    (hprio : ∀ a ∈ draw_calls, ∀ b ∈ draw_calls, a.order < b.order →
      a.draw_order ≤ b.draw_order)
    (hgroups : inserted_group_count cfg libstdcxx_sort draw_calls ≤ _S_threshold ∨
      ∀ a ∈ draw_calls, ∀ b ∈ draw_calls, a.shader ≠ b.shader →
        a.draw_order ≠ b.draw_order) :
    ∃ tree ex, DrawCallTree.DrawCallTree cfg libstdcxx_sort draw_calls = Except.ok tree ∧
      tree.execute cfg stats = Except.ok ex ∧
      ex.dispatched.Perm draw_calls ∧
      ex.dispatched.Pairwise (fun a b => a.order < b.order) := by
  have hsort := libstdcxx_sort_contract
  have hp := (hsort DrawCall order_comp _ order_comp_keyed draw_calls).1
  have hstrict := sort_strict hsort draw_calls hdistinct
  have hvalid : ∀ dc ∈ libstdcxx_sort DrawCall order_comp draw_calls, dc.valid := by
    intro dc hdc
    obtain ⟨material, hmat, _⟩ := blended_material (hblend dc (hp.mem_iff.mp hdc))
    exact ⟨hmesh dc (hp.mem_iff.mp hdc), by simp [hmat]⟩
  obtain ⟨t1, hok, hins⟩ := insert_all_inserted cfg _ {} inv_empty hvalid
  have hblend1 : ∀ dc ∈ libstdcxx_sort DrawCall order_comp draw_calls, ∀ s,
      dc.shader = some s → s.requires_blending = true := by
    intro dc hdc s hs
    obtain ⟨material, hmat, hb⟩ := blended_material (hblend dc (hp.mem_iff.mp hdc))
    simp only [DrawCall.shader, hmat, Option.map_some', Option.some.injEq] at hs
    rw [← hs]
    exact hb
  have hdisp : dispatch_order t1._shader_draws
      = libstdcxx_sort DrawCall order_comp draw_calls := by
    have := inserted_blended_dispatch hins hblend1
    simpa [dispatch_order] using this
  have hkeep : libstdcxx_sort ShaderDrawTree draw_order_comp t1._shader_draws
      = t1._shader_draws := by
    rcases hgroups with hgroups | hgroups
    · have hord : InDrawOrder t1._shader_draws := by
        apply inserted_inDrawOrder hins
        · exact List.Pairwise.nil
        · intro sd hsd
          simp at hsd
        · refine List.Pairwise.imp_of_mem ?_ hstrict
          intro a b ha hb hab sa sb hsa hsb
          rw [← draw_order_of_shader hsa, ← draw_order_of_shader hsb]
          exact hprio a (hp.mem_iff.mp ha) b (hp.mem_iff.mp hb) hab
      apply libstdcxx_sort_keeps_sorted draw_order_comp_keyed
      · rw [← inserted_group_count_eq hok]
        exact hgroups
      · refine hord.imp ?_
        intro a b hab
        simpa [draw_order_comp] using hab
    · apply contract_keeps_strict hsort
      apply inserted_strictDrawOrder hins hblend1
      · exact List.Pairwise.nil
      · intro sd hsd
        simp at hsd
      · refine List.Pairwise.imp_of_mem ?_ hstrict
        intro a b ha hb hab sa sb hsa hsb hne
        rw [← draw_order_of_shader hsa, ← draw_order_of_shader hsb]
        have hle := hprio a (hp.mem_iff.mp ha) b (hp.mem_iff.mp hb) hab
        have hneq := hgroups a (hp.mem_iff.mp ha) b (hp.mem_iff.mp hb) (by
          rw [hsa, hsb]
          intro e
          exact hne (Option.some.inj e))
        exact lt_of_le_of_ne hle hneq
  have htree : DrawCallTree.DrawCallTree cfg libstdcxx_sort draw_calls
      = Except.ok { t1 with _shader_draws := merge_tree t1._shader_draws } := by
    unfold DrawCallTree.DrawCallTree
    simp only [hok, hkeep]
  obtain ⟨_, hwg, _, _⟩ := constructor_built hsort htree
  obtain ⟨ex, hex, hran⟩ := execute_shader_draws_ran cfg _
    { stats := stats, commands := [], dispatched := [] } hwg
  have hd : ex.dispatched = libstdcxx_sort DrawCall order_comp draw_calls := by
    have := hran.2.2.2.2.1
    simp only [List.nil_append] at this
    rw [this, dispatch_order_merge_tree, hdisp]
  refine ⟨_, ex, htree, hex, ?_, ?_⟩
  · rw [hd]
    exact hp
  · rw [hd]
    exact hstrict

theorem blended_dispatch_ascending_witness :
    (∀ dc ∈ level_calls, dc.mesh.isSome = true) ∧
      (∀ dc ∈ level_calls, dc.requires_blending = true) ∧
      level_calls.Pairwise (fun a b => a.order ≠ b.order) ∧
      (∀ a ∈ level_calls, ∀ b ∈ level_calls, a.order < b.order →
        a.draw_order ≤ b.draw_order) ∧
      inserted_group_count sample_config libstdcxx_sort level_calls ≤ _S_threshold ∧
      ∃ tree ex,
        DrawCallTree.DrawCallTree sample_config libstdcxx_sort level_calls = Except.ok tree ∧
        tree.execute sample_config ⟨0, 0, 0, 0⟩ = Except.ok ex ∧
        ex.dispatched.Perm level_calls ∧
        ex.dispatched.Pairwise (fun a b => a.order < b.order) :=
  ⟨by decide, by decide, by decide, by decide, by decide,
    blended_dispatch_ascending sample_config level_calls ⟨0, 0, 0, 0⟩
      (by decide) (by decide) (by decide) (by decide) (Or.inl (by decide))⟩

/-- C2 as stated fails, in two ways. Two blended draw calls with order keys 1 and 2 whose
shaders have the priorities 1 and 0 are dispatched in the order 2, 1. And seventeen blended
draw calls with the order keys 1 to 17, of two shaders of the same priority in turn, leave
the insertion loop with seventeen shader groups, which the re-sort by priority rearranges:
they are dispatched in the order 9, 17, 16, 15, 14, 13, 12, 11, 10, 1, 8, 7, 6, 5, 4, 3, 2. -/
theorem blended_dispatch_not_ascending :
    (∃ tree ex,
      DrawCallTree.DrawCallTree sample_config libstdcxx_sort inverted_calls = Except.ok tree ∧
      tree.execute sample_config ⟨0, 0, 0, 0⟩ = Except.ok ex ∧
      ex.dispatched = [sample_call 2 glass cube 1, sample_call 1 smoke quad 1] ∧
      ¬ ex.dispatched.Pairwise (fun a b => a.order < b.order)) ∧
    (∀ dc ∈ alternating_calls, dc.mesh.isSome = true) ∧
    (∀ dc ∈ alternating_calls, dc.requires_blending = true) ∧
    alternating_calls.Pairwise (fun a b => a.order ≠ b.order) ∧
    (∀ a ∈ alternating_calls, ∀ b ∈ alternating_calls, a.draw_order = b.draw_order) ∧
    inserted_group_count sample_config libstdcxx_sort alternating_calls = 17 ∧
    ∃ tree ex,
      DrawCallTree.DrawCallTree sample_config libstdcxx_sort alternating_calls
        = Except.ok tree ∧
      tree.execute sample_config ⟨0, 0, 0, 0⟩ = Except.ok ex ∧
      ex.dispatched.map (fun dc => dc.order)
        = ([9, 17, 16, 15, 14, 13, 12, 11, 10, 1, 8, 7, 6, 5, 4, 3, 2] : List Int) ∧
      ¬ ex.dispatched.Pairwise (fun a b => a.order < b.order) := by
  have h : (build_and_execute sample_config libstdcxx_sort alternating_calls ⟨0, 0, 0, 0⟩).map
      (fun p : DrawCallTree × Execution =>
        (p.2.dispatched.map (fun dc : DrawCall => dc.order),
          decide (p.2.dispatched.Pairwise (fun a b : DrawCall => a.order < b.order))))
      = some (([9, 17, 16, 15, 14, 13, 12, 11, 10, 1, 8, 7, 6, 5, 4, 3, 2] : List Int), false) := by
    decide!
  obtain ⟨tree, ex, h1, h2, h3⟩ := build_and_execute_some _ h
  exact ⟨⟨_, _, rfl, rfl, rfl, by decide⟩, by decide!, by decide!, by decide!, by decide!,
    by decide!, tree, ex, h1, h2, (Prod.mk.inj h3).1, of_decide_eq_false (Prod.mk.inj h3).2⟩

/-! ## Scenario B: a blended draw call between two of another shader -/

theorem ascending_unique {l1 l2 : List DrawCall} (hp : l1.Perm l2)
    (h1 : l1.Pairwise (fun a b => a.order < b.order))
    (h2 : l2.Pairwise (fun a b => a.order < b.order)) : l1 = l2 := by
  haveI : IsAntisymm DrawCall (fun a b => a.order < b.order) :=
    ⟨fun a b hab hba => absurd hab (not_lt_of_lt hba)⟩
  exact List.eq_of_perm_of_sorted hp h1 h2

theorem shader_material {dc : DrawCall} {s : Shader} (h : dc.shader = some s) :
    ∃ material, dc.material = some material ∧ material.shader = s := by
  unfold DrawCall.shader at h
  cases hmat : dc.material with
  | none => simp [hmat] at h
  | some material =>
    simp only [hmat, Option.map_some', Option.some.injEq] at h
    exact ⟨material, rfl, h⟩

/-- C9 (Scenario B), amended: when the two blended shaders have the same `draw_order`,
the tree built from the draw calls (order 1, S1, M1), (order 2, S2, M2), (order 3, S1, M1),
given in any input order, keeps the first and the third in different groups: it has three
shader groups of one mesh group each, and `execute` dispatches the draw calls in the order
1, 2, 3. The sort is the one of GNU libstdc++. -/
theorem scenario_B_equal_priority (cfg : BuildConfig)
    (S1 S2 : Shader) (M1 M2 : Mesh) (d1 d2 d3 : DrawCall) (draw_calls : List DrawCall)
    (hS : S1 ≠ S2)
    (hb1 : S1.requires_blending = true) (hb2 : S2.requires_blending = true)
    (hprio : S1.draw_order = S2.draw_order)
    (h1 : d1.order = 1 ∧ d1.shader = some S1 ∧ d1.mesh = some M1)
    (h2 : d2.order = 2 ∧ d2.shader = some S2 ∧ d2.mesh = some M2)
    (h3 : d3.order = 3 ∧ d3.shader = some S1 ∧ d3.mesh = some M1)
    (hperm : draw_calls.Perm [d1, d2, d3]) :
    ∃ tree ex, DrawCallTree.DrawCallTree cfg libstdcxx_sort draw_calls = Except.ok tree ∧
      tree._shader_draws
        = [{ index := 0, shader := S1,
             mesh_draws := [{ index := 0, mesh := M1, draw_calls := [d1] }] },
           { index := 0, shader := S2,
             mesh_draws := [{ index := 0, mesh := M2, draw_calls := [d2] }] },
           { index := 0, shader := S1,
             mesh_draws := [{ index := 0, mesh := M1, draw_calls := [d3] }] }] ∧
      mesh_group_count tree._shader_draws = 3 ∧
      tree.execute cfg ⟨0, 0, 0, 0⟩ = Except.ok ex ∧
      ex.dispatched = [d1, d2, d3] := by
  obtain ⟨ho1, hs1, hm1⟩ := h1
  obtain ⟨ho2, hs2, hm2⟩ := h2
  obtain ⟨ho3, hs3, hm3⟩ := h3
  obtain ⟨mat1, hmat1, hsh1⟩ := shader_material hs1
  obtain ⟨mat2, hmat2, hsh2⟩ := shader_material hs2
  obtain ⟨mat3, hmat3, hsh3⟩ := shader_material hs3
  have hsort := libstdcxx_sort_contract
  have hp := (hsort DrawCall order_comp _ order_comp_keyed draw_calls).1
  have hasc : [d1, d2, d3].Pairwise (fun a b => a.order < b.order) := by
    simp [ho1, ho2, ho3]
  have hdistinct : draw_calls.Pairwise (fun a b => a.order ≠ b.order) :=
    (hperm.pairwise_iff (fun h => Ne.symm h)).mpr (hasc.imp (fun h => ne_of_lt h))
  have hsorted : libstdcxx_sort DrawCall order_comp draw_calls = [d1, d2, d3] :=
    ascending_unique (hp.trans hperm) (sort_strict hsort draw_calls hdistinct) hasc
  have hins : DrawCallTree.insert_all cfg {} [d1, d2, d3]
      = Except.ok
        { _shader_draws :=
            [{ index := 0, shader := S1,
               mesh_draws := [{ index := 0, mesh := M1, draw_calls := [d1] }] },
             { index := 0, shader := S2,
               mesh_draws := [{ index := 0, mesh := M2, draw_calls := [d2] }] },
             { index := 0, shader := S1,
               mesh_draws := [{ index := 0, mesh := M1, draw_calls := [d3] }] }] } := by
    have hS' : ¬ S2 = S1 := fun h => hS h.symm
    rw [insert_all_cons cfg _ d1 _ mat1 M1 hmat1 hm1, hsh1, if_pos hb1]
    simp only [DrawCallTree.add_blended_draw, blended_shader_draws, blended_mesh_draws,
      hmat1, hsh1, hm1, deref, to_shared_ref, try_back, List.getLast?_nil, List.nil_append,
      List.getLast?_singleton, vec_modify_back]
    rw [insert_all_cons cfg _ d2 _ mat2 M2 hmat2 hm2, hsh2, if_pos hb2]
    simp only [DrawCallTree.add_blended_draw, blended_shader_draws, blended_mesh_draws,
      hmat2, hsh2, hm2, deref, to_shared_ref, try_back, List.getLast?_nil, List.nil_append,
      List.getLast?_singleton, vec_modify_back, ne_eq, hS, not_false_eq_true, if_true,
      List.singleton_append, List.getLast?_cons_cons]
    rw [insert_all_cons cfg _ d3 _ mat3 M1 hmat3 hm3, hsh3, if_pos hb1]
    simp only [DrawCallTree.add_blended_draw, blended_shader_draws, blended_mesh_draws,
      hmat3, hsh3, hm3, deref, to_shared_ref, try_back, List.getLast?_nil, List.nil_append,
      List.getLast?_singleton, vec_modify_back, ne_eq, hS', not_false_eq_true, if_true,
      List.singleton_append, List.getLast?_cons_cons, List.cons_append]
    simp [DrawCallTree.insert_all]
  have hkeep : ∀ l : List ShaderDrawTree,
      l = [{ index := 0, shader := S1,
             mesh_draws := [{ index := 0, mesh := M1, draw_calls := [d1] }] },
           { index := 0, shader := S2,
             mesh_draws := [{ index := 0, mesh := M2, draw_calls := [d2] }] },
           { index := 0, shader := S1,
             mesh_draws := [{ index := 0, mesh := M1, draw_calls := [d3] }] }] →
      merge_tree (libstdcxx_sort ShaderDrawTree draw_order_comp l) = l := by
    intro l hl
    have e1 : libstdcxx_sort ShaderDrawTree draw_order_comp l = l := by
      apply libstdcxx_sort_keeps_sorted draw_order_comp_keyed
      · rw [hl]
        simp [_S_threshold]
      · rw [hl]
        simp [draw_order_comp, hprio]
    rw [e1, hl]
    apply merge_tree_of_chain
    · have hS' : ¬ S2 = S1 := fun h => hS h.symm
      simp [hS, hS']
    · intro sd hsd
      simp only [List.mem_cons, List.mem_singleton, List.not_mem_nil, or_false] at hsd
      rcases hsd with rfl | rfl | rfl <;> simp
  have htree : DrawCallTree.DrawCallTree cfg libstdcxx_sort draw_calls
      = Except.ok
        { _shader_draws :=
            [{ index := 0, shader := S1,
               mesh_draws := [{ index := 0, mesh := M1, draw_calls := [d1] }] },
             { index := 0, shader := S2,
               mesh_draws := [{ index := 0, mesh := M2, draw_calls := [d2] }] },
             { index := 0, shader := S1,
               mesh_draws := [{ index := 0, mesh := M1, draw_calls := [d3] }] }] } := by
    unfold DrawCallTree.DrawCallTree
    simp only [hsorted, hins]
    rw [hkeep _ rfl]
  obtain ⟨_, hwg, _, _⟩ := constructor_built hsort htree
  obtain ⟨ex, hex, hran⟩ := execute_shader_draws_ran cfg _
    { stats := ⟨0, 0, 0, 0⟩, commands := [], dispatched := [] } hwg
  refine ⟨_, ex, htree, rfl, rfl, hex, ?_⟩
  have := hran.2.2.2.2.1
  simpa [dispatch_order, mesh_draws_calls] using this

theorem scenario_B_equal_priority_witness :
    glass ≠ water ∧ glass.draw_order = water.draw_order ∧
      scenario_B_level_calls.Perm
        [sample_call 1 glass quad 1, sample_call 2 water cube 1, sample_call 3 glass quad 1] ∧
      ∃ tree ex,
        DrawCallTree.DrawCallTree sample_config libstdcxx_sort scenario_B_level_calls
          = Except.ok tree ∧
        tree._shader_draws
          = [{ index := 0, shader := glass,
               mesh_draws :=
                 [{ index := 0, mesh := quad, draw_calls := [sample_call 1 glass quad 1] }] },
             { index := 0, shader := water,
               mesh_draws :=
                 [{ index := 0, mesh := cube, draw_calls := [sample_call 2 water cube 1] }] },
             { index := 0, shader := glass,
               mesh_draws :=
                 [{ index := 0, mesh := quad, draw_calls := [sample_call 3 glass quad 1] }] }] ∧
        mesh_group_count tree._shader_draws = 3 ∧
        tree.execute sample_config ⟨0, 0, 0, 0⟩ = Except.ok ex ∧
        ex.dispatched
          = [sample_call 1 glass quad 1, sample_call 2 water cube 1,
              sample_call 3 glass quad 1] :=
  ⟨by decide, rfl, by decide,
    scenario_B_equal_priority sample_config glass water quad cube
      (sample_call 1 glass quad 1) (sample_call 2 water cube 1) (sample_call 3 glass quad 1)
      scenario_B_level_calls (by decide) rfl rfl rfl
      ⟨rfl, rfl, rfl⟩ ⟨rfl, rfl, rfl⟩ ⟨rfl, rfl, rfl⟩ (by decide)⟩

/-- C9 as stated fails: with shaders of the priorities 0 and 1 the re-sort brings the two
groups of the first shader together, the merge pass joins them, and the tree has two mesh
groups dispatched in the order 1, 3, 2. -/
theorem scenario_B_merged_across_priorities :
    glass ≠ smoke ∧ glass.requires_blending = true ∧ smoke.requires_blending = true ∧
    ∃ tree ex,
      DrawCallTree.DrawCallTree sample_config libstdcxx_sort scenario_B_calls
        = Except.ok tree ∧
      tree._shader_draws
        = [{ index := 0, shader := glass,
             mesh_draws :=
               [{ index := 0, mesh := quad,
                  draw_calls := [sample_call 1 glass quad 1, sample_call 3 glass quad 1] }] },
           { index := 0, shader := smoke,
             mesh_draws :=
               [{ index := 0, mesh := cube, draw_calls := [sample_call 2 smoke cube 1] }] }] ∧
      mesh_group_count tree._shader_draws = 2 ∧
      tree.execute sample_config ⟨0, 0, 0, 0⟩ = Except.ok ex ∧
      ex.dispatched
        = [sample_call 1 glass quad 1, sample_call 3 glass quad 1,
            sample_call 2 smoke cube 1] :=
  ⟨by decide, rfl, rfl, _, _, rfl, rfl, rfl, rfl, rfl⟩

/-! ## The finished tree -/

/-- C12: in the tree the constructor builds from any list of draw calls, no two
neighbouring shader groups have the same shader, and inside every shader group no two
neighbouring mesh groups have the same mesh. -/
theorem finished_tree_has_no_equal_neighbours (cfg : BuildConfig) (sort : RangesSort)
    (draw_calls : List DrawCall) (tree : DrawCallTree)
    (h : DrawCallTree.DrawCallTree cfg sort draw_calls = Except.ok tree) :
    List.Chain' (fun a b : ShaderDrawTree => a.shader ≠ b.shader) tree._shader_draws ∧
      ∀ sd ∈ tree._shader_draws,
        List.Chain' (fun a b : MeshDrawTree => a.mesh ≠ b.mesh) sd.mesh_draws := by
  obtain ⟨inserted, _, htree⟩ := constructor_ok h
  rw [htree]
  exact ⟨merge_tree_chain _, merge_tree_mesh_chain _⟩

theorem finished_tree_has_no_equal_neighbours_witness :
    DrawCallTree.DrawCallTree sample_config stable_sort sample_calls = Except.ok sample_tree ∧
      List.Chain' (fun a b : ShaderDrawTree => a.shader ≠ b.shader) sample_tree._shader_draws ∧
      ∀ sd ∈ sample_tree._shader_draws,
        List.Chain' (fun a b : MeshDrawTree => a.mesh ≠ b.mesh) sd.mesh_draws :=
  ⟨sample_tree_built,
    finished_tree_has_no_equal_neighbours sample_config stable_sort sample_calls sample_tree
      sample_tree_built⟩

/-- C13: from a list of valid draw calls the constructor builds a tree, and the draw
calls of that tree, read shader group by shader group and mesh group by mesh group, are
a permutation of the input: none is lost, none is stored twice. -/
theorem no_draw_call_lost_or_duplicated (cfg : BuildConfig) (sort : RangesSort)
    (draw_calls : List DrawCall) (hsort : sort.Contract)
    (hvalid : ∀ dc ∈ draw_calls, dc.valid) :
    ∃ tree, DrawCallTree.DrawCallTree cfg sort draw_calls = Except.ok tree ∧
      (tree._shader_draws.flatMap
        (fun sd => sd.mesh_draws.flatMap (fun md => md.draw_calls))).Perm draw_calls := by
  obtain ⟨tree, htree⟩ := constructor_total cfg sort draw_calls hsort hvalid
  obtain ⟨_, _, hperm, _⟩ := constructor_built hsort htree
  exact ⟨tree, htree, hperm⟩

theorem no_draw_call_lost_or_duplicated_witness :
    stable_sort.Contract ∧ (∀ dc ∈ sample_calls, dc.valid) ∧
      ∃ tree, DrawCallTree.DrawCallTree sample_config stable_sort sample_calls = Except.ok tree ∧
        (tree._shader_draws.flatMap
          (fun sd => sd.mesh_draws.flatMap (fun md => md.draw_calls))).Perm sample_calls :=
  ⟨stable_sort_contract, sample_calls_valid,
    no_draw_call_lost_or_duplicated sample_config stable_sort sample_calls stable_sort_contract
      sample_calls_valid⟩

/-! ## The index maps during the insertion phase -/

theorem find_add_shader_draw_sound (t : DrawCallTree) (hidx : IndexOK t) (s : Shader) :
    ∃ t1 i sd, t.find_add_shader_draw s = Except.ok (t1, i) ∧
      t1._shader_draws[i]? = some sd ∧ sd.shader = s := by
  unfold DrawCallTree.find_add_shader_draw
  cases hfs : map_find t._shader_draw_indices s with
  | some p =>
    obtain ⟨sd, hsd, hs, _⟩ := hidx.1 s p hfs
    have hp : p < t._shader_draws.length := (List.getElem?_eq_some.mp hsd).1
    simp only [hp, if_true]
    exact ⟨t, p, sd, rfl, hsd, hs⟩
  | none =>
    exact ⟨_, _, _, rfl, getElem?_mid t._shader_draws _ [], rfl⟩

theorem find_add_mesh_draw_sound (t : DrawCallTree) (hidx : IndexOK t) (s : Shader)
    (m : Mesh) :
    ∃ t2 i j sd md, t.find_add_mesh_draw s m = Except.ok (t2, i, j) ∧
      t2._shader_draws[i]? = some sd ∧ sd.shader = s ∧
      sd.mesh_draws[j]? = some md ∧ md.mesh = m := by
  unfold DrawCallTree.find_add_mesh_draw
  cases hfind : map_find t._mesh_draw_indices (s, m) with
  | some ij =>
    obtain ⟨i, j⟩ := ij
    obtain ⟨sd, md, hsd, hs, hmd, hm⟩ := hidx.2 s m i j hfind
    have hj : j < sd.mesh_draws.length := (List.getElem?_eq_some.mp hmd).1
    simp only [hsd, hj, if_true]
    exact ⟨t, i, j, sd, md, rfl, hsd, hs, hmd, hm⟩
  | none =>
    obtain ⟨t1, p, sd, hok, hsd, hs⟩ := find_add_shader_draw_sound t hidx s
    simp only [hok, hsd]
    obtain ⟨pre, post, hl, hlen, hv⟩ := vec_modify_at hsd
      (fun sd1 => { sd1 with
        mesh_draws := sd1.mesh_draws ++
          [{ index := sd.mesh_draws.length, mesh := m, draw_calls := [] }] })
    let md : MeshDrawTree := { index := sd.mesh_draws.length, mesh := m, draw_calls := [] }
    let sd1 : ShaderDrawTree := { sd with mesh_draws := sd.mesh_draws ++ [md] }
    refine ⟨_, _, _, sd1, md, rfl, ?_, hs, getElem?_mid sd.mesh_draws md [], rfl⟩
    show (vec_modify t1._shader_draws p _)[p]? = _
    rw [hv, ← hlen]
    exact getElem?_mid pre _ post

/-- C15: after any number of insertions of valid draw calls, blended and not, in any
interleaving, every entry of the shader index map and of the (shader, mesh) index map is
in range and points at the group of exactly that shader (and mesh); so the lookups of
`find_add_shader_draw` and `find_add_mesh_draw` return, and return a group of the shader
(and mesh) asked for. -/
theorem index_maps_stay_sound (cfg : BuildConfig) (draw_calls : List DrawCall) (n : Nat)
    (hvalid : ∀ dc ∈ draw_calls, dc.valid) :
    ∃ t, DrawCallTree.insert_all cfg {} (draw_calls.take n) = Except.ok t ∧
      (∀ (s : Shader) (i : Nat), map_find t._shader_draw_indices s = some i →
        ∃ sd, t._shader_draws[i]? = some sd ∧ sd.shader = s) ∧
      (∀ (s : Shader) (m : Mesh) (i j : Nat),
        map_find t._mesh_draw_indices (s, m) = some (i, j) →
        ∃ sd md, t._shader_draws[i]? = some sd ∧ sd.shader = s ∧
          sd.mesh_draws[j]? = some md ∧ md.mesh = m) ∧
      (∀ s : Shader, ∃ t1 i sd, t.find_add_shader_draw s = Except.ok (t1, i) ∧
        t1._shader_draws[i]? = some sd ∧ sd.shader = s) ∧
      (∀ (s : Shader) (m : Mesh), ∃ t2 i j sd md,
        t.find_add_mesh_draw s m = Except.ok (t2, i, j) ∧
        t2._shader_draws[i]? = some sd ∧ sd.shader = s ∧
        sd.mesh_draws[j]? = some md ∧ md.mesh = m) := by
  obtain ⟨t, hok, hinv, _⟩ := insert_all_valid cfg (draw_calls.take n) {} inv_empty
    (fun dc hdc => hvalid dc (List.mem_of_mem_take hdc))
  refine ⟨t, hok, ?_, hinv.1.2, find_add_shader_draw_sound t hinv.1,
    find_add_mesh_draw_sound t hinv.1⟩
  intro s i hfind
  obtain ⟨sd, hsd, hs, _⟩ := hinv.1.1 s i hfind
  exact ⟨sd, hsd, hs⟩

theorem index_maps_stay_sound_witness :
    (∀ dc ∈ sample_calls, dc.valid) ∧
      ∃ t, DrawCallTree.insert_all sample_config {} (sample_calls.take 3) = Except.ok t ∧
        (∀ (s : Shader) (i : Nat), map_find t._shader_draw_indices s = some i →
          ∃ sd, t._shader_draws[i]? = some sd ∧ sd.shader = s) ∧
        (∀ (s : Shader) (m : Mesh) (i j : Nat),
          map_find t._mesh_draw_indices (s, m) = some (i, j) →
          ∃ sd md, t._shader_draws[i]? = some sd ∧ sd.shader = s ∧
            sd.mesh_draws[j]? = some md ∧ md.mesh = m) ∧
        (∀ s : Shader, ∃ t1 i sd, t.find_add_shader_draw s = Except.ok (t1, i) ∧
          t1._shader_draws[i]? = some sd ∧ sd.shader = s) ∧
        (∀ (s : Shader) (m : Mesh), ∃ t2 i j sd md,
          t.find_add_mesh_draw s m = Except.ok (t2, i, j) ∧
          t2._shader_draws[i]? = some sd ∧ sd.shader = s ∧
          sd.mesh_draws[j]? = some md ∧ md.mesh = m) :=
  ⟨sample_calls_valid, index_maps_stay_sound sample_config sample_calls 3 sample_calls_valid⟩

/-! ## The first sort and draw calls of equal order key -/

theorem orderedInsert_calls_of_order (k : Int) (a : DrawCall) (l : List DrawCall) :
    calls_of_order k (List.orderedInsert (fun x y => order_comp y x = false) a l)
      = calls_of_order k (a :: l) := by
  induction l with
  | nil => rfl
  | cons b rest ih =>
    simp only [List.orderedInsert]
    split
    · rfl
    · rename_i hlt
      simp only [order_comp, decide_eq_false_iff_not, not_not] at hlt
      unfold calls_of_order at ih ⊢
      by_cases hb : b.order = k
      · have ha : ¬ a.order = k := by omega
        simp only [List.filter_cons, hb, ha, decide_True, decide_False, if_true] at ih ⊢
        simp only [Bool.false_eq_true, if_false] at ih ⊢
        rw [ih]
      · simp only [List.filter_cons, hb, decide_False, Bool.false_eq_true, if_false] at ih ⊢
        rw [ih]

/-- A stable sort by the order key keeps draw calls of equal order key in input order. -/
theorem stable_sort_calls_of_order (k : Int) (l : List DrawCall) :
    calls_of_order k (stable_sort DrawCall order_comp l) = calls_of_order k l := by
  induction l with
  | nil => rfl
  | cons a rest ih =>
    show calls_of_order k (List.orderedInsert _ a (stable_sort DrawCall order_comp rest)) = _
    rw [orderedInsert_calls_of_order]
    unfold calls_of_order at ih ⊢
    simp only [List.filter_cons, ih]

/-- C11, amended: the sequence the insertion loop of the constructor processes is the
input sorted by the order key, that is a permutation of the input in non-decreasing order
key; draw calls of equal order key stand in it in their input order when there are at most
16 draw calls. The sort is the one of GNU libstdc++, an insertion sort up to 16 elements
and an introsort, which is not stable, beyond. -/
theorem insertion_loop_input_sorted (cfg : BuildConfig) (draw_calls : List DrawCall) :
    DrawCallTree.DrawCallTree cfg libstdcxx_sort draw_calls
        = finish_tree libstdcxx_sort
            (DrawCallTree.insert_all cfg {} (libstdcxx_sort DrawCall order_comp draw_calls)) ∧
      (libstdcxx_sort DrawCall order_comp draw_calls).Perm draw_calls ∧
      (libstdcxx_sort DrawCall order_comp draw_calls).Pairwise
        (fun a b => a.order ≤ b.order) ∧
      (draw_calls.length ≤ _S_threshold → ∀ k : Int,
        calls_of_order k (libstdcxx_sort DrawCall order_comp draw_calls)
          = calls_of_order k draw_calls) := by
  obtain ⟨hp, hs⟩ := libstdcxx_sort_contract DrawCall order_comp _ order_comp_keyed draw_calls
  refine ⟨?_, hp, ?_, ?_⟩
  · unfold DrawCallTree.DrawCallTree finish_tree
    dsimp only
  · refine hs.imp ?_
    intro a b hab
    simpa [order_comp] using hab
  · intro hlen k
    rw [libstdcxx_sort_small order_comp_keyed draw_calls hlen]
    exact stable_sort_calls_of_order k draw_calls

theorem insertion_loop_input_sorted_witness :
    (seventeen_tied_calls.take 16).length ≤ _S_threshold ∧
      DrawCallTree.DrawCallTree sample_config libstdcxx_sort (seventeen_tied_calls.take 16)
          = finish_tree libstdcxx_sort
              (DrawCallTree.insert_all sample_config {}
                (libstdcxx_sort DrawCall order_comp (seventeen_tied_calls.take 16))) ∧
      (libstdcxx_sort DrawCall order_comp (seventeen_tied_calls.take 16)).Perm
        (seventeen_tied_calls.take 16) ∧
      (libstdcxx_sort DrawCall order_comp (seventeen_tied_calls.take 16)).Pairwise
        (fun a b => a.order ≤ b.order) ∧
      ∀ k : Int,
        calls_of_order k (libstdcxx_sort DrawCall order_comp (seventeen_tied_calls.take 16))
          = calls_of_order k (seventeen_tied_calls.take 16) :=
  ⟨by decide,
    (insertion_loop_input_sorted sample_config (seventeen_tied_calls.take 16)).1,
    (insertion_loop_input_sorted sample_config (seventeen_tied_calls.take 16)).2.1,
    (insertion_loop_input_sorted sample_config (seventeen_tied_calls.take 16)).2.2.1,
    (insertion_loop_input_sorted sample_config (seventeen_tied_calls.take 16)).2.2.2
      (by decide)⟩

/-- C11 as stated fails: of seventeen draw calls with the same order key, given with the
instance counts 1 to 17 in this order, the insertion loop processes the one with the
instance count 9 first, then 17, 16, 15, 14, 13, 12, 11, 10, 1, 8, 7, 6, 5, 4, 3, 2, and
the tree stores them and `execute` dispatches them so. -/
theorem insertion_loop_input_reorders_ties :
    seventeen_tied_calls.map (fun dc => dc.instance_count)
      = [1, 2, 3, 4, 5, 6, 7, 8, 9, 10, 11, 12, 13, 14, 15, 16, 17] ∧
    (∀ dc ∈ seventeen_tied_calls, dc.order = 1) ∧
    (libstdcxx_sort DrawCall order_comp seventeen_tied_calls).map
        (fun dc => dc.instance_count)
      = [9, 17, 16, 15, 14, 13, 12, 11, 10, 1, 8, 7, 6, 5, 4, 3, 2] ∧
    calls_of_order 1 (libstdcxx_sort DrawCall order_comp seventeen_tied_calls)
      ≠ calls_of_order 1 seventeen_tied_calls ∧
    ∃ tree ex,
      DrawCallTree.DrawCallTree sample_config libstdcxx_sort seventeen_tied_calls
        = Except.ok tree ∧
      tree.execute sample_config ⟨0, 0, 0, 0⟩ = Except.ok ex ∧
      ex.dispatched.map (fun dc => dc.instance_count)
        = [9, 17, 16, 15, 14, 13, 12, 11, 10, 1, 8, 7, 6, 5, 4, 3, 2] := by
  have h : (build_and_execute sample_config libstdcxx_sort seventeen_tied_calls
        ⟨0, 0, 0, 0⟩).map
      (fun p : DrawCallTree × Execution =>
        p.2.dispatched.map (fun dc : DrawCall => dc.instance_count))
      = some [9, 17, 16, 15, 14, 13, 12, 11, 10, 1, 8, 7, 6, 5, 4, 3, 2] := by
    decide!
  exact ⟨by decide!, by decide!, by decide!, by decide!, build_and_execute_some _ h⟩

/-! ## Blended draw calls among the others -/

/-- One insertion puts the draw call somewhere into the sequence of stored draw calls and
leaves the others in their relative order. -/
theorem step_dispatch_insert {s : Shader} {m : Mesh} {dc : DrawCall}
    {a b : List ShaderDrawTree} (h : Step s m dc a b) :
    ∃ pre post, dispatch_order a = pre ++ post ∧ dispatch_order b = pre ++ dc :: post := by
  cases h with
  | push pre sd post mpre md mpost hs hm hmd =>
    refine ⟨dispatch_order pre ++ (mesh_draws_calls mpre ++ md.draw_calls),
      mesh_draws_calls mpost ++ dispatch_order post, ?_, ?_⟩
    · simp [dispatch_order, mesh_draws_calls, hmd]
    · simp [dispatch_order, mesh_draws_calls, push_call]
  | new_mesh pre sd post k hs =>
    refine ⟨dispatch_order pre ++ mesh_draws_calls sd.mesh_draws, dispatch_order post, ?_, ?_⟩
    · simp [dispatch_order, mesh_draws_calls]
    · simp [dispatch_order, mesh_draws_calls]
  | new_shader k1 k2 =>
    refine ⟨dispatch_order a, [], ?_, ?_⟩
    · simp
    · simp [dispatch_order, mesh_draws_calls]

theorem requires_blending_of_material {dc : DrawCall} {material : Material}
    (hmat : dc.material = some material) :
    dc.requires_blending = material.shader.requires_blending := by
  simp [DrawCall.requires_blending, hmat]

/-- The blended draw calls are stored in the order they are inserted in, whatever else is
inserted between them. -/
theorem inserted_blended_calls {t t1 : DrawCallTree} {l : List DrawCall}
    (h : Inserted t l t1) :
    blended_calls (dispatch_order t1._shader_draws)
      = blended_calls (dispatch_order t._shader_draws) ++ blended_calls l := by
  induction h with
  | done t => simp [blended_calls]
  | blended t dc material m sds rest t2 hmat hmesh hb hstep hrest ih =>
    have hdc : dc.requires_blending = true := by
      rw [requires_blending_of_material hmat, hb]
    rw [ih]
    show blended_calls (dispatch_order sds) ++ _ = _
    rw [backStep_dispatch hstep]
    simp [blended_calls, List.filter_cons, hdc]
  | unblended t dc material m t1 rest t2 hmat hmesh hb hstep hrest ih =>
    have hdc : dc.requires_blending = false := by
      rw [requires_blending_of_material hmat, hb]
    obtain ⟨pre, post, ha, hb1⟩ := step_dispatch_insert (opaqueStep_step hstep)
    rw [ih, hb1, ha]
    simp [blended_calls, List.filter_cons, hdc]

/-- C14, amended: for every input list, blended and other draw calls mixed, in which all
shaders have the same `draw_order` and which leaves the insertion loop with at most 16
shader groups (so in particular when there are at most 16 draw calls), the blended draw
calls are dispatched by `execute` in the same relative order in which they stand in the
order-sorted input the insertion loop processes. The sort is the one of GNU libstdc++. -/
theorem blended_keep_relative_order (cfg cfg1 : BuildConfig)
    (draw_calls : List DrawCall) (tree : DrawCallTree) (stats : RenderQueueStats)
    (hlevel : ∀ a ∈ draw_calls, ∀ b ∈ draw_calls, a.draw_order = b.draw_order)
    (hgroups : inserted_group_count cfg libstdcxx_sort draw_calls ≤ _S_threshold)
    (h : DrawCallTree.DrawCallTree cfg libstdcxx_sort draw_calls = Except.ok tree) :
    ∃ ex, tree.execute cfg1 stats = Except.ok ex ∧
      blended_calls ex.dispatched
        = blended_calls (libstdcxx_sort DrawCall order_comp draw_calls) := by
  have hsort := libstdcxx_sort_contract
  have hp := (hsort DrawCall order_comp _ order_comp_keyed draw_calls).1
  obtain ⟨inserted, hins, htree⟩ := constructor_ok h
  have hvalid := insert_all_ok_valid cfg _ _ _ hins
  obtain ⟨t1, hok, htrace⟩ := insert_all_inserted cfg _ {} inv_empty hvalid
  rw [hins] at hok
  injection hok with hok
  subst hok
  have hord : InDrawOrder inserted._shader_draws := by
    apply inserted_inDrawOrder htrace
    · exact List.Pairwise.nil
    · intro sd hsd
      simp at hsd
    · apply List.pairwise_of_forall_mem_list
      intro a ha b hb sa sb hsa hsb
      rw [← draw_order_of_shader hsa, ← draw_order_of_shader hsb]
      exact le_of_eq (hlevel a (hp.mem_iff.mp ha) b (hp.mem_iff.mp hb))
  have hkeep : libstdcxx_sort ShaderDrawTree draw_order_comp inserted._shader_draws
      = inserted._shader_draws := by
    apply libstdcxx_sort_keeps_sorted draw_order_comp_keyed
    · rw [← inserted_group_count_eq hins]
      exact hgroups
    · refine hord.imp ?_
      intro a b hab
      simpa [draw_order_comp] using hab
  obtain ⟨_, hwg, _, _⟩ := constructor_built hsort h
  obtain ⟨ex, hex, hran⟩ := execute_shader_draws_ran cfg1 tree._shader_draws
    { stats := stats, commands := [], dispatched := [] } hwg
  refine ⟨ex, hex, ?_⟩
  have hd := hran.2.2.2.2.1
  simp only [List.nil_append] at hd
  rw [hd, htree, hkeep, dispatch_order_merge_tree, inserted_blended_calls htrace]
  simp [dispatch_order, blended_calls]

theorem blended_keep_relative_order_witness :
    (∀ a ∈ mixed_calls, ∀ b ∈ mixed_calls, a.draw_order = b.draw_order) ∧
      inserted_group_count sample_config libstdcxx_sort mixed_calls ≤ _S_threshold ∧
      DrawCallTree.DrawCallTree sample_config libstdcxx_sort mixed_calls
        = Except.ok mixed_tree ∧
      blended_calls (libstdcxx_sort DrawCall order_comp mixed_calls)
        = [sample_call 2 water cube 1, sample_call 4 glass quad 1,
            sample_call 5 glass quad 2] ∧
      ∃ ex, mixed_tree.execute sample_config ⟨0, 0, 0, 0⟩ = Except.ok ex ∧
        blended_calls ex.dispatched
          = blended_calls (libstdcxx_sort DrawCall order_comp mixed_calls) :=
  ⟨by decide, by decide, rfl, rfl,
    blended_keep_relative_order sample_config sample_config mixed_calls mixed_tree
      ⟨0, 0, 0, 0⟩ (by decide) (by decide) rfl⟩

/-- C14 as stated fails: seventeen blended draw calls with the order keys 1 to 17, of two
shaders in turn, and one draw call without blending with the order key 0, all of the same
priority, leave the insertion loop with eighteen shader groups, which the re-sort
rearranges: the blended draw calls are dispatched in the order 9, 17, 16, 15, 14, 13, 12,
11, 10, 8, 7, 6, 5, 4, 3, 2, 1. -/
theorem blended_overtake_on_equal_priority :
    (∀ a ∈ mixed_alternating_calls, ∀ b ∈ mixed_alternating_calls,
      a.draw_order = b.draw_order) ∧
    (blended_calls (libstdcxx_sort DrawCall order_comp mixed_alternating_calls)).map
        (fun dc => dc.order)
      = ([1, 2, 3, 4, 5, 6, 7, 8, 9, 10, 11, 12, 13, 14, 15, 16, 17] : List Int) ∧
    inserted_group_count sample_config libstdcxx_sort mixed_alternating_calls = 18 ∧
    ∃ tree ex,
      DrawCallTree.DrawCallTree sample_config libstdcxx_sort mixed_alternating_calls
        = Except.ok tree ∧
      tree.execute sample_config ⟨0, 0, 0, 0⟩ = Except.ok ex ∧
      (blended_calls ex.dispatched).map (fun dc => dc.order)
        = ([9, 17, 16, 15, 14, 13, 12, 11, 10, 8, 7, 6, 5, 4, 3, 2, 1] : List Int) := by
  have h : (build_and_execute sample_config libstdcxx_sort mixed_alternating_calls
        ⟨0, 0, 0, 0⟩).map
      (fun p : DrawCallTree × Execution =>
        (blended_calls p.2.dispatched).map (fun dc : DrawCall => dc.order))
      = some ([9, 17, 16, 15, 14, 13, 12, 11, 10, 8, 7, 6, 5, 4, 3, 2, 1] : List Int) := by
    decide!
  exact ⟨by decide!, by decide!, by decide!, build_and_execute_some _ h⟩

end rendering
